import Mathlib

/-!
Verification development for the SentinelStream financial-news ingestion and
analysis pipeline (services/python-ai).  Python source functions are shallowly
embedded as executable Lean definitions: Python strings become Lean strings,
machine integers become Nat or Int, timestamps become epoch microseconds,
fallible code returns Except or Option, and SQL row updates become explicit
record transitions.  Each claim about the specification is then settled as a
theorem about these definitions.
-/

namespace SentinelStream

/-! ## Basic Python string helpers -/

/-- Lowercasing of a single character, as Python str.lower restricted to
ASCII (all tokens compared by the worker and the URL canonicalizer are
ASCII). -/
def pyLowerChar (c : Char) : Char :=
  if 'A' ≤ c ∧ c ≤ 'Z' then Char.ofNat (c.toNat + 32) else c

/-- Python str.lower on a whole string (ASCII model). -/
def pyLower (s : String) : String :=
  String.mk (s.data.map pyLowerChar)

/-- Uppercasing of a single character, as Python str.upper restricted to ASCII. -/
def pyUpperChar (c : Char) : Char :=
  if 'a' ≤ c ∧ c ≤ 'z' then Char.ofNat (c.toNat - 32) else c

/-- Python str.upper on a whole string (ASCII model). -/
def pyUpper (s : String) : String :=
  String.mk (s.data.map pyUpperChar)

/-- Characters stripped by Python str.strip() with no arguments: the Unicode
whitespace set as used by str.isspace. -/
def pyIsSpace (c : Char) : Bool :=
  let n := c.toNat
  n = 0x20 ∨ (0x9 ≤ n ∧ n ≤ 0xd) ∨ (0x1c ≤ n ∧ n ≤ 0x1f) ∨ n = 0x85 ∨
  n = 0xa0 ∨ n = 0x1680 ∨ (0x2000 ≤ n ∧ n ≤ 0x200a) ∨ n = 0x2028 ∨
  n = 0x2029 ∨ n = 0x202f ∨ n = 0x205f ∨ n = 0x3000

/-- Python str.strip() on a character list. -/
def pyStripList (l : List Char) : List Char :=
  ((l.dropWhile pyIsSpace).reverse.dropWhile pyIsSpace).reverse

/-- Python str.strip() with no arguments. -/
def pyStrip (s : String) : String :=
  String.mk (pyStripList s.data)

/-- Test whether pat occurs at the start of l. -/
def leadsList (pat l : List Char) : Bool :=
  match pat, l with
  | [], _ => true
  | _ :: _, [] => false
  | p :: ps, c :: cs => p = c && leadsList ps cs

/-- Test whether pat occurs anywhere inside l. -/
def hasInfixList (pat l : List Char) : Bool :=
  leadsList pat l ||
    (match l with
     | [] => false
     | _ :: cs => hasInfixList pat cs)

/-- Python substring membership test, as in the expression pat in s. -/
def pyContains (s pat : String) : Bool :=
  hasInfixList pat.data s.data

/-- Python slicing s[:n] by characters. -/
def pySliceTo (s : String) (n : Nat) : String :=
  String.mk (s.data.take n)

/-! ## Worker job rows (services/python-ai/app/jobs/worker.py)

A claimed analysis_jobs row is modelled by the columns the worker reads and
writes.  Times are epoch seconds as integers; NOW() is passed explicitly. -/

/-- The mutable columns of an analysis_jobs row that the worker touches. -/
structure JobRow where
  status : String
  attempts : Nat
  run_after : Int
  locked_at : Option Int
  locked_by : Option String
  last_error : Option String
  updated_at : Int
  deriving Repr, DecidableEq

/-- The worker retry predicate is_retryable_error from worker.py: lowercase
the message; quota and auth markers are non-retryable and take precedence;
timeout, json and validation markers are retryable; default non-retryable.
A missing or empty message is non-retryable. -/
def is_retryable_error (error_message : Option String) : Bool :=
  match error_message with
  | none => false
  | some m =>
    if m = "" then false
    else
      let lowered := pyLower m
      if pyContains lowered "insufficient_quota" ∨ pyContains lowered "401" ∨
          pyContains lowered "403" then false
      else if pyContains lowered "timeout" then true
      else if pyContains lowered "json" then true
      else if pyContains lowered "validation" then true
      else false

/-- mark_failed from worker.py: on a retryable error with attempt budget left,
requeue with exponential backoff and a cleared lease; otherwise fail
terminally with a cleared lease.  last_error is the message truncated to 500
characters in both branches. -/
def mark_failed (now : Int) (job : JobRow) (error : String) (retryable : Bool)
    (max_attempts : Nat) : JobRow :=
  if retryable ∧ job.attempts + 1 < max_attempts then
    { job with
      status := "pending"
      attempts := job.attempts + 1
      last_error := some (pySliceTo error 500)
      run_after := now + 2 ^ (job.attempts + 1)
      updated_at := now
      locked_at := none
      locked_by := none }
  else
    { job with
      status := "failed"
      attempts := job.attempts + 1
      last_error := some (pySliceTo error 500)
      updated_at := now
      locked_at := none
      locked_by := none }

/-- mark_done from worker.py: set status done, clear last_error, refresh
updated_at; no other column is written. -/
def mark_done (now : Int) (job : JobRow) : JobRow :=
  { job with
    status := "done"
    updated_at := now
    last_error := none }

/-- The failure path of process_jobs in worker.py composes the retry
predicate with mark_failed. -/
def process_job_failure (now : Int) (job : JobRow) (error_message : String)
    (max_attempts : Nat) : JobRow :=
  mark_failed now job error_message (is_retryable_error (some error_message))
    max_attempts

/-- Eligibility condition of the claim query in claim_jobs (worker.py):
pending, due, and below the attempt budget. -/
def claimable (now : Int) (job : JobRow) (max_attempts : Nat) : Prop :=
  job.status = "pending" ∧ job.run_after ≤ now ∧ job.attempts < max_attempts

/-! ## Theorems for claims C2, C4, C10 -/

/-- C4: the worker retry predicate lowercases the message and returns
non-retryable when it contains insufficient_quota, 401 or 403 (these checks
take precedence), retryable when it contains timeout, json or validation, and
non-retryable otherwise, including the absent and the empty message. -/
theorem retry_predicate_characterization :
    is_retryable_error none = false ∧
    ∀ m : String,
      is_retryable_error (some m) = true ↔
        ¬(pyContains (pyLower m) "insufficient_quota" = true ∨
          pyContains (pyLower m) "401" = true ∨
          pyContains (pyLower m) "403" = true) ∧
        (pyContains (pyLower m) "timeout" = true ∨
         pyContains (pyLower m) "json" = true ∨
         pyContains (pyLower m) "validation" = true) := by
  refine ⟨rfl, fun m => ?_⟩
  by_cases hm : m = ""
  · subst hm; decide
  · simp only [is_retryable_error, if_neg hm]
    split_ifs with h1 h2 h3 h4 <;> simp_all

/-- Witness for C4 at a concrete retryable and a concrete quota message. -/
theorem retry_predicate_characterization_witness :
    is_retryable_error (some "Read TIMEOUT after 20s") = true ∧
    is_retryable_error (some "insufficient_quota: billing") = false := by
  constructor
  · exact (retry_predicate_characterization.2 "Read TIMEOUT after 20s").mpr
      (by refine ⟨?_, ?_⟩ <;> decide)
  · by_contra h
    have h2 := (retry_predicate_characterization.2 "insufficient_quota: billing").mp
      (by simpa using h)
    exact h2.1 (by decide)

/-- C2: marking a claimed job failed requeues it as pending with attempts
incremented by one, run_after = now plus 2 to the power attempts+1 seconds and
a cleared lease when the retry predicate classifies the message retryable and
attempts+1 is below the budget; otherwise it fails terminally with attempts
incremented and the lease cleared; in both branches last_error is the message
truncated to at most 500 characters. -/
theorem mark_failed_spec (now : Int) (job : JobRow) (msg : String)
    (max_attempts : Nat) :
    (is_retryable_error (some msg) = true ∧ job.attempts + 1 < max_attempts →
      (process_job_failure now job msg max_attempts).status = "pending" ∧
      (process_job_failure now job msg max_attempts).attempts = job.attempts + 1 ∧
      (process_job_failure now job msg max_attempts).run_after =
        now + 2 ^ (job.attempts + 1) ∧
      (process_job_failure now job msg max_attempts).locked_at = none ∧
      (process_job_failure now job msg max_attempts).locked_by = none) ∧
    (¬(is_retryable_error (some msg) = true ∧ job.attempts + 1 < max_attempts) →
      (process_job_failure now job msg max_attempts).status = "failed" ∧
      (process_job_failure now job msg max_attempts).attempts = job.attempts + 1 ∧
      (process_job_failure now job msg max_attempts).locked_at = none ∧
      (process_job_failure now job msg max_attempts).locked_by = none) ∧
    (process_job_failure now job msg max_attempts).last_error =
      some (pySliceTo msg 500) ∧
    (pySliceTo msg 500).length ≤ 500 := by
  unfold process_job_failure mark_failed
  refine ⟨fun h => ?_, fun h => ?_, ?_, ?_⟩
  · rw [if_pos h]
    exact ⟨rfl, rfl, rfl, rfl, rfl⟩
  · rw [if_neg h]
    exact ⟨rfl, rfl, rfl, rfl⟩
  · split_ifs <;> rfl
  · show (String.mk (msg.data.take 500)).length ≤ 500
    have : (String.mk (msg.data.take 500)).length = (msg.data.take 500).length := rfl
    rw [this, List.length_take]
    omega

/-- Witness for C2: a timeout message on a first-attempt job with budget 3 is
requeued pending with backoff 2 seconds. -/
theorem mark_failed_spec_witness :
    (process_job_failure 100 ⟨"running", 0, 0, some 5, some "w1", none, 0⟩
      "request timeout" 3).status = "pending" ∧
    (process_job_failure 100 ⟨"running", 0, 0, some 5, some "w1", none, 0⟩
      "request timeout" 3).run_after = 102 := by
  have h := mark_failed_spec 100 ⟨"running", 0, 0, some 5, some "w1", none, 0⟩
    "request timeout" 3
  have h1 := h.1 ⟨by decide, by decide⟩
  refine ⟨h1.1, ?_⟩
  rw [h1.2.2.1]
  decide

/-- C10: marking a job done updates only status, last_error and updated_at;
the lease columns locked_at and locked_by keep the claiming worker identity
and claim time, unlike the failure path which clears both. -/
theorem mark_done_frame (now : Int) (job : JobRow) :
    (mark_done now job).locked_at = job.locked_at ∧
    (mark_done now job).locked_by = job.locked_by ∧
    (mark_done now job).status = "done" ∧
    (mark_done now job).last_error = none ∧
    (mark_done now job).updated_at = now ∧
    (mark_done now job).attempts = job.attempts ∧
    (mark_done now job).run_after = job.run_after ∧
    ∀ (msg : String) (retryable : Bool) (ma : Nat),
      (mark_failed now job msg retryable ma).locked_at = none ∧
      (mark_failed now job msg retryable ma).locked_by = none := by
  refine ⟨rfl, rfl, rfl, rfl, rfl, rfl, rfl, fun msg retryable ma => ?_⟩
  unfold mark_failed
  split_ifs <;> exact ⟨rfl, rfl⟩

/-! ## LLM orchestration loop (services/python-ai/app/llm/interface.py)

The retry loop of LLMClient.analyze_news is embedded as a function of an
attempt oracle: for each attempt index the oracle says how the provider call
followed by JSON parsing and schema validation turned out.  The audit trail
(self.last_attempts) is the list of recorded attempts. -/

/-- Outcome of one attempt: provider call, then JSON parse, then validation.
ok means the text parsed and validated; providerErr is a raised ProviderError
with an optional code; parseErr covers json.JSONDecodeError, ValidationError
and ValueError; otherErr is any other exception from the provider call. -/
inductive AttemptOutcome where
  | ok (text : String)
  | providerErr (code : Option String) (msg : String)
  | parseErr (msg : String)
  | otherErr (msg : String)
  deriving Repr, DecidableEq

/-- One audited attempt: the prompt used and the recorded error, none on
success (mirrors LLMRunAttempt restricted to the fields the claims range
over). -/
structure RunAttempt where
  prompt : String
  error : Option String
  deriving Repr, DecidableEq

/-- The analyst prompt of build_prompt. -/
def build_prompt (input_text : String) : String :=
  "You are a financial news analyst. " ++
  "Analyze the news below and output ONLY valid JSON with keys: " ++
  "tickers (list of strings), sentiment (positive|neutral|negative), " ++
  "confidence (0..1), reasoning_summary (<=280 chars). " ++
  "No markdown, no extra text.\n\nNEWS:\n" ++ input_text ++ "\n"

/-- The stricter re-prompt of build_retry_prompt. -/
def build_retry_prompt (input_text : String) : String :=
  "STRICT MODE: Output ONLY JSON matching this exact schema. " ++
  "Do not include any extra keys, markdown, or commentary.\n" ++
  "TEMPLATE:\n" ++
  "\x7b\"tickers\":[\"AAPL\"],\"sentiment\":\"neutral\",\"confidence\":0.5," ++
  "\"reasoning_summary\":\"Short reason.\"\x7d" ++
  "\n\nNEWS:\n" ++ input_text ++ "\n"

/-- The error string recorded for a ProviderError, as formatted in the
except ProviderError branch of analyze_news. -/
def providerErrString (code : Option String) (msg : String) : String :=
  match code with
  | some c => "provider_error:" ++ c ++ ":" ++ msg
  | none => "provider_error:" ++ msg

/-- The attempt loop of analyze_news.  remaining counts loop iterations left
(starting at max_retries + 1); attempt is the current 0-based index; acc is
self.last_attempts so far.  Returns ok with the audit trail on success and
error with the audit trail when an LLMAnalysisError is raised. -/
def analyzeLoop (oracle : Nat → AttemptOutcome) (input_text : String) :
    Nat → Nat → List RunAttempt → Except (List RunAttempt) (List RunAttempt)
  | _, 0, acc => .error acc
  | attempt, remaining + 1, acc =>
    let prompt := if attempt = 0 then build_prompt input_text
                  else build_retry_prompt input_text
    match oracle attempt with
    | .ok _ => .ok (acc ++ [⟨prompt, none⟩])
    | .providerErr code msg =>
      let acc2 := acc ++ [⟨prompt, some (providerErrString code msg)⟩]
      if code = some "insufficient_quota" then .error acc2
      else analyzeLoop oracle input_text (attempt + 1) remaining acc2
    | .parseErr msg =>
      analyzeLoop oracle input_text (attempt + 1) remaining (acc ++ [⟨prompt, some msg⟩])
    | .otherErr msg =>
      analyzeLoop oracle input_text (attempt + 1) remaining
        (acc ++ [⟨prompt, some ("provider_error: " ++ msg)⟩])

/-- LLMClient.analyze_news: run up to max_retries + 1 attempts starting from
a fresh audit trail. -/
def analyze_news (oracle : Nat → AttemptOutcome) (max_retries : Nat)
    (input_text : String) : Except (List RunAttempt) (List RunAttempt) :=
  analyzeLoop oracle input_text 0 (max_retries + 1) []

/-- The audit trail carried by either outcome of analyze_news. -/
def auditOf (r : Except (List RunAttempt) (List RunAttempt)) : List RunAttempt :=
  match r with
  | .ok l => l
  | .error l => l

/-- An attempt outcome that fails without being the non-retryable quota
error. -/
def nonQuotaFailure (o : AttemptOutcome) : Prop :=
  match o with
  | .ok _ => False
  | .providerErr code _ => code ≠ some "insufficient_quota"
  | .parseErr _ => True
  | .otherErr _ => True

/-- An attempt outcome that is a ProviderError with code insufficient_quota. -/
def quotaFailure (o : AttemptOutcome) : Prop :=
  ∃ msg, o = AttemptOutcome.providerErr (some "insufficient_quota") msg

/-- The audit trail never exceeds the remaining attempt budget. -/
theorem analyzeLoop_length_le (oracle : Nat → AttemptOutcome) (t : String) :
    ∀ (remaining attempt : Nat) (acc : List RunAttempt),
      (auditOf (analyzeLoop oracle t attempt remaining acc)).length ≤
        acc.length + remaining := by
  intro remaining
  induction remaining with
  | zero => intro attempt acc; simp [analyzeLoop, auditOf]
  | succ n ih =>
    intro attempt acc
    cases h : oracle attempt with
    | ok text => simp [analyzeLoop, h, auditOf]
    | providerErr code msg =>
      by_cases hc : code = some "insufficient_quota"
      · simp only [analyzeLoop, h, if_pos hc, auditOf, List.length_append,
          List.length_cons, List.length_nil]
        omega
      · simp only [analyzeLoop, h, if_neg hc]
        have := ih (attempt + 1) (acc ++ [⟨if attempt = 0 then build_prompt t
          else build_retry_prompt t, some (providerErrString code msg)⟩])
        simp only [List.length_append, List.length_cons, List.length_nil] at this
        omega
    | parseErr msg =>
      simp only [analyzeLoop, h]
      have := ih (attempt + 1) (acc ++ [⟨if attempt = 0 then build_prompt t
        else build_retry_prompt t, some msg⟩])
      simp only [List.length_append, List.length_cons, List.length_nil] at this
      omega
    | otherErr msg =>
      simp only [analyzeLoop, h]
      have := ih (attempt + 1) (acc ++ [⟨if attempt = 0 then build_prompt t
        else build_retry_prompt t, some ("provider_error: " ++ msg)⟩])
      simp only [List.length_append, List.length_cons, List.length_nil] at this
      omega

/-- A quota failure at relative index i after i earlier non-quota failures
aborts the loop with exactly i + 1 new audit entries. -/
theorem analyzeLoop_quota (oracle : Nat → AttemptOutcome) (t : String) :
    ∀ (remaining attempt : Nat) (acc : List RunAttempt) (i : Nat),
      i < remaining → quotaFailure (oracle (attempt + i)) →
      (∀ j, j < i → nonQuotaFailure (oracle (attempt + j))) →
      ∃ l, analyzeLoop oracle t attempt remaining acc = .error l ∧
        l.length = acc.length + i + 1 := by
  intro remaining
  induction remaining with
  | zero => intro attempt acc i hi _ _; exact absurd hi (Nat.not_lt_zero i)
  | succ n ih =>
    intro attempt acc i hi hq hpre
    cases i with
    | zero =>
      obtain ⟨msg, hmsg⟩ := hq
      simp only [Nat.add_zero] at hmsg
      simp only [analyzeLoop, hmsg, if_pos rfl]
      exact ⟨_, rfl, by simp⟩
    | succ k =>
      have h0 : nonQuotaFailure (oracle (attempt + 0)) := hpre 0 (Nat.succ_pos k)
      simp only [Nat.add_zero] at h0
      simp only [analyzeLoop]
      cases h : oracle attempt with
      | ok text => rw [h] at h0; exact absurd h0 (by simp [nonQuotaFailure])
      | providerErr code msg =>
        rw [h] at h0
        have hc : ¬ code = some "insufficient_quota" := h0
        simp only [if_neg hc]
        have hq2 : quotaFailure (oracle (attempt + 1 + k)) := by
          have : attempt + 1 + k = attempt + (k + 1) := by omega
          rw [this]; exact hq
        have hpre2 : ∀ j, j < k → nonQuotaFailure (oracle (attempt + 1 + j)) := by
          intro j hj
          have : attempt + 1 + j = attempt + (j + 1) := by omega
          rw [this]; exact hpre (j + 1) (by omega)
        obtain ⟨l, hl, hlen⟩ := ih (attempt + 1) _ k (by omega) hq2 hpre2
        refine ⟨l, hl, ?_⟩
        simp only [List.length_append, List.length_cons, List.length_nil] at hlen
        omega
      | parseErr msg =>
        have hq2 : quotaFailure (oracle (attempt + 1 + k)) := by
          have : attempt + 1 + k = attempt + (k + 1) := by omega
          rw [this]; exact hq
        have hpre2 : ∀ j, j < k → nonQuotaFailure (oracle (attempt + 1 + j)) := by
          intro j hj
          have : attempt + 1 + j = attempt + (j + 1) := by omega
          rw [this]; exact hpre (j + 1) (by omega)
        obtain ⟨l, hl, hlen⟩ := ih (attempt + 1) _ k (by omega) hq2 hpre2
        refine ⟨l, hl, ?_⟩
        simp only [List.length_append, List.length_cons, List.length_nil] at hlen
        omega
      | otherErr msg =>
        have hq2 : quotaFailure (oracle (attempt + 1 + k)) := by
          have : attempt + 1 + k = attempt + (k + 1) := by omega
          rw [this]; exact hq
        have hpre2 : ∀ j, j < k → nonQuotaFailure (oracle (attempt + 1 + j)) := by
          intro j hj
          have : attempt + 1 + j = attempt + (j + 1) := by omega
          rw [this]; exact hpre (j + 1) (by omega)
        obtain ⟨l, hl, hlen⟩ := ih (attempt + 1) _ k (by omega) hq2 hpre2
        refine ⟨l, hl, ?_⟩
        simp only [List.length_append, List.length_cons, List.length_nil] at hlen
        omega

/-- When every remaining attempt fails for a non-quota reason, the loop
exhausts the budget with one audit entry per attempt. -/
theorem analyzeLoop_allfail (oracle : Nat → AttemptOutcome) (t : String) :
    ∀ (remaining attempt : Nat) (acc : List RunAttempt),
      (∀ i, i < remaining → nonQuotaFailure (oracle (attempt + i))) →
      ∃ l, analyzeLoop oracle t attempt remaining acc = .error l ∧
        l.length = acc.length + remaining := by
  intro remaining
  induction remaining with
  | zero => intro attempt acc _; exact ⟨acc, rfl, by omega⟩
  | succ n ih =>
    intro attempt acc hall
    have h0 : nonQuotaFailure (oracle (attempt + 0)) := hall 0 (Nat.succ_pos n)
    simp only [Nat.add_zero] at h0
    have hrest : ∀ i, i < n → nonQuotaFailure (oracle (attempt + 1 + i)) := by
      intro i hi
      have : attempt + 1 + i = attempt + (i + 1) := by omega
      rw [this]; exact hall (i + 1) (by omega)
    simp only [analyzeLoop]
    cases h : oracle attempt with
    | ok text => rw [h] at h0; exact absurd h0 (by simp [nonQuotaFailure])
    | providerErr code msg =>
      rw [h] at h0
      have hc : ¬ code = some "insufficient_quota" := h0
      simp only [if_neg hc]
      obtain ⟨l, hl, hlen⟩ := ih (attempt + 1) _ hrest
      refine ⟨l, hl, ?_⟩
      simp only [List.length_append, List.length_cons, List.length_nil] at hlen
      omega
    | parseErr msg =>
      obtain ⟨l, hl, hlen⟩ := ih (attempt + 1) _ hrest
      refine ⟨l, hl, ?_⟩
      simp only [List.length_append, List.length_cons, List.length_nil] at hlen
      omega
    | otherErr msg =>
      obtain ⟨l, hl, hlen⟩ := ih (attempt + 1) _ hrest
      refine ⟨l, hl, ?_⟩
      simp only [List.length_append, List.length_cons, List.length_nil] at hlen
      omega

/-- C3: analyze_news runs at most max_retries + 1 attempts; a ProviderError
with code insufficient_quota at 0-based attempt index i, after i audited
non-quota failures, aborts immediately with an LLMAnalysisError whose audit
trail has exactly i + 1 entries (exactly 1 when i = 0); and when every
attempt fails for a non-quota reason the raised LLMAnalysisError carries
exactly max_retries + 1 audit entries, one per attempt made. -/
theorem analyze_news_attempt_accounting (oracle : Nat → AttemptOutcome)
    (max_retries : Nat) (input_text : String) :
    (auditOf (analyze_news oracle max_retries input_text)).length ≤
      max_retries + 1 ∧
    (∀ i, i ≤ max_retries → quotaFailure (oracle i) →
      (∀ j, j < i → nonQuotaFailure (oracle j)) →
      ∃ l, analyze_news oracle max_retries input_text = .error l ∧
        l.length = i + 1) ∧
    ((∀ i, i ≤ max_retries → nonQuotaFailure (oracle i)) →
      ∃ l, analyze_news oracle max_retries input_text = .error l ∧
        l.length = max_retries + 1) := by
  refine ⟨?_, fun i hi hq hpre => ?_, fun hall => ?_⟩
  · have := analyzeLoop_length_le oracle input_text (max_retries + 1) 0 []
    simpa [analyze_news] using this
  · have := analyzeLoop_quota oracle input_text (max_retries + 1) 0 [] i
      (by omega) (by simpa using hq) (by simpa using hpre)
    simpa [analyze_news] using this
  · have := analyzeLoop_allfail oracle input_text (max_retries + 1) 0 []
      (by simpa using fun i hi => hall i (by omega))
    simpa [analyze_news] using this

/-- Witness for C3: a quota error on the very first call with max_retries = 2
yields an analysis failure carrying exactly one audited attempt. -/
theorem analyze_news_attempt_accounting_witness :
    (auditOf (analyze_news
      (fun _ => AttemptOutcome.providerErr (some "insufficient_quota") "quota")
      2 "news")).length = 1 := by
  obtain ⟨l, hl, hlen⟩ :=
    (analyze_news_attempt_accounting
      (fun _ => AttemptOutcome.providerErr (some "insufficient_quota") "quota")
      2 "news").2.1 0 (by omega) ⟨"quota", rfl⟩
      (fun j hj => absurd hj (Nat.not_lt_zero j))
  rw [hl]
  simpa [auditOf] using hlen

/-! ## AnalysisResult schema validation (services/python-ai/app/llm/interface.py)

The pydantic model AnalysisResult with strict mode and extra=forbid is
embedded as a validation function over parsed JSON objects.  JSON numbers are
modelled as rationals. -/

/-- A parsed JSON value. -/
inductive JsonVal where
  | jnull
  | jbool (b : Bool)
  | jnum (q : ℚ)
  | jstr (s : String)
  | jarr (xs : List JsonVal)
  | jobj (fields : List (String × JsonVal))

/-- Dictionary access on a JSON object, with later duplicate keys overriding
earlier ones as in Python dicts. -/
def dictGet (fields : List (String × JsonVal)) (k : String) : Option JsonVal :=
  (fields.reverse.find? (fun kv => kv.1 = k)).map Prod.snd

/-- The four schema fields of AnalysisResult. -/
def allowedKeys : List String :=
  ["tickers", "sentiment", "confidence", "reasoning_summary"]

/-- Python list(dict.fromkeys(l)): deduplicate keeping the first occurrence
of each element in order. -/
def dedupKeepFirst (l : List String) : List String :=
  l.foldl (fun acc x => if acc.contains x then acc else acc ++ [x]) []

/-- The tickers field validator: every item must be a string whose
stripped, uppercased form is non-empty. -/
def cleanTickers : List JsonVal → Option (List String)
  | [] => some []
  | JsonVal.jstr s :: rest =>
    let item := pyUpper (pyStrip s)
    if item = "" then none else (cleanTickers rest).map (fun l => item :: l)
  | _ :: _ => none

/-- Validation of the optional tickers field: absent defaults to the empty
list; present it must be a list of valid ticker strings, deduplicated
preserving order. -/
def validTickers (v : Option JsonVal) : Option (List String) :=
  match v with
  | none => some []
  | some (JsonVal.jarr xs) => (cleanTickers xs).map dedupKeepFirst
  | some _ => none

/-- Validation of the sentiment field: a string in the allowed set. -/
def validSentiment (v : Option JsonVal) : Option String :=
  match v with
  | some (JsonVal.jstr s) =>
    if s = "positive" ∨ s = "neutral" ∨ s = "negative" then some s else none
  | _ => none

/-- Validation of the confidence field: a number between 0 and 1. -/
def validConfidence (v : Option JsonVal) : Option ℚ :=
  match v with
  | some (JsonVal.jnum q) => if 0 ≤ q ∧ q ≤ 1 then some q else none
  | _ => none

/-- Validation of the reasoning_summary field: a string that strips to a
non-empty value of at most 280 characters; the stripped value is kept. -/
def validSummary (v : Option JsonVal) : Option String :=
  match v with
  | some (JsonVal.jstr s) =>
    let t := pyStrip s
    if t ≠ "" ∧ t.length ≤ 280 then some t else none
  | _ => none

/-- The validated in-memory AnalysisResult. -/
structure AnalysisResultM where
  tickers : List String
  sentiment : String
  confidence : ℚ
  reasoning_summary : String
  deriving Repr, DecidableEq

/-- AnalysisResult.model_validate on a JSON object: extra keys are forbidden
and each schema field must validate. -/
def analysisResultValidate (fields : List (String × JsonVal)) :
    Option AnalysisResultM :=
  if fields.all (fun kv => allowedKeys.contains kv.1) then
    match validTickers (dictGet fields "tickers"),
        validSentiment (dictGet fields "sentiment"),
        validConfidence (dictGet fields "confidence"),
        validSummary (dictGet fields "reasoning_summary") with
    | some t, some s, some c, some r => some ⟨t, s, c, r⟩
    | _, _, _, _ => none
  else none

/-- Mapping a function over an option does not change whether it is some. -/
theorem isSomeMap {α β : Type} (f : α → β) (o : Option α) :
    (Option.map f o).isSome = o.isSome := by
  cases o <;> rfl

/-- Validity of every tickers entry characterizes success of cleanTickers. -/
theorem cleanTickers_isSome (xs : List JsonVal) :
    (cleanTickers xs).isSome = true ↔
      ∀ x ∈ xs, ∃ s, x = JsonVal.jstr s ∧ pyUpper (pyStrip s) ≠ "" := by
  induction xs with
  | nil => simp [cleanTickers]
  | cons x rest ih =>
    cases x with
    | jstr s =>
      by_cases hs : pyUpper (pyStrip s) = ""
      · simp only [cleanTickers, if_pos hs]
        simp only [Option.isSome_none, List.mem_cons]
        constructor
        · intro h; exact absurd h (by simp)
        · intro h
          obtain ⟨s2, hs2, hne⟩ := h (JsonVal.jstr s) (Or.inl rfl)
          cases hs2
          exact absurd hs hne
      · simp only [cleanTickers, if_neg hs]
        rw [isSomeMap]
        rw [ih]
        constructor
        · intro h y hy
          rcases List.mem_cons.mp hy with h1 | h2
          · exact ⟨s, h1, hs⟩
          · exact h y h2
        · intro h y hy
          exact h y (List.mem_cons_of_mem _ hy)
    | jnull =>
      simp only [cleanTickers, Option.isSome_none]
      constructor
      · intro h; exact absurd h (by simp)
      · intro h
        obtain ⟨s2, hs2, _⟩ := h JsonVal.jnull (List.mem_cons_self _ _)
        cases hs2
    | jbool b =>
      simp only [cleanTickers, Option.isSome_none]
      constructor
      · intro h; exact absurd h (by simp)
      · intro h
        obtain ⟨s2, hs2, _⟩ := h (JsonVal.jbool b) (List.mem_cons_self _ _)
        cases hs2
    | jnum q =>
      simp only [cleanTickers, Option.isSome_none]
      constructor
      · intro h; exact absurd h (by simp)
      · intro h
        obtain ⟨s2, hs2, _⟩ := h (JsonVal.jnum q) (List.mem_cons_self _ _)
        cases hs2
    | jarr ys =>
      simp only [cleanTickers, Option.isSome_none]
      constructor
      · intro h; exact absurd h (by simp)
      · intro h
        obtain ⟨s2, hs2, _⟩ := h (JsonVal.jarr ys) (List.mem_cons_self _ _)
        cases hs2
    | jobj fs =>
      simp only [cleanTickers, Option.isSome_none]
      constructor
      · intro h; exact absurd h (by simp)
      · intro h
        obtain ⟨s2, hs2, _⟩ := h (JsonVal.jobj fs) (List.mem_cons_self _ _)
        cases hs2

/-- The JSON object of the C5 counterexample: all four schema conditions of
the claim hold, but the tickers value is a bare string rather than a list. -/
def c5Fields : List (String × JsonVal) :=
  [("tickers", JsonVal.jstr "AAPL"),
   ("sentiment", JsonVal.jstr "neutral"),
   ("confidence", JsonVal.jnum (1 / 2)),
   ("reasoning_summary", JsonVal.jstr "ok")]

/-- C5 counterexample: the claim says validation accepts exactly when the
sentiment, confidence and reasoning_summary conditions hold and no key beyond
the four schema fields is present; this object satisfies all of that, yet
validation rejects it because tickers also has to be a list of non-empty
strings. -/
theorem analysis_validation_counterexample :
    analysisResultValidate c5Fields = none ∧
    dictGet c5Fields "sentiment" = some (JsonVal.jstr "neutral") ∧
    ("neutral" = "positive" ∨ "neutral" = "neutral" ∨ "neutral" = "negative") ∧
    dictGet c5Fields "confidence" = some (JsonVal.jnum (1 / 2)) ∧
    (0 : ℚ) ≤ 1 / 2 ∧ (1 / 2 : ℚ) ≤ 1 ∧
    dictGet c5Fields "reasoning_summary" = some (JsonVal.jstr "ok") ∧
    pyStrip "ok" ≠ "" ∧ (pyStrip "ok").length ≤ 280 ∧
    (∀ kv ∈ c5Fields, kv.1 ∈ allowedKeys) := by
  refine ⟨rfl, rfl, by simp, rfl, by norm_num, by norm_num, rfl, ?_, ?_, ?_⟩
  · decide
  · decide
  · decide

/-- C5 amended: validation accepts a JSON object exactly when sentiment is
one of the three allowed strings, confidence is a number between 0 and 1
inclusive, reasoning_summary strips to a non-empty string of at most 280
characters, no key beyond the four schema fields is present, and in addition
the tickers field, when present, is a list of strings each of which strips
and uppercases to a non-empty value. -/
theorem analysis_validation_characterization (fields : List (String × JsonVal)) :
    (analysisResultValidate fields).isSome = true ↔
      (∀ kv ∈ fields, kv.1 ∈ allowedKeys) ∧
      (∃ s, dictGet fields "sentiment" = some (JsonVal.jstr s) ∧
        (s = "positive" ∨ s = "neutral" ∨ s = "negative")) ∧
      (∃ q, dictGet fields "confidence" = some (JsonVal.jnum q) ∧
        0 ≤ q ∧ q ≤ 1) ∧
      (∃ s, dictGet fields "reasoning_summary" = some (JsonVal.jstr s) ∧
        pyStrip s ≠ "" ∧ (pyStrip s).length ≤ 280) ∧
      (dictGet fields "tickers" = none ∨
       ∃ xs, dictGet fields "tickers" = some (JsonVal.jarr xs) ∧
         ∀ x ∈ xs, ∃ s, x = JsonVal.jstr s ∧ pyUpper (pyStrip s) ≠ "") := by
  unfold analysisResultValidate
  by_cases hall : fields.all (fun kv => allowedKeys.contains kv.1) = true
  · rw [if_pos hall]
    have hallmem : ∀ kv ∈ fields, kv.1 ∈ allowedKeys := by
      intro kv hkv
      have := List.all_eq_true.mp hall kv hkv
      simpa using this
    have htick : (validTickers (dictGet fields "tickers")).isSome = true ↔
        (dictGet fields "tickers" = none ∨
         ∃ xs, dictGet fields "tickers" = some (JsonVal.jarr xs) ∧
           ∀ x ∈ xs, ∃ s, x = JsonVal.jstr s ∧ pyUpper (pyStrip s) ≠ "") := by
      cases hv : dictGet fields "tickers" with
      | none => simp [validTickers]
      | some v =>
        cases v with
        | jarr xs =>
          simp only [validTickers, isSomeMap]
          rw [cleanTickers_isSome]
          simp
        | jnull => simp [validTickers]
        | jbool b => simp [validTickers]
        | jnum q => simp [validTickers]
        | jstr s => simp [validTickers]
        | jobj fs => simp [validTickers]
    have hsent : (validSentiment (dictGet fields "sentiment")).isSome = true ↔
        (∃ s, dictGet fields "sentiment" = some (JsonVal.jstr s) ∧
          (s = "positive" ∨ s = "neutral" ∨ s = "negative")) := by
      cases hv : dictGet fields "sentiment" with
      | none => simp [validSentiment]
      | some v =>
        cases v with
        | jstr s =>
          by_cases hs : s = "positive" ∨ s = "neutral" ∨ s = "negative"
          · simp [validSentiment, if_pos hs, hs]
          · simp [validSentiment, if_neg hs, hs]
        | jnull => simp [validSentiment]
        | jbool b => simp [validSentiment]
        | jnum q => simp [validSentiment]
        | jarr xs => simp [validSentiment]
        | jobj fs => simp [validSentiment]
    have hconf : (validConfidence (dictGet fields "confidence")).isSome = true ↔
        (∃ q, dictGet fields "confidence" = some (JsonVal.jnum q) ∧
          0 ≤ q ∧ q ≤ 1) := by
      cases hv : dictGet fields "confidence" with
      | none => simp [validConfidence]
      | some v =>
        cases v with
        | jnum q =>
          by_cases hq : 0 ≤ q ∧ q ≤ 1
          · simp [validConfidence, if_pos hq, hq]
          · simp [validConfidence, if_neg hq, hq]
        | jnull => simp [validConfidence]
        | jbool b => simp [validConfidence]
        | jstr s => simp [validConfidence]
        | jarr xs => simp [validConfidence]
        | jobj fs => simp [validConfidence]
    have hsum : (validSummary (dictGet fields "reasoning_summary")).isSome = true ↔
        (∃ s, dictGet fields "reasoning_summary" = some (JsonVal.jstr s) ∧
          pyStrip s ≠ "" ∧ (pyStrip s).length ≤ 280) := by
      cases hv : dictGet fields "reasoning_summary" with
      | none => simp [validSummary]
      | some v =>
        cases v with
        | jstr s =>
          by_cases hs : pyStrip s ≠ "" ∧ (pyStrip s).length ≤ 280
          · simp [validSummary, if_pos hs, hs.1, hs.2]
          · simp only [validSummary, if_neg hs]
            simp only [Option.isSome_none, Bool.false_eq_true, false_iff]
            intro h
            obtain ⟨s2, hs2, h1, h2⟩ := h
            cases hs2
            exact hs ⟨h1, h2⟩
        | jnull => simp [validSummary]
        | jbool b => simp [validSummary]
        | jnum q => simp [validSummary]
        | jarr xs => simp [validSummary]
        | jobj fs => simp [validSummary]
    cases ht : validTickers (dictGet fields "tickers") with
    | none =>
      rw [ht] at htick
      simp only [Option.isSome_none, Bool.false_eq_true, false_iff] at htick
      simp only [Option.isSome_none, Bool.false_eq_true, false_iff]
      intro h
      exact htick h.2.2.2.2
    | some t =>
      cases hs : validSentiment (dictGet fields "sentiment") with
      | none =>
        rw [hs] at hsent
        simp only [Option.isSome_none, Bool.false_eq_true, false_iff] at hsent
        simp only [Option.isSome_none, Bool.false_eq_true, false_iff]
        intro h
        exact hsent h.2.1
      | some sv =>
        cases hc : validConfidence (dictGet fields "confidence") with
        | none =>
          rw [hc] at hconf
          simp only [Option.isSome_none, Bool.false_eq_true, false_iff] at hconf
          simp only [Option.isSome_none, Bool.false_eq_true, false_iff]
          intro h
          exact hconf h.2.2.1
        | some cv =>
          cases hr : validSummary (dictGet fields "reasoning_summary") with
          | none =>
            rw [hr] at hsum
            simp only [Option.isSome_none, Bool.false_eq_true, false_iff] at hsum
            simp only [Option.isSome_none, Bool.false_eq_true, false_iff]
            intro h
            exact hsum h.2.2.2.1
          | some rv =>
            simp only [Option.isSome_some, true_iff]
            rw [ht] at htick
            rw [hs] at hsent
            rw [hc] at hconf
            rw [hr] at hsum
            simp only [Option.isSome_some, true_iff] at htick hsent hconf hsum
            exact ⟨hallmem, hsent, hconf, hsum, htick⟩
  · rw [if_neg hall]
    simp only [Option.isSome_none, Bool.false_eq_true, false_iff]
    intro h
    apply hall
    rw [List.all_eq_true]
    intro kv hkv
    simpa using h.1 kv hkv

/-- Witness for C5 at a concrete accepted object. -/
theorem analysis_validation_characterization_witness :
    (analysisResultValidate
      [("sentiment", JsonVal.jstr "positive"),
       ("confidence", JsonVal.jnum 1),
       ("reasoning_summary", JsonVal.jstr "Strong demand.")]).isSome = true := by
  apply (analysis_validation_characterization _).mpr
  refine ⟨by decide, ⟨"positive", rfl, by simp⟩, ⟨1, rfl, by norm_num⟩,
    ⟨"Strong demand.", rfl, by decide, by decide⟩, Or.inl rfl⟩

/-! ## URL canonicalization (services/python-ai/app/ingestion/url_utils.py)

canonicalize_url builds on the CPython urllib.parse stack: urlsplit,
parse_qsl, quote_plus, unquote_plus, urlencode and urlunsplit, modelled here
after the CPython 3.11 implementations.  Strings are processed as character
lists; percent encoding works on UTF-8 bytes represented as Nat. -/

/-- The characters removed everywhere by urlsplit (tab, CR, LF). -/
def isTabCrLf (c : Char) : Bool :=
  c = '\t' ∨ c = '\r' ∨ c = '\n'

/-- The WHATWG C0-control-or-space set stripped from the front by urlsplit. -/
def isC0OrSpace (c : Char) : Bool :=
  c.toNat ≤ 0x20

/-- ASCII letter test. -/
def isAsciiAlphaCh (c : Char) : Bool :=
  ('A' ≤ c ∧ c ≤ 'Z') ∨ ('a' ≤ c ∧ c ≤ 'z')

/-- ASCII digit test. -/
def isAsciiDigitCh (c : Char) : Bool :=
  '0' ≤ c ∧ c ≤ '9'

/-- The scheme_chars set of urllib.parse. -/
def isSchemeChar (c : Char) : Bool :=
  isAsciiAlphaCh c ∨ isAsciiDigitCh c ∨ c = '+' ∨ c = '-' ∨ c = '.'

/-- Split a character list at the first occurrence of sep, which is dropped;
none when sep does not occur. -/
def splitAtFirst (sep : Char) : List Char → Option (List Char × List Char)
  | [] => none
  | c :: cs =>
    if c = sep then some ([], cs)
    else (splitAtFirst sep cs).map (fun p => (c :: p.1, p.2))

/-- Split a character list at the last occurrence of sep, which is dropped;
none when sep does not occur (mirrors str.rpartition). -/
def splitAtLast (sep : Char) (l : List Char) : Option (List Char × List Char) :=
  (splitAtFirst sep l.reverse).map (fun p => (p.2.reverse, p.1.reverse))

/-- The component record returned by urlsplit. -/
structure SplitParts where
  scheme : String
  netloc : String
  path : String
  query : String
  fragment : String
  deriving Repr, DecidableEq

/-- splitnetloc of urllib.parse: the netloc runs to the first of the three
delimiters slash, question mark, hash. -/
def netlocDelim (c : Char) : Bool :=
  c = '/' ∨ c = '?' ∨ c = '#'

/-- urlsplit from urllib.parse (CPython 3.11): remove tab, CR and LF, strip
leading C0-control-or-space characters, detect the scheme, split off the
netloc after a leading double slash (validating bracket balance), then split
the fragment at the first hash and the query at the first question mark.
The additional domain restrictions of newer CPython on bracketed hosts and
on NFKC-normalized netlocs only reject further inputs and are not modelled. -/
def url0Of (s : String) : List Char :=
  (s.data.dropWhile isC0OrSpace).filter (fun c => ¬ isTabCrLf c)

/-- Scheme detection of urlsplit: everything before the first colon is the
scheme when non-empty, alphabetic-first and made of scheme characters; the
scheme is lowercased and the rest follows the colon.  Otherwise there is no
scheme and the rest is the whole input. -/
def schemeSplit (url0 : List Char) : List Char × List Char :=
  match splitAtFirst ':' url0 with
  | some (pre, post) =>
    if pre ≠ [] ∧ isAsciiAlphaCh (pre.headD ' ') ∧ pre.all isSchemeChar then
      (pre.map pyLowerChar, post)
    else ([], url0)
  | none => ([], url0)

/-- Netloc splitting of urlsplit: after a leading double slash the netloc
runs to the first delimiter, with the bracket balance check of
_check_bracketed. -/
def netlocSplitF (rest : List Char) : Except String (List Char × List Char) :=
  match rest with
  | '/' :: '/' :: tail =>
    if (tail.takeWhile (fun c => ¬ netlocDelim c)).contains '[' ∧
        ¬ (tail.takeWhile (fun c => ¬ netlocDelim c)).contains ']' ∨
        (tail.takeWhile (fun c => ¬ netlocDelim c)).contains ']' ∧
        ¬ (tail.takeWhile (fun c => ¬ netlocDelim c)).contains '[' then
      Except.error "Invalid IPv6 URL"
    else
      Except.ok (tail.takeWhile (fun c => ¬ netlocDelim c),
        tail.dropWhile (fun c => ¬ netlocDelim c))
  | _ => Except.ok ([], rest)

/-- Fragment split at the first hash. -/
def fragSplitF (rest2 : List Char) : List Char × List Char :=
  match splitAtFirst '#' rest2 with
  | some (pre, post) => (pre, post)
  | none => (rest2, [])

/-- Query split at the first question mark. -/
def querySplitF (pre : List Char) : List Char × List Char :=
  match splitAtFirst '?' pre with
  | some (a, b) => (a, b)
  | none => (pre, [])

def pyUrlsplit (s : String) : Except String SplitParts :=
  match netlocSplitF (schemeSplit (url0Of s)).2 with
  | Except.error e => Except.error e
  | Except.ok (netloc, rest2) =>
    Except.ok
      { scheme := String.mk (schemeSplit (url0Of s)).1
        netloc := String.mk netloc
        path := String.mk (querySplitF (fragSplitF rest2).1).1
        query := String.mk (querySplitF (fragSplitF rest2).1).2
        fragment := String.mk (fragSplitF rest2).2 }

/-- hostinfo of SplitResult: the part of the netloc after the last at sign. -/
def hostinfoOf (netloc : List Char) : List Char :=
  match splitAtLast '@' netloc with
  | some (_, host) => host
  | none => netloc

/-- The raw hostname and port strings of the hostinfo, following the
_hostinfo property: a bracketed form takes the hostname between the first
opening and the following closing bracket with the port after a colon behind
it; otherwise the hostname is everything before the first colon.  An empty
port string counts as absent. -/
def hostPortSplit (hostinfo : List Char) : List Char × Option (List Char) :=
  match splitAtFirst '[' hostinfo with
  | some (_, bracketed) =>
    match splitAtFirst ']' bracketed with
    | some (hostname, portpart) =>
      match splitAtFirst ':' portpart with
      | some (_, port) => (hostname, if port = [] then none else some port)
      | none => (hostname, none)
    | none => (bracketed, none)
  | none =>
    match splitAtFirst ':' hostinfo with
    | some (host, port) => (host, if port = [] then none else some port)
    | none => (hostinfo, none)

/-- The hostname property of SplitResult: the raw hostname, lowercased up to
a percent sign so that an IPv6 zone id keeps its case, or none when empty. -/
def hostnameProp (netloc : List Char) : Option String :=
  let h := (hostPortSplit (hostinfoOf netloc)).1
  if h = [] then none
  else
    some (String.mk
      (match splitAtFirst '%' h with
       | some (pre, zone) => pre.map pyLowerChar ++ '%' :: zone
       | none => h.map pyLowerChar))

/-- The username and password properties of SplitResult: the part before the
last at sign, split at its first colon. -/
def userinfoProp (netloc : List Char) : Option String × Option String :=
  match splitAtLast '@' netloc with
  | some (userinfo, _) =>
    match splitAtFirst ':' userinfo with
    | some (u, p) => (some (String.mk u), some (String.mk p))
    | none => (some (String.mk userinfo), none)
  | none => (none, none)

/-- Numeric value of an ASCII digit run. -/
def digitsVal (l : List Char) : Nat :=
  l.foldl (fun acc c => acc * 10 + (c.toNat - 48)) 0

/-- The port property of SplitResult: the port string must be a non-empty
ASCII digit run in the range 0..65535, raising ValueError otherwise. -/
def portProp (netloc : List Char) : Except String (Option Nat) :=
  match (hostPortSplit (hostinfoOf netloc)).2 with
  | none => Except.ok none
  | some p =>
    if p.all isAsciiDigitCh then
      if digitsVal p ≤ 65535 then Except.ok (some (digitsVal p))
      else Except.error "Port out of range 0-65535"
    else Except.error "Port could not be cast to integer value"

/-! ### Percent encoding over UTF-8 bytes -/

/-- UTF-8 encoding of one character as a byte list. -/
def utf8EncodeChar (c : Char) : List Nat :=
  let n := c.toNat
  if n < 0x80 then [n]
  else if n < 0x800 then [0xC0 + n / 64, 0x80 + n % 64]
  else if n < 0x10000 then
    [0xE0 + n / 4096, 0x80 + (n / 64) % 64, 0x80 + n % 64]
  else
    [0xF0 + n / 262144, 0x80 + (n / 4096) % 64, 0x80 + (n / 64) % 64,
     0x80 + n % 64]

/-- UTF-8 encoding of a character list. -/
def utf8EncodeList (cs : List Char) : List Nat :=
  (cs.map utf8EncodeChar).flatten

/-- The Unicode replacement character. -/
def replCh : Char := Char.ofNat 0xFFFD

/-- UTF-8 continuation byte test. -/
def contByte (b : Nat) : Bool :=
  0x80 ≤ b ∧ b < 0xC0

/-- Fuel-indexed UTF-8 decoder; the fuel bounds the number of bytes and
keeps the recursion structural.  Ill-formed sequences map to replacement
characters; the exact replacement count for ill-formed input is modelled
leniently, which no claim observes. -/
def utf8DecodeAux : Nat → List Nat → List Char
  | 0, _ => []
  | _ + 1, [] => []
  | fuel + 1, b :: rest =>
    if b < 0x80 then Char.ofNat b :: utf8DecodeAux fuel rest
    else if 0xC0 ≤ b ∧ b < 0xE0 then
      match rest with
      | b2 :: rest2 =>
        if contByte b2 then
          Char.ofNat ((b - 0xC0) * 64 + (b2 - 0x80)) :: utf8DecodeAux fuel rest2
        else replCh :: utf8DecodeAux fuel (b2 :: rest2)
      | [] => [replCh]
    else if 0xE0 ≤ b ∧ b < 0xF0 then
      match rest with
      | b2 :: b3 :: rest3 =>
        if contByte b2 ∧ contByte b3 then
          Char.ofNat ((b - 0xE0) * 4096 + (b2 - 0x80) * 64 + (b3 - 0x80)) ::
            utf8DecodeAux fuel rest3
        else replCh :: utf8DecodeAux fuel (b2 :: b3 :: rest3)
      | _ => [replCh]
    else if 0xF0 ≤ b ∧ b < 0xF8 then
      match rest with
      | b2 :: b3 :: b4 :: rest4 =>
        if contByte b2 ∧ contByte b3 ∧ contByte b4 then
          Char.ofNat ((b - 0xF0) * 262144 + (b2 - 0x80) * 4096 +
            (b3 - 0x80) * 64 + (b4 - 0x80)) :: utf8DecodeAux fuel rest4
        else replCh :: utf8DecodeAux fuel (b2 :: b3 :: b4 :: rest4)
      | _ => [replCh]
    else replCh :: utf8DecodeAux fuel rest

/-- UTF-8 decoding of a byte list with replacement on error, as performed by
bytes.decode with errors replace. -/
def utf8Decode (l : List Nat) : List Char :=
  utf8DecodeAux l.length l

/-- Value of one hex digit, upper or lower case. -/
def hexDigitVal (c : Char) : Option Nat :=
  if '0' ≤ c ∧ c ≤ '9' then some (c.toNat - 48)
  else if 'A' ≤ c ∧ c ≤ 'F' then some (c.toNat - 55)
  else if 'a' ≤ c ∧ c ≤ 'f' then some (c.toNat - 87)
  else none

/-- Upper-case hex digit for a value below 16. -/
def hexUpper (n : Nat) : Char :=
  if n < 10 then Char.ofNat (48 + n) else Char.ofNat (55 + n)

/-- Percent encoding of one byte, upper-case as produced by quote. -/
def pctEncodeByte (b : Nat) : List Char :=
  ['%', hexUpper (b / 16), hexUpper (b % 16)]

/-- The always-safe characters of urllib.parse.quote. -/
def alwaysSafeCh (c : Char) : Bool :=
  isAsciiAlphaCh c ∨ isAsciiDigitCh c ∨ c = '_' ∨ c = '.' ∨ c = '-' ∨ c = '~'

/-- quote on one character with extra safe characters: safe characters pass
through, anything else is percent-encoded byte by byte. -/
def quoteChar (safeExtra : List Char) (c : Char) : List Char :=
  if alwaysSafeCh c ∨ safeExtra.contains c then [c]
  else ((utf8EncodeChar c).map pctEncodeByte).flatten

/-- urllib.parse.quote with the given extra safe characters. -/
def quoteList (safeExtra : List Char) (cs : List Char) : List Char :=
  (cs.map (quoteChar safeExtra)).flatten

/-- urllib.parse.quote_plus with empty safe, as used by urlencode: when the
string contains a space, quote with space safe and then turn spaces into
pluses; otherwise plain quote. -/
def quote_plus (s : String) : String :=
  if s.data.contains ' ' then
    String.mk ((quoteList [' '] s.data).map (fun c => if c = ' ' then '+' else c))
  else String.mk (quoteList [] s.data)

/-- A token of the unquote scanner: a literal character or a percent-decoded
byte. -/
inductive QTok where
  | qch (c : Char)
  | qbyte (b : Nat)
  deriving Repr, DecidableEq

/-- Fuel-indexed unquote scanner: a percent followed by two hex digits
becomes a byte, any other character stays literal. -/
def qtokenizeAux : Nat → List Char → List QTok
  | 0, _ => []
  | _ + 1, [] => []
  | fuel + 1, '%' :: rest =>
    match rest with
    | h1 :: h2 :: rest2 =>
      match hexDigitVal h1, hexDigitVal h2 with
      | some a, some b => QTok.qbyte (a * 16 + b) :: qtokenizeAux fuel rest2
      | _, _ => QTok.qch '%' :: qtokenizeAux fuel (h1 :: h2 :: rest2)
    | _ => QTok.qch '%' :: qtokenizeAux fuel rest
  | fuel + 1, c :: rest => QTok.qch c :: qtokenizeAux fuel rest

/-- Scan a string into unquote tokens. -/
def qtokenize (l : List Char) : List QTok :=
  qtokenizeAux l.length l

/-- Gather maximal byte runs of the token stream and UTF-8 decode each run;
acc holds the current run reversed. -/
def qgather : List QTok → List Nat → List Char
  | [], acc => utf8Decode acc.reverse
  | QTok.qbyte b :: toks, acc => qgather toks (b :: acc)
  | QTok.qch c :: toks, acc => utf8Decode acc.reverse ++ c :: qgather toks []

/-- urllib.parse.unquote with UTF-8 and replacement errors. -/
def pyUnquote (s : String) : String :=
  String.mk (qgather (qtokenize s.data) [])

/-- urllib.parse.unquote_plus: pluses become spaces, then unquote. -/
def unquote_plus (s : String) : String :=
  pyUnquote (String.mk (s.data.map (fun c => if c = '+' then ' ' else c)))

/-! ### parse_qsl, urlencode, sorting -/

/-- Python str.split on a single separator character: split at every
occurrence, keeping empty pieces. -/
def splitOnChar (sep : Char) : List Char → List (List Char)
  | [] => [[]]
  | c :: cs =>
    if c = sep then [] :: splitOnChar sep cs
    else
      match splitOnChar sep cs with
      | g :: gs => (c :: g) :: gs
      | [] => [[c]]

/-- One name-value field of parse_qsl with keep_blank_values: empty fields
are dropped; a field without an equals sign keeps a blank value; name and
value are unquoted with plus-as-space. -/
def parseQslField (nv : List Char) : Option (String × String) :=
  if nv = [] then none
  else
    match splitAtFirst '=' nv with
    | some (n, v) => some (unquote_plus (String.mk n), unquote_plus (String.mk v))
    | none => some (unquote_plus (String.mk nv), "")

/-- urllib.parse.parse_qsl with keep_blank_values=True and the default
ampersand separator. -/
def parse_qsl (qs : String) : List (String × String) :=
  if qs = "" then []
  else (splitOnChar '&' qs.data).filterMap parseQslField

/-- urllib.parse.urlencode with doseq=True on string pairs: quote_plus each
name and value, put an equals sign between them, and join the fields with
ampersands. -/
def urlencodePairs : List (String × String) → String
  | [] => ""
  | [kv] => quote_plus kv.1 ++ "=" ++ quote_plus kv.2
  | kv :: kv2 :: rest =>
    quote_plus kv.1 ++ "=" ++ quote_plus kv.2 ++ "&" ++
      urlencodePairs (kv2 :: rest)

/-- Ascending lexicographic order on (key, value) pairs, the sort key used by
canonicalize_url. -/
def pairLe (a b : String × String) : Prop :=
  a.1 < b.1 ∨ (a.1 = b.1 ∧ a.2 ≤ b.2)

instance : DecidableRel pairLe := fun a b =>
  decidable_of_iff
    (a.1.data < b.1.data ∨ (a.1.data = b.1.data ∧ a.2.data ≤ b.2.data))
    (by
      unfold pairLe
      constructor
      · rintro (h | ⟨h1, h2⟩)
        · exact Or.inl (String.lt_iff_toList_lt.mpr h)
        · exact Or.inr ⟨String.ext h1, String.le_iff_toList_le.mpr h2⟩
      · rintro (h | ⟨h1, h2⟩)
        · exact Or.inl (String.lt_iff_toList_lt.mp h)
        · exact Or.inr ⟨congrArg String.data h1,
            String.le_iff_toList_le.mp h2⟩)

/-! ### canonicalize_url and generate_news_id -/

/-- The fixed tracking parameter set of url_utils. -/
def TRACKING_PARAMS : List String :=
  ["gclid", "fbclid", "mc_cid", "mc_eid", "ref", "ref_src", "cmpid"]

/-- A query key is dropped when its lowercase form starts with utm_ or is in
the tracking set. -/
def isTrackingKey (k : String) : Bool :=
  leadsList "utm_".data (pyLower k).data || TRACKING_PARAMS.contains (pyLower k)

/-- The uses_netloc scheme list of urllib.parse. -/
def usesNetloc : List String :=
  ["", "ftp", "http", "gopher", "nntp", "telnet", "imap", "wais", "file",
   "mms", "https", "shttp", "snews", "prospero", "rtsp", "rtsps", "rtspu",
   "rsync", "svn", "svn+ssh", "sftp", "nfs", "git", "git+ssh", "ws", "wss"]

/-- urlunsplit with an empty fragment, as called by canonicalize_url
(CPython 3.11): the double slash is emitted when a netloc is present, or
when the scheme is a known netloc-using scheme and the path does not already
begin with a double slash. -/
def urlunsplitM (scheme netloc path query : String) : String :=
  let url :=
    if netloc ≠ "" ∨
        (scheme ≠ "" ∧ usesNetloc.contains scheme ∧
         path.data.take 2 ≠ ['/', '/']) then
      "//" ++ netloc ++
        (if path ≠ "" ∧ path.data.take 1 ≠ ['/'] then "/" ++ path else path)
    else path
  let url2 := if scheme ≠ "" then scheme ++ ":" ++ url else url
  if query ≠ "" then url2 ++ "?" ++ query else url2

/-- Python path.rstrip with a slash argument. -/
def rstripSlash (p : String) : String :=
  String.mk (p.data.reverse.dropWhile (fun c => c = '/')).reverse

/-- The path normalization of canonicalize_url: an empty path becomes a
single slash, otherwise trailing slashes are removed and an all-slash path
also becomes a single slash. -/
def pathNorm (p : String) : String :=
  if p = "" then "/"
  else if rstripSlash p = "" then "/" else rstripSlash p

/-- Decimal rendering of a natural number, digit list form; the fuel bounds
the digit count and keeps the recursion structural. -/
def natDecimalAux : Nat → Nat → List Char
  | 0, _ => []
  | fuel + 1, n =>
    if n < 10 then [Char.ofNat (48 + n)]
    else natDecimalAux fuel (n / 10) ++ [Char.ofNat (48 + n % 10)]

/-- Decimal rendering of a natural number, as the Python str of an int. -/
def natDecimal (n : Nat) : String :=
  String.mk (natDecimalAux (n + 1) n)

/-- The lowercased hostname of canonicalize_url: Python
parts.hostname.lower() if parts.hostname else the empty string. -/
def hostLower (nl : List Char) : String :=
  match hostnameProp nl with
  | none => ""
  | some h => pyLower h

/-- The userinfo-and-hostname rebuild of canonicalize_url: a non-empty
username is kept, with the password behind a colon when non-empty, in front
of an at sign and the lowercased hostname. -/
def netloc1Of (nl : List Char) : String :=
  match userinfoProp nl with
  | (some u, pw) =>
    if u ≠ "" then
      (match pw with
       | some p => if p ≠ "" then u ++ ":" ++ p else u
       | none => u) ++ "@" ++ hostLower nl
    else hostLower nl
  | (none, _) => hostLower nl

/-- The full netloc rebuild of canonicalize_url: a truthy (non-zero) port is
appended behind a colon. -/
def netlocOf (nl : List Char) (port : Option Nat) : String :=
  match port with
  | some p => if p ≠ 0 then netloc1Of nl ++ ":" ++ natDecimal p else netloc1Of nl
  | none => netloc1Of nl

/-- The filtered, sorted and re-encoded query of canonicalize_url. -/
def queryOf (qs : String) : String :=
  urlencodePairs (List.insertionSort pairLe
    ((parse_qsl qs).filter (fun kv => ¬ isTrackingKey kv.1)))

/-- canonicalize_url from url_utils.py: strip the raw string and reject the
empty result; split the URL; lowercase scheme and hostname; rebuild the
netloc from userinfo, hostname and port; normalize the path trailing slash;
drop tracking query parameters, sort the rest by (key, value) and re-encode;
drop the fragment. -/
def canonicalize_url (url : String) : Except String String :=
  let raw := pyStrip url
  if raw = "" then Except.error "url is required"
  else
    match pyUrlsplit raw with
    | Except.error e => Except.error e
    | Except.ok parts =>
      match portProp parts.netloc.data with
      | Except.error e => Except.error e
      | Except.ok port =>
        Except.ok (urlunsplitM (pyLower parts.scheme)
          (netlocOf parts.netloc.data port) (pathNorm parts.path)
          (queryOf parts.query))

/-! ### SHA-256 (hashlib.sha256 ... hexdigest) -/

/-- Truncation to 32 bits. -/
def w32 (n : Nat) : Nat := n % 4294967296

/-- Right rotation of a 32-bit word. -/
def rotr32 (x n : Nat) : Nat :=
  w32 (x / 2 ^ n + x % 2 ^ n * 2 ^ (32 - n))

/-- Bitwise complement of a 32-bit word. -/
def not32 (x : Nat) : Nat := 4294967295 - w32 x

/-- The SHA-256 round constants. -/
def sha256K : List Nat :=
  [1116352408, 1899447441, 3049323471, 3921009573, 961987163, 1508970993,
   2453635748, 2870763221, 3624381080, 310598401, 607225278, 1426881987,
   1925078388, 2162078206, 2614888103, 3248222580, 3835390401, 4022224774,
   264347078, 604807628, 770255983, 1249150122, 1555081692, 1996064986,
   2554220882, 2821834349, 2952996808, 3210313671, 3336571891, 3584528711,
   113926993, 338241895, 666307205, 773529912, 1294757372, 1396182291,
   1695183700, 1986661051, 2177026350, 2456956037, 2730485921, 2820302411,
   3259730800, 3345764771, 3516065817, 3600352804, 4094571909, 275423344,
   430227734, 506948616, 659060556, 883997877, 958139571, 1322822218,
   1537002063, 1747873779, 1955562222, 2024104815, 2227730452, 2361852424,
   2428436474, 2756734187, 3204031479, 3329325298]

/-- The SHA-256 initial hash state. -/
def sha256H0 : List Nat :=
  [1779033703, 3144134277, 1013904242, 2773480762, 1359893119, 2600822924,
   528734635, 1541459225]

/-- Big-endian 8-byte encoding of a length in bits. -/
def be64 (n : Nat) : List Nat :=
  [n / 2 ^ 56 % 256, n / 2 ^ 48 % 256, n / 2 ^ 40 % 256, n / 2 ^ 32 % 256,
   n / 2 ^ 24 % 256, n / 2 ^ 16 % 256, n / 2 ^ 8 % 256, n % 256]

/-- SHA-256 message padding: a 0x80 byte, zeros to 56 mod 64, then the
bit length big-endian. -/
def padMsg (msg : List Nat) : List Nat :=
  msg ++ [0x80] ++ List.replicate ((119 - msg.length % 64) % 64) 0 ++
    be64 (8 * msg.length)

/-- Split a byte list into 64-byte chunks (fuel-indexed). -/
def chunksAux : Nat → List Nat → List (List Nat)
  | 0, _ => []
  | _ + 1, [] => []
  | fuel + 1, l => l.take 64 :: chunksAux fuel (l.drop 64)

/-- Split a byte list into 64-byte chunks. -/
def chunks64 (l : List Nat) : List (List Nat) :=
  chunksAux l.length l

/-- Big-endian 32-bit words of a byte list. -/
def bytesToWords : List Nat → List Nat
  | b1 :: b2 :: b3 :: b4 :: rest =>
    (b1 * 16777216 + b2 * 65536 + b3 * 256 + b4) :: bytesToWords rest
  | _ => []

/-- The small sigma-0 schedule function. -/
def ssig0 (x : Nat) : Nat := rotr32 x 7 ^^^ rotr32 x 18 ^^^ x / 2 ^ 3

/-- The small sigma-1 schedule function. -/
def ssig1 (x : Nat) : Nat := rotr32 x 17 ^^^ rotr32 x 19 ^^^ x / 2 ^ 10

/-- The big sigma-0 compression function. -/
def bsig0 (x : Nat) : Nat := rotr32 x 2 ^^^ rotr32 x 13 ^^^ rotr32 x 22

/-- The big sigma-1 compression function. -/
def bsig1 (x : Nat) : Nat := rotr32 x 6 ^^^ rotr32 x 11 ^^^ rotr32 x 25

/-- Extend the 16 message words to the full 64-word schedule. -/
def scheduleAux : List Nat → Nat → List Nat
  | w, 0 => w
  | w, k + 1 =>
    scheduleAux
      (w ++ [w32 (ssig1 (w.getD (w.length - 2) 0) + w.getD (w.length - 7) 0 +
        ssig0 (w.getD (w.length - 15) 0) + w.getD (w.length - 16) 0)]) k

/-- The choice function of SHA-256. -/
def chFn (e f g : Nat) : Nat := (e &&& f) ^^^ (not32 e &&& g)

/-- The majority function of SHA-256. -/
def majFn (a b c : Nat) : Nat := (a &&& b) ^^^ (a &&& c) ^^^ (b &&& c)

/-- One compression round on the eight-word state. -/
def compressRound (st : List Nat) (kw : Nat × Nat) : List Nat :=
  match st with
  | [a, b, c, d, e, f, g, h] =>
    let t1 := w32 (h + bsig1 e + chFn e f g + kw.1 + kw.2)
    let t2 := w32 (bsig0 a + majFn a b c)
    [w32 (t1 + t2), a, b, c, w32 (d + t1), e, f, g]
  | _ => st

/-- Compress one 64-byte block into the hash state. -/
def compressBlock (h : List Nat) (block : List Nat) : List Nat :=
  let ws := scheduleAux (bytesToWords block) 48
  let st := (sha256K.zip ws).foldl compressRound h
  (h.zip st).map (fun p => w32 (p.1 + p.2))

/-- Lower-case hex digit for a value below 16. -/
def hexLowerDigit (n : Nat) : Char :=
  if n < 10 then Char.ofNat (48 + n) else Char.ofNat (87 + n)

/-- The SHA-256 digest bytes of a byte message. -/
def sha256Bytes (msg : List Nat) : List Nat :=
  let final := (chunks64 (padMsg msg)).foldl compressBlock sha256H0
  (final.map (fun wd =>
    [wd / 16777216 % 256, wd / 65536 % 256, wd / 256 % 256, wd % 256])).flatten

/-- hashlib.sha256(raw.encode("utf-8")).hexdigest(). -/
def sha256_hex (s : String) : String :=
  String.mk (((sha256Bytes (utf8EncodeList s.data)).map
    (fun b => [hexLowerDigit (b / 16), hexLowerDigit (b % 16)])).flatten)

/-- generate_news_id from url_utils.py: sha256 hex of source, a pipe and the
canonical URL; canonicalization errors propagate. -/
def generate_news_id (source url : String) : Except String String :=
  match canonicalize_url url with
  | Except.error e => Except.error e
  | Except.ok cu => Except.ok (sha256_hex (source ++ "|" ++ cu))

/-! ## Timestamps (services/python-ai/app/ingestion/normalizer.py and run.py)

Instants are modelled as epoch microseconds.  datetime.fromisoformat is
modelled for the dashed date, colon time format with optional fractional
seconds and optional +HH:MM[:SS] offset; a naive result counts as UTC as the
callers arrange. -/

/-- Leap year test of the proleptic Gregorian calendar. -/
def isLeapYear (y : Int) : Bool :=
  y % 4 = 0 ∧ (y % 100 ≠ 0 ∨ y % 400 = 0)

/-- Days in a month. -/
def daysInMonth (y : Int) (m : Nat) : Nat :=
  if m = 2 then (if isLeapYear y then 29 else 28)
  else if m = 4 ∨ m = 6 ∨ m = 9 ∨ m = 11 then 30
  else 31

/-- Days since 1970-01-01 of a civil date (standard era-based algorithm). -/
def daysFromCivil (y : Int) (m d : Nat) : Int :=
  let y2 : Int := if m ≤ 2 then y - 1 else y
  let era : Int := Int.fdiv y2 400
  let yoe : Int := y2 - era * 400
  let doy : Int := (153 * (if m > 2 then (m : Int) - 3 else (m : Int) + 9) + 2) / 5 + d - 1
  let doe : Int := yoe * 365 + yoe / 4 - yoe / 100 + doy
  era * 146097 + doe - 719468

/-- Read exactly n ASCII digits from the front. -/
def readDigits (n : Nat) (l : List Char) : Option (Nat × List Char) :=
  let pre := l.take n
  if pre.length = n ∧ pre.all isAsciiDigitCh then some (digitsVal pre, l.drop n)
  else none

/-- Parse HH:MM or HH:MM:SS with an optional fraction of one to six digits;
returns microseconds within the day. -/
def readTime (l : List Char) : Option (Nat × List Char) :=
  match readDigits 2 l with
  | none => none
  | some (h, r1) =>
    match r1 with
    | ':' :: r2 =>
      match readDigits 2 r2 with
      | none => none
      | some (mi, r3) =>
        if h ≤ 23 ∧ mi ≤ 59 then
          match r3 with
          | ':' :: r4 =>
            match readDigits 2 r4 with
            | none => none
            | some (se, r5) =>
              if se ≤ 59 then
                match r5 with
                | '.' :: r6 =>
                  let frac := r6.takeWhile isAsciiDigitCh
                  let r7 := r6.dropWhile isAsciiDigitCh
                  if 1 ≤ frac.length ∧ frac.length ≤ 6 then
                    some ((h * 3600 + mi * 60 + se) * 1000000 +
                      digitsVal frac * 10 ^ (6 - frac.length), r7)
                  else none
                | _ => some ((h * 3600 + mi * 60 + se) * 1000000, r5)
              else none
          | _ => some ((h * 3600 + mi * 60) * 1000000, r3)
        else none
    | _ => none

/-- Parse a +HH:MM or +HH:MM:SS style offset; returns signed seconds. -/
def readOffset (l : List Char) : Option Int :=
  match l with
  | sign :: r1 =>
    if sign = '+' ∨ sign = '-' then
      match readDigits 2 r1 with
      | none => none
      | some (oh, r2) =>
        match r2 with
        | ':' :: r3 =>
          match readDigits 2 r3 with
          | none => none
          | some (om, r4) =>
            if oh ≤ 23 ∧ om ≤ 59 then
              match r4 with
              | ':' :: r5 =>
                match readDigits 2 r5 with
                | none => none
                | some (os, r6) =>
                  if os ≤ 59 ∧ r6 = [] then
                    some ((if sign = '-' then -1 else 1) *
                      ((oh : Int) * 3600 + om * 60 + os))
                  else none
              | [] => some ((if sign = '-' then -1 else 1) *
                  ((oh : Int) * 3600 + om * 60))
              | _ => none
            else none
        | _ => none
    else none
  | [] => none

/-- datetime.fromisoformat on the dashed, colon format: a date, an optional
time after a single separator character, and an optional UTC offset.  The
result is epoch microseconds of the instant, a naive value read as UTC. -/
def pyFromIso (s : String) : Option Int :=
  match readDigits 4 s.data with
  | none => none
  | some (y, r1) =>
    match r1 with
    | '-' :: r2 =>
      match readDigits 2 r2 with
      | none => none
      | some (mo, r3) =>
        match r3 with
        | '-' :: r4 =>
          match readDigits 2 r4 with
          | none => none
          | some (da, r5) =>
            if 1 ≤ y ∧ 1 ≤ mo ∧ mo ≤ 12 ∧ 1 ≤ da ∧ da ≤ daysInMonth y mo then
              match r5 with
              | [] => some (daysFromCivil y mo da * 86400000000)
              | _ :: r6 =>
                match readTime r6 with
                | none => none
                | some (tmicro, r7) =>
                  match r7 with
                  | [] => some (daysFromCivil y mo da * 86400000000 + tmicro)
                  | _ =>
                    match readOffset r7 with
                    | none => none
                    | some off =>
                      some (daysFromCivil y mo da * 86400000000 + tmicro -
                        off * 1000000)
            else none
        | _ => none
    | _ => none

/-! ## Payload values and the news normalizer -/

/-- A Python value inside a raw payload dictionary. -/
inductive PyVal where
  | vnone
  | vint (n : Int)
  | vstr (s : String)
  deriving Repr, DecidableEq

/-- Python truthiness of a payload value. -/
def truthy : PyVal → Bool
  | PyVal.vnone => false
  | PyVal.vint n => n ≠ 0
  | PyVal.vstr s => s ≠ ""

/-- dict.get with a None default, later duplicate keys overriding. -/
def pyGet (item : List (String × PyVal)) (k : String) : PyVal :=
  match item.reverse.find? (fun kv => kv.1 = k) with
  | some kv => kv.2
  | none => PyVal.vnone

/-- The Python or expression on payload values. -/
def pyOrV (a b : PyVal) : PyVal :=
  if truthy a then a else b

/-- str() on a payload value, as used by f-string formatting. -/
def pyStrOf : PyVal → String
  | PyVal.vnone => "None"
  | PyVal.vint n => toString n
  | PyVal.vstr s => s

/-- parse_timestamp from normalizer.py: a number is epoch seconds; an
all-digit string is epoch seconds; otherwise strip, turn a trailing Z into
+00:00 and try fromisoformat, reading naive results as UTC.  Returns epoch
microseconds. -/
def parse_timestamp (v : PyVal) : Option Int :=
  match v with
  | PyVal.vnone => none
  | PyVal.vint n => some (n * 1000000)
  | PyVal.vstr s =>
    if s ≠ "" ∧ s.data.all isAsciiDigitCh then
      some ((digitsVal s.data : Int) * 1000000)
    else
      let iso := pyStrip s
      let iso2 :=
        if iso.data.getLast? = some 'Z' then
          String.mk iso.data.dropLast ++ "+00:00"
        else iso
      pyFromIso iso2

/-- parse_finnhub_timestamp from run.py; identical to parse_timestamp up to
the final conversion of aware values to UTC, which is the identity on
instants. -/
def parse_finnhub_timestamp (v : PyVal) : Option Int :=
  parse_timestamp v

/-- Exceptions raised by the normalizer and the helpers it calls:
NormalizationError, plain ValueError (canonicalization and model
validation), and attribute or type errors from non-string values. -/
inductive PyErr where
  | normalization (msg : String)
  | valueError (msg : String)
  | typeError (msg : String)
  deriving Repr, DecidableEq

/-- parse_related from normalizer.py: a falsy value gives no tickers; a
string is split on commas, each part stripped and uppercased, empties
removed; any other truthy value has no split attribute. -/
def parse_related (related : PyVal) : Except PyErr (List String) :=
  if ¬ truthy related then Except.ok []
  else
    match related with
    | PyVal.vstr s =>
      Except.ok (((splitOnChar ',' s.data).map
        (fun part => pyUpper (pyStrip (String.mk part)))).filter
        (fun x => x ≠ ""))
    | _ => Except.error (PyErr.typeError "related has no split attribute")

/-- The content extraction of normalize_finnhub: a string value of summary
or content is stripped, with the empty result becoming absent. -/
def content_of (v : PyVal) : Option String :=
  match v with
  | PyVal.vstr cs =>
    let t := pyStrip cs
    if t = "" then none else some t
  | _ => none

/-- The request ticker cleaning of normalize_finnhub: a string is stripped
and uppercased with the empty result becoming absent; anything else is
absent. -/
def request_symbol_of (v : PyVal) : Option String :=
  match v with
  | PyVal.vstr s =>
    let t := pyUpper (pyStrip s)
    if t = "" then none else some t
  | _ => none

/-- The canonical NewsEvent produced by the normalizer. -/
structure NewsEventM where
  news_id : String
  trace_id : String
  source : String
  request_ticker : Option String
  published_at : Int
  ingested_at : Int
  title : String
  url : String
  content : Option String
  tickers : List String
  raw_payload : List (String × PyVal)

/-- normalize_finnhub from normalizer.py: require a truthy url, a truthy
headline or title and a parseable datetime or published_at, else
NormalizationError; canonicalize the url; strip the summary or content;
split, clean and deduplicate the related tickers; uppercase the request
ticker; default the source to finnhub; derive news_id; build the NewsEvent,
whose pydantic model requires string title and source. -/
def normalize_finnhub (item : List (String × PyVal)) (trace_id : String)
    (ingested_at : Int) (request_ticker : Option String) :
    Except PyErr NewsEventM :=
  if ¬ truthy (pyGet item "url") = true ∨
     ¬ truthy (pyOrV (pyGet item "headline") (pyGet item "title")) = true ∨
     parse_timestamp (pyOrV (pyGet item "datetime")
       (pyGet item "published_at")) = none then
    Except.error (PyErr.normalization "Missing required fields: url/headline/datetime")
  else
    match pyGet item "url" with
    | PyVal.vstr urlStr =>
      match canonicalize_url urlStr with
      | Except.error e => Except.error (PyErr.valueError e)
      | Except.ok canonical_url =>
        match parse_related (pyGet item "related") with
        | Except.error e => Except.error e
        | Except.ok related =>
          match generate_news_id
              (pyStrOf (pyOrV (pyGet item "source") (PyVal.vstr "finnhub")))
              canonical_url with
          | Except.error e => Except.error (PyErr.valueError e)
          | Except.ok news_id =>
            match pyOrV (pyGet item "headline") (pyGet item "title"),
                pyOrV (pyGet item "source") (PyVal.vstr "finnhub") with
            | PyVal.vstr titleStr, PyVal.vstr sourceStr =>
              Except.ok
                { news_id := news_id
                  trace_id := trace_id
                  source := sourceStr
                  request_ticker := request_symbol_of (pyOrV
                    (match request_ticker with
                     | some s => PyVal.vstr s
                     | none => PyVal.vnone)
                    (pyGet item "request_ticker"))
                  published_at := (parse_timestamp (pyOrV (pyGet item "datetime")
                    (pyGet item "published_at"))).getD 0
                  ingested_at := ingested_at
                  title := titleStr
                  url := canonical_url
                  content := content_of (pyOrV (pyGet item "summary")
                    (pyGet item "content"))
                  tickers := dedupKeepFirst related
                  raw_payload := item }
            | _, _ => Except.error (PyErr.valueError "NewsEvent validation failed")
    | _ => Except.error (PyErr.typeError "url has no strip attribute")

/-- Truthiness of the Python or expression. -/
theorem truthy_pyOr (a b : PyVal) : truthy (pyOrV a b) = (truthy a || truthy b) := by
  unfold pyOrV
  cases h : truthy a <;> simp [h]

/-- C6 counterexample: the payload has a present, parseable datetime value 0
and a url and headline, so the claim says no NormalizationError is raised;
but Python or treats the falsy 0 as absent, published_at becomes None, and
the code raises NormalizationError. -/
theorem normalize_error_counterexample :
    normalize_finnhub
      [("url", PyVal.vstr "http://h/x"), ("headline", PyVal.vstr "t"),
       ("datetime", PyVal.vint 0)] "tr" 0 none =
      Except.error (PyErr.normalization "Missing required fields: url/headline/datetime") ∧
    truthy (pyGet
      [("url", PyVal.vstr "http://h/x"), ("headline", PyVal.vstr "t"),
       ("datetime", PyVal.vint 0)] "url") = true ∧
    truthy (pyGet
      [("url", PyVal.vstr "http://h/x"), ("headline", PyVal.vstr "t"),
       ("datetime", PyVal.vint 0)] "headline") = true ∧
    parse_timestamp (pyGet
      [("url", PyVal.vstr "http://h/x"), ("headline", PyVal.vstr "t"),
       ("datetime", PyVal.vint 0)] "datetime") = some 0 := by
  refine ⟨rfl, rfl, rfl, rfl⟩

/-- C6 amended: normalize_finnhub raises NormalizationError exactly when the
payload lacks a truthy url, lacks both a truthy headline and a truthy title,
or the value selected by the Python expression datetime or published_at
(falsy datetime falls through to published_at) does not parse to a
timestamp; when it returns an event, the url is the canonicalized input url
and the tickers are the comma-split related entries trimmed, uppercased,
with empties removed and duplicates dropped preserving first occurrence
order (empty when related is falsy). -/
theorem normalize_finnhub_characterization (item : List (String × PyVal))
    (trace_id : String) (ingested_at : Int) (request_ticker : Option String) :
    ((∃ m, normalize_finnhub item trace_id ingested_at request_ticker =
        Except.error (PyErr.normalization m)) ↔
      (¬ truthy (pyGet item "url") = true ∨
       (¬ truthy (pyGet item "headline") = true ∧
        ¬ truthy (pyGet item "title") = true) ∨
       parse_timestamp (pyOrV (pyGet item "datetime")
         (pyGet item "published_at")) = none)) ∧
    (∀ ev, normalize_finnhub item trace_id ingested_at request_ticker =
        Except.ok ev →
      (∃ urlStr, pyGet item "url" = PyVal.vstr urlStr ∧
        canonicalize_url urlStr = Except.ok ev.url) ∧
      (truthy (pyGet item "related") = false → ev.tickers = []) ∧
      (∀ s, pyGet item "related" = PyVal.vstr s → s ≠ "" →
        ev.tickers = dedupKeepFirst (((splitOnChar ',' s.data).map
          (fun part => pyUpper (pyStrip (String.mk part)))).filter
          (fun x => x ≠ "")))) := by
  have hcondiff :
      (¬ truthy (pyGet item "url") = true ∨
       ¬ truthy (pyOrV (pyGet item "headline") (pyGet item "title")) = true ∨
       parse_timestamp (pyOrV (pyGet item "datetime")
         (pyGet item "published_at")) = none) ↔
      (¬ truthy (pyGet item "url") = true ∨
       (¬ truthy (pyGet item "headline") = true ∧
        ¬ truthy (pyGet item "title") = true) ∨
       parse_timestamp (pyOrV (pyGet item "datetime")
         (pyGet item "published_at")) = none) := by
    rw [truthy_pyOr]
    simp only [Bool.or_eq_true, not_or]
  constructor
  · constructor
    · rintro ⟨m, hm⟩
      unfold normalize_finnhub at hm
      by_cases hcond :
          (¬ truthy (pyGet item "url") = true ∨
           ¬ truthy (pyOrV (pyGet item "headline") (pyGet item "title")) = true ∨
           parse_timestamp (pyOrV (pyGet item "datetime")
             (pyGet item "published_at")) = none)
      · exact hcondiff.mp hcond
      · exfalso
        rw [if_neg hcond] at hm
        cases hurl : pyGet item "url" with
        | vstr urlStr =>
          rw [hurl] at hm
          dsimp only [] at hm
          cases hc : canonicalize_url urlStr with
          | error e => rw [hc] at hm; simp at hm
          | ok canonical_url =>
            rw [hc] at hm
            dsimp only [] at hm
            cases hr : parse_related (pyGet item "related") with
            | error e =>
              rw [hr] at hm
              simp only [Except.error.injEq] at hm
              subst hm
              unfold parse_related at hr
              split at hr
              · simp at hr
              · split at hr
                · simp at hr
                · simp at hr
            | ok related =>
              rw [hr] at hm
              dsimp only [] at hm
              cases hn : generate_news_id
                  (pyStrOf (pyOrV (pyGet item "source") (PyVal.vstr "finnhub")))
                  canonical_url with
              | error e => rw [hn] at hm; simp at hm
              | ok news_id =>
                rw [hn] at hm
                dsimp only [] at hm
                cases hh : pyOrV (pyGet item "headline") (pyGet item "title") with
                | vstr titleStr =>
                  cases hs : pyOrV (pyGet item "source") (PyVal.vstr "finnhub") with
                  | vstr sourceStr => rw [hh, hs] at hm; simp at hm
                  | vnone => rw [hh, hs] at hm; simp at hm
                  | vint n2 => rw [hh, hs] at hm; simp at hm
                | vnone => rw [hh] at hm; simp at hm
                | vint n1 => rw [hh] at hm; simp at hm
        | vnone => rw [hurl] at hm; simp at hm
        | vint n => rw [hurl] at hm; simp at hm
    · intro hcond
      refine ⟨"Missing required fields: url/headline/datetime", ?_⟩
      unfold normalize_finnhub
      rw [if_pos (hcondiff.mpr hcond)]
  · intro ev hev
    unfold normalize_finnhub at hev
    by_cases hcond :
        (¬ truthy (pyGet item "url") = true ∨
         ¬ truthy (pyOrV (pyGet item "headline") (pyGet item "title")) = true ∨
         parse_timestamp (pyOrV (pyGet item "datetime")
           (pyGet item "published_at")) = none)
    · rw [if_pos hcond] at hev; simp at hev
    · rw [if_neg hcond] at hev
      cases hurl : pyGet item "url" with
      | vstr urlStr =>
        rw [hurl] at hev
        dsimp only [] at hev
        cases hc : canonicalize_url urlStr with
        | error e => rw [hc] at hev; simp at hev
        | ok canonical_url =>
          rw [hc] at hev
          dsimp only [] at hev
          cases hr : parse_related (pyGet item "related") with
          | error e => rw [hr] at hev; simp at hev
          | ok related =>
            rw [hr] at hev
            dsimp only [] at hev
            cases hn : generate_news_id
                (pyStrOf (pyOrV (pyGet item "source") (PyVal.vstr "finnhub")))
                canonical_url with
            | error e => rw [hn] at hev; simp at hev
            | ok news_id =>
              rw [hn] at hev
              dsimp only [] at hev
              cases hh : pyOrV (pyGet item "headline") (pyGet item "title") with
              | vstr titleStr =>
                cases hs : pyOrV (pyGet item "source") (PyVal.vstr "finnhub") with
                | vstr sourceStr =>
                  rw [hh, hs] at hev
                  dsimp only [] at hev
                  simp only [Except.ok.injEq] at hev
                  subst hev
                  refine ⟨⟨urlStr, rfl, hc⟩, ?_, ?_⟩
                  · intro hfalsy
                    unfold parse_related at hr
                    rw [if_pos (by simp [hfalsy])] at hr
                    simp only [Except.ok.injEq] at hr
                    subst hr
                    rfl
                  · intro s hsrel hne
                    unfold parse_related at hr
                    rw [hsrel] at hr
                    rw [if_neg (by simp [truthy, hne])] at hr
                    simp only [Except.ok.injEq] at hr
                    subst hr
                    rfl
                | vnone => rw [hh, hs] at hev; simp at hev
                | vint n2 => rw [hh, hs] at hev; simp at hev
              | vnone => rw [hh] at hev; simp at hev
              | vint n1 => rw [hh] at hev; simp at hev
      | vnone => rw [hurl] at hev; simp at hev
      | vint n => rw [hurl] at hev; simp at hev

/-- Witness for C6 on the happy-path payload of the end-to-end scenario. -/
theorem normalize_finnhub_characterization_witness :
    (∃ ev, normalize_finnhub
      [("url", PyVal.vstr "https://x.com/a?utm_source=z"),
       ("headline", PyVal.vstr "A"),
       ("datetime", PyVal.vint 1700000000),
       ("related", PyVal.vstr "AAPL,MSFT")] "tr" 0 none = Except.ok ev ∧
      ev.url = "https://x.com/a" ∧ ev.tickers = ["AAPL", "MSFT"]) ∧
    ¬(∃ m, normalize_finnhub
      [("url", PyVal.vstr "https://x.com/a?utm_source=z"),
       ("headline", PyVal.vstr "A"),
       ("datetime", PyVal.vint 1700000000),
       ("related", PyVal.vstr "AAPL,MSFT")] "tr" 0 none =
        Except.error (PyErr.normalization m)) := by
  constructor
  · refine ⟨_, rfl, ?_, ?_⟩ <;> rfl
  · rw [(normalize_finnhub_characterization
      [("url", PyVal.vstr "https://x.com/a?utm_source=z"),
       ("headline", PyVal.vstr "A"),
       ("datetime", PyVal.vint 1700000000),
       ("related", PyVal.vstr "AAPL,MSFT")] "tr" 0 none).1]
    simp only [not_or]
    refine ⟨by decide, by decide, by decide⟩

/-- C1 amended: every event normalize_finnhub accepts satisfies
news_id = sha256_hex of source, a pipe and canonicalize(url) for the stored
canonical url — the equation of the claim; the re-canonicalization
invariance clause is refuted separately. -/
theorem news_id_formula (item : List (String × PyVal)) (trace_id : String)
    (ingested_at : Int) (request_ticker : Option String) (ev : NewsEventM)
    (h : normalize_finnhub item trace_id ingested_at request_ticker =
      Except.ok ev) :
    ∃ cu, canonicalize_url ev.url = Except.ok cu ∧
      ev.news_id = sha256_hex (ev.source ++ "|" ++ cu) := by
  unfold normalize_finnhub at h
  by_cases hcond :
      (¬ truthy (pyGet item "url") = true ∨
       ¬ truthy (pyOrV (pyGet item "headline") (pyGet item "title")) = true ∨
       parse_timestamp (pyOrV (pyGet item "datetime")
         (pyGet item "published_at")) = none)
  · rw [if_pos hcond] at h; simp at h
  · rw [if_neg hcond] at h
    cases hurl : pyGet item "url" with
    | vstr urlStr =>
      rw [hurl] at h
      dsimp only [] at h
      cases hc : canonicalize_url urlStr with
      | error e => rw [hc] at h; simp at h
      | ok canonical_url =>
        rw [hc] at h
        dsimp only [] at h
        cases hr : parse_related (pyGet item "related") with
        | error e => rw [hr] at h; simp at h
        | ok related =>
          rw [hr] at h
          dsimp only [] at h
          cases hn : generate_news_id
              (pyStrOf (pyOrV (pyGet item "source") (PyVal.vstr "finnhub")))
              canonical_url with
          | error e => rw [hn] at h; simp at h
          | ok news_id =>
            rw [hn] at h
            dsimp only [] at h
            cases hh : pyOrV (pyGet item "headline") (pyGet item "title") with
            | vstr titleStr =>
              cases hs : pyOrV (pyGet item "source") (PyVal.vstr "finnhub") with
              | vstr sourceStr =>
                rw [hh, hs] at h
                dsimp only [] at h
                simp only [Except.ok.injEq] at h
                subst h
                unfold generate_news_id at hn
                cases hc2 : canonicalize_url canonical_url with
                | error e => rw [hc2] at hn; simp at hn
                | ok cu =>
                  rw [hc2] at hn
                  simp only [Except.ok.injEq] at hn
                  refine ⟨cu, rfl, ?_⟩
                  show news_id = sha256_hex (sourceStr ++ "|" ++ cu)
                  rw [← hn, hs]
                  rfl
              | vnone => rw [hh, hs] at h; simp at h
              | vint n2 => rw [hh, hs] at h; simp at h
            | vnone => rw [hh] at h; simp at h
            | vint n1 => rw [hh] at h; simp at h
    | vnone => rw [hurl] at h; simp at h
    | vint n => rw [hurl] at h; simp at h

/-- Witness for C1 on the happy-path payload. -/
theorem news_id_formula_witness :
    ∃ cu ev,
      normalize_finnhub
        [("url", PyVal.vstr "https://x.com/a?utm_source=z"),
         ("headline", PyVal.vstr "A"),
         ("datetime", PyVal.vint 1700000000)] "tr" 0 none = Except.ok ev ∧
      canonicalize_url ev.url = Except.ok cu ∧
      ev.news_id = sha256_hex (ev.source ++ "|" ++ cu) := by
  obtain ⟨cu, h1, h2⟩ := news_id_formula
    [("url", PyVal.vstr "https://x.com/a?utm_source=z"),
     ("headline", PyVal.vstr "A"),
     ("datetime", PyVal.vint 1700000000)] "tr" 0 none _ rfl
  exact ⟨cu, _, rfl, h1, h2⟩

/-- The C1 counterexample payload: the raw url has a path ending in a space
before the fragment. -/
def c1Item : List (String × PyVal) :=
  [("url", PyVal.vstr "http://h/a / #f"), ("headline", PyVal.vstr "t"),
   ("datetime", PyVal.vint 1700000000)]

/-- C1 counterexample to the invariance clause: the stored canonical URL
still ends in a space, so re-canonicalizing it strips the space and the
news id computed from the re-canonicalized URL differs from the stored
news id. -/
theorem news_id_recanonicalization_counterexample :
    (normalize_finnhub c1Item "tr" 0 none).toOption.map NewsEventM.url =
      some "http://h/a / " ∧
    (normalize_finnhub c1Item "tr" 0 none).toOption.map NewsEventM.news_id =
      some "cd74df2e19cf3b6afc2d3bd6006045b1fbe753b24e11e031debde2249c5523b1" ∧
    canonicalize_url "http://h/a / " = Except.ok "http://h/a " ∧
    generate_news_id "finnhub" "http://h/a " =
      Except.ok "f2d2cd5062c3accd5939456292169a158a4d7bdda5b13e4ed9719c5685a7f595" ∧
    "cd74df2e19cf3b6afc2d3bd6006045b1fbe753b24e11e031debde2249c5523b1" ≠
      "f2d2cd5062c3accd5939456292169a158a4d7bdda5b13e4ed9719c5685a7f595" := by
  refine ⟨rfl, rfl, rfl, rfl, by decide⟩

/-! ## Rate shaping (services/python-ai/app/ingestion/run.py)

rank_items sorts fetched payloads by parsed timestamp descending with
absent timestamps keyed as aware datetime.min; limit_items_per_day keeps at
most a limit per locality-local calendar date.  The date function is a
parameter, as the time zone is in the source; nycDate instantiates it for
America/New_York under the post-2007 United States DST rule. -/

/-- Epoch microseconds of aware datetime.min (0001-01-01T00:00:00+00:00). -/
def tsMin : Int := -62135596800000000

/-- The descending sort relation of rank_items: earlier elements have the
larger (or equal) key, absent timestamps keyed as datetime.min. -/
def rankRel {α : Type} (a b : Option Int × α) : Prop :=
  b.1.getD tsMin ≤ a.1.getD tsMin

instance {α : Type} : DecidableRel (@rankRel α) := fun a b => by
  unfold rankRel; infer_instance

instance {α : Type} : IsTotal (Option Int × α) rankRel :=
  ⟨fun a b => by unfold rankRel; exact le_total _ _⟩

instance {α : Type} : IsTrans (Option Int × α) rankRel :=
  ⟨fun a b c h1 h2 => by
    unfold rankRel at h1 h2 ⊢
    exact le_trans h2 h1⟩

/-- rank_items from run.py: pair each item with its parsed timestamp and
stable-sort by the timestamp descending, absent ranked as datetime.min. -/
def rank_items (items : List (List (String × PyVal))) :
    List (Option Int × List (String × PyVal)) :=
  List.insertionSort rankRel
    (items.map (fun item =>
      (parse_finnhub_timestamp (pyOrV (pyGet item "datetime")
        (pyGet item "published_at")), item)))

/-- The per-item date key of limit_items_per_day: the local calendar date
for a present timestamp, the fixed key unknown otherwise. -/
def dayKeyOf (dateKey : Int → String) (ts : Option Int) : String :=
  match ts with
  | some t => dateKey t
  | none => "unknown"

/-- Lookup in the counts dictionary, defaulting to zero. -/
def countGet (counts : List (String × Nat)) (k : String) : Nat :=
  match counts.find? (fun kv => kv.1 = k) with
  | some kv => kv.2
  | none => 0

/-- The scanning loop of limit_items_per_day: keep an item while its date
has not reached the limit, updating the counts dictionary. -/
def limitAux {α : Type} (dateKey : Int → String) (limit : Int) :
    List (Option Int × α) → List (String × Nat) → List α
  | [], _ => []
  | (ts, item) :: rest, counts =>
    if (countGet counts (dayKeyOf dateKey ts) : Int) ≥ limit then
      limitAux dateKey limit rest counts
    else
      item :: limitAux dateKey limit rest
        ((dayKeyOf dateKey ts, countGet counts (dayKeyOf dateKey ts) + 1) :: counts)

/-- limit_items_per_day from run.py: a non-positive limit disables the cap;
otherwise scan the ranked list keeping at most limit items per local date
and report the number dropped as the difference of lengths. -/
def limit_items_per_day {α : Type} (ranked : List (Option Int × α))
    (limit : Int) (dateKey : Int → String) : List α × Int :=
  if limit ≤ 0 then (ranked.map Prod.snd, 0)
  else
    (limitAux dateKey limit ranked [],
     (ranked.length : Int) - (limitAux dateKey limit ranked []).length)

/-- Civil date (year, month, day) of a day count since 1970-01-01, the
standard era-based inverse algorithm. -/
def civilFromDays (z : Int) : Int × Nat × Nat :=
  let z2 := z + 719468
  let era := Int.fdiv z2 146097
  let doe := (z2 - era * 146097).toNat
  let yoe := (doe - doe / 1460 + doe / 36524 - doe / 146096) / 365
  let doy := doe - (365 * yoe + yoe / 4 - yoe / 100)
  let mp := (5 * doy + 2) / 153
  let d := doy - (153 * mp + 2) / 5 + 1
  let m := if mp < 10 then mp + 3 else mp - 9
  (era * 400 + yoe + (if m ≤ 2 then 1 else 0), m, d)

/-- Day of week with Sunday as zero. -/
def dowOf (days : Int) : Nat :=
  ((Int.emod (days + 4) 7).toNat) % 7

/-- Day of month of the first Sunday of a month. -/
def firstSundayOf (y : Int) (m : Nat) : Nat :=
  1 + (7 - dowOf (daysFromCivil y m 1)) % 7

/-- Epoch seconds at which United States DST starts in year y (second
Sunday of March, 07:00 UTC). -/
def dstStart (y : Int) : Int :=
  daysFromCivil y 3 (firstSundayOf y 3 + 7) * 86400 + 7 * 3600

/-- Epoch seconds at which United States DST ends in year y (first Sunday
of November, 06:00 UTC). -/
def dstEnd (y : Int) : Int :=
  daysFromCivil y 11 (firstSundayOf y 11) * 86400 + 6 * 3600

/-- UTC offset of America/New_York in seconds at an instant, under the
post-2007 rule (the tzdata history before 2007 is not modelled). -/
def nycOffset (tsec : Int) : Int :=
  let y := (civilFromDays (Int.fdiv tsec 86400)).1
  if dstStart y ≤ tsec ∧ tsec < dstEnd y then -14400 else -18000

/-- Zero-padded two-digit rendering. -/
def pad2 (n : Nat) : String :=
  if n < 10 then "0" ++ toString n else toString n

/-- date().isoformat() of an epoch-microseconds instant converted to
America/New_York. -/
def nycDate (tmicros : Int) : String :=
  let tsec := Int.fdiv tmicros 1000000
  let loc := tsec + nycOffset tsec
  let ymd := civilFromDays (Int.fdiv loc 86400)
  toString ymd.1 ++ "-" ++ pad2 ymd.2.1 ++ "-" ++ pad2 ymd.2.2

/-- The scanning loop keeps a sublist, counts at most the remaining budget
per date, and its kept items are the second components of kept pairs. -/
theorem limitAux_spec {α : Type} (dateKey : Int → String) (limit : Int) :
    ∀ (l : List (Option Int × α)) (counts : List (String × Nat)),
      ∃ keptPairs : List (Option Int × α),
        keptPairs.Sublist l ∧
        limitAux dateKey limit l counts = keptPairs.map Prod.snd ∧
        ∀ d : String,
          keptPairs.countP (fun p => dayKeyOf dateKey p.1 = d) ≤
            limit.toNat - countGet counts d := by
  intro l
  induction l with
  | nil =>
    intro counts
    exact ⟨[], List.Sublist.refl [], rfl, fun d => by simp⟩
  | cons hd rest ih =>
    intro counts
    obtain ⟨ts, item⟩ := hd
    by_cases hskip : (countGet counts (dayKeyOf dateKey ts) : Int) ≥ limit
    · obtain ⟨keptPairs, hsub, heq, hcount⟩ := ih counts
      refine ⟨keptPairs, hsub.cons _, ?_, hcount⟩
      simp only [limitAux, if_pos hskip]
      exact heq
    · obtain ⟨keptPairs, hsub, heq, hcount⟩ :=
        ih ((dayKeyOf dateKey ts, countGet counts (dayKeyOf dateKey ts) + 1) :: counts)
      refine ⟨(ts, item) :: keptPairs, hsub.cons₂ _, ?_, ?_⟩
      · simp only [limitAux, if_neg hskip, List.map_cons]
        rw [heq]
      · intro d
        by_cases hd : dayKeyOf dateKey ts = d
        · subst hd
          have hget : countGet
              ((dayKeyOf dateKey ts, countGet counts (dayKeyOf dateKey ts) + 1) :: counts)
              (dayKeyOf dateKey ts) =
              countGet counts (dayKeyOf dateKey ts) + 1 := by
            simp [countGet]
          have hc2 := hcount (dayKeyOf dateKey ts)
          rw [hget] at hc2
          rw [List.countP_cons]
          have hpred : decide (dayKeyOf dateKey ((ts, item) :
              Option Int × α).1 = dayKeyOf dateKey ts) = true := by simp
          rw [hpred, if_pos rfl]
          omega
        · have hget : countGet
              ((dayKeyOf dateKey ts, countGet counts (dayKeyOf dateKey ts) + 1) :: counts) d =
              countGet counts d := by
            have hdec : decide (dayKeyOf dateKey ts = d) = false := by
              simpa using hd
            simp only [countGet, List.find?, hdec]
          have hc2 := hcount d
          rw [hget] at hc2
          rw [List.countP_cons]
          have hpred : decide (dayKeyOf dateKey ((ts, item) :
              Option Int × α).1 = d) = false := by simpa using hd
          rw [hpred]
          simp only [Bool.false_eq_true, if_false]
          omega

/-- C9 counterexample: with daily_max = 0 the code keeps every item, so the
claimed bound of at most daily_max items per date fails on a one-item list. -/
theorem rate_shaping_counterexample :
    (limit_items_per_day
      (rank_items [[("datetime", PyVal.vint 1700000000)]]) 0 nycDate).1 =
      [[("datetime", PyVal.vint 1700000000)]] ∧
    (limit_items_per_day
      (rank_items [[("datetime", PyVal.vint 1700000000)]]) 0 nycDate).2 = 0 ∧
    ¬((1 : Int) ≤ 0) := by
  refine ⟨rfl, rfl, by omega⟩

/-- C9 amended: rank_items stable-sorts the fetched items by published_at
descending with absent timestamps ranked lowest; for daily_max > 0 the daily
cap keeps an order-preserving sublist with at most daily_max items per
locality-local date and reports the dropped count as the difference between
input and kept counts; a non-positive daily_max disables the cap, keeping
everything with zero dropped. -/
theorem rate_shaping_spec (items : List (List (String × PyVal)))
    (limit : Int) (dateKey : Int → String) :
    (rank_items items).Perm
      (items.map (fun item =>
        (parse_finnhub_timestamp (pyOrV (pyGet item "datetime")
          (pyGet item "published_at")), item))) ∧
    (rank_items items).Sorted rankRel ∧
    (0 < limit →
      ∃ keptPairs : List (Option Int × List (String × PyVal)),
        keptPairs.Sublist (rank_items items) ∧
        (limit_items_per_day (rank_items items) limit dateKey).1 =
          keptPairs.map Prod.snd ∧
        (∀ d : String,
          keptPairs.countP (fun p => dayKeyOf dateKey p.1 = d) ≤ limit.toNat) ∧
        (limit_items_per_day (rank_items items) limit dateKey).2 =
          ((rank_items items).length : Int) - keptPairs.length) ∧
    (limit ≤ 0 →
      (limit_items_per_day (rank_items items) limit dateKey) =
        ((rank_items items).map Prod.snd, 0)) := by
  refine ⟨List.perm_insertionSort rankRel _, List.sorted_insertionSort rankRel _,
    fun hpos => ?_, fun hnonpos => ?_⟩
  · obtain ⟨keptPairs, hsub, heq, hcount⟩ :=
      limitAux_spec dateKey limit (rank_items items) []
    refine ⟨keptPairs, hsub, ?_, fun d => ?_, ?_⟩
    · unfold limit_items_per_day
      rw [if_neg (by omega)]
      exact heq
    · have := hcount d
      have hzero : countGet [] d = 0 := rfl
      rw [hzero] at this
      omega
    · unfold limit_items_per_day
      rw [if_neg (by omega)]
      simp only []
      rw [heq, List.length_map]
  · unfold limit_items_per_day
    rw [if_pos hnonpos]

/-- Witness for C9: two items on the same NYC date with daily_max 1 keep
only the newer one and report one dropped. -/
theorem rate_shaping_spec_witness :
    (limit_items_per_day
      (rank_items [[("datetime", PyVal.vint 1700000000)],
        [("datetime", PyVal.vint 1700003600)]]) 1 nycDate).1 =
      [[("datetime", PyVal.vint 1700003600)]] ∧
    (limit_items_per_day
      (rank_items [[("datetime", PyVal.vint 1700000000)],
        [("datetime", PyVal.vint 1700003600)]]) 1 nycDate).2 = 1 ∧
    (∃ keptPairs : List (Option Int × List (String × PyVal)),
      keptPairs.Sublist (rank_items [[("datetime", PyVal.vint 1700000000)],
        [("datetime", PyVal.vint 1700003600)]]) ∧
      (limit_items_per_day
        (rank_items [[("datetime", PyVal.vint 1700000000)],
          [("datetime", PyVal.vint 1700003600)]]) 1 nycDate).1 =
        keptPairs.map Prod.snd ∧
      ∀ d : String,
        keptPairs.countP (fun p => dayKeyOf nycDate p.1 = d) ≤ (1 : Int).toNat) := by
  refine ⟨by decide, by decide, ?_⟩
  obtain ⟨keptPairs, hsub, heq, hcount, _⟩ :=
    (rate_shaping_spec [[("datetime", PyVal.vint 1700000000)],
      [("datetime", PyVal.vint 1700003600)]] 1 nycDate).2.2.1 (by omega)
  exact ⟨keptPairs, hsub, heq, hcount⟩

/-! ## Finnhub fetching (services/python-ai/app/ingestion/finnhub_client.py
and the fetch loop of run.py main) -/

/-- An HTTP response as far as the client inspects it: status code,
Retry-After header, and the parsed JSON body when it is a list. -/
structure HttpResponse where
  status : Nat
  retryAfter : Option String
  listPayload : Option (List (List (String × PyVal)))

/-- Outcome of one HTTP attempt: a transport error or a response. -/
inductive HttpAttempt where
  | transportError (msg : String)
  | response (r : HttpResponse)

/-- Errors escaping the fetch layer: FinnhubError, which run.py catches per
ticker, and httpx.HTTPStatusError raised by raise_for_status, which it does
not catch. -/
inductive FetchErr where
  | finnhub (msg : String)
  | httpStatus (status : Nat)
  deriving Repr, DecidableEq

/-- The attempt loop of request_with_retries: return on status below 400,
retry transport errors and 429 or 5xx responses while attempts remain, call
raise_for_status otherwise (which raises HTTPStatusError on a 4xx), and
after the loop raise FinnhubError — blaming the transport when any
transport error was seen, else the last status. -/
def requestLoop (oracle : Nat → HttpAttempt) :
    Nat → Bool → Nat → Except FetchErr HttpResponse
  | _, _, 0 => Except.error (FetchErr.finnhub "Finnhub request failed")
  | attempt, lastExc, fuel + 1 =>
    match oracle attempt with
    | HttpAttempt.transportError _ =>
      if fuel = 0 then Except.error (FetchErr.finnhub "Finnhub request failed")
      else requestLoop oracle (attempt + 1) true fuel
    | HttpAttempt.response r =>
      if r.status < 400 then Except.ok r
      else if r.status = 429 ∨ (500 ≤ r.status ∧ r.status ≤ 599) then
        if fuel = 0 then
          if lastExc then Except.error (FetchErr.finnhub "Finnhub request failed")
          else Except.error (FetchErr.finnhub
            ("Finnhub request failed with status " ++ toString r.status))
        else requestLoop oracle (attempt + 1) lastExc fuel
      else if 400 ≤ r.status ∧ r.status < 600 then
        Except.error (FetchErr.httpStatus r.status)
      else
        if fuel = 0 then
          if lastExc then Except.error (FetchErr.finnhub "Finnhub request failed")
          else Except.error (FetchErr.finnhub
            ("Finnhub request failed with status " ++ toString r.status))
        else requestLoop oracle (attempt + 1) lastExc fuel

/-- request_with_retries with its default budget of 3 attempts. -/
def request_with_retries (oracle : Nat → HttpAttempt) (max_attempts : Nat := 3) :
    Except FetchErr HttpResponse :=
  requestLoop oracle 1 false max_attempts

/-- fetch_company_news: perform the request and require the JSON payload to
be a list, else FinnhubError. -/
def fetch_company_news (oracle : Nat → HttpAttempt) :
    Except FetchErr (List (List (String × PyVal))) :=
  match request_with_retries oracle 3 with
  | Except.error e => Except.error e
  | Except.ok r =>
    match r.listPayload with
    | some items => Except.ok items
    | none => Except.error (FetchErr.finnhub "Unexpected Finnhub payload")

/-- The fetch phase of main in run.py: for each ticker fetch, rate-shape,
annotate with the request ticker and collect; a FinnhubError is logged and
the loop continues with the next ticker; any other exception propagates and
aborts the run. -/
def fetchPhase (fetchOf : String → Except FetchErr (List (List (String × PyVal))))
    (daily_max latest_per_run : Int) :
    List String → Except FetchErr (List (List (String × PyVal)))
  | [] => Except.ok []
  | symbol :: rest =>
    match fetchOf symbol with
    | Except.error (FetchErr.finnhub _) =>
      fetchPhase fetchOf daily_max latest_per_run rest
    | Except.error e => Except.error e
    | Except.ok items =>
      (fetchPhase fetchOf daily_max latest_per_run rest).map
        (fun acc =>
          (let daily := (limit_items_per_day (rank_items items) daily_max nycDate).1
           let latest :=
             if latest_per_run > 0 ∧ (daily.length : Int) > latest_per_run then
               daily.take latest_per_run.toNat
             else daily
           latest.map (fun it => it ++ [("request_ticker", PyVal.vstr symbol)])) ++ acc)

/-- C7 counterexample: a 404 response is fatal for the call without retry,
but it surfaces as HTTPStatusError rather than FinnhubError, so the fetch
loop does not catch it: the run aborts and the remaining tickers are never
fetched. -/
theorem fetch_isolation_counterexample :
    request_with_retries
      (fun _ => HttpAttempt.response ⟨404, none, some []⟩) 3 =
      Except.error (FetchErr.httpStatus 404) ∧
    fetchPhase
      (fun t => if t = "A" then Except.error (FetchErr.httpStatus 404)
                else Except.ok [])
      100 10 ["A", "B"] = Except.error (FetchErr.httpStatus 404) := by
  exact ⟨rfl, rfl⟩

/-- C7 amended: a 4xx other than 429 on the first attempt is fatal for that
call with no retry, raising HTTPStatusError; fetch failures that surface as
FinnhubError (transport exhaustion, retry-budget exhaustion on 429 or 5xx,
non-list payloads) are isolated per ticker, so when no ticker raises
HTTPStatusError the fetch phase completes over all tickers. -/
theorem fetch_isolation (oracle : Nat → HttpAttempt) (r : HttpResponse)
    (h1 : oracle 1 = HttpAttempt.response r)
    (h4 : 400 ≤ r.status ∧ r.status < 500 ∧ r.status ≠ 429)
    (fetchOf : String → Except FetchErr (List (List (String × PyVal))))
    (daily_max latest_per_run : Int) (tickers : List String)
    (hiso : ∀ t ∈ tickers, ∀ s, fetchOf t ≠ Except.error (FetchErr.httpStatus s)) :
    request_with_retries oracle 3 = Except.error (FetchErr.httpStatus r.status) ∧
    ∃ res, fetchPhase fetchOf daily_max latest_per_run tickers = Except.ok res := by
  obtain ⟨ha, hb, hc⟩ := h4
  constructor
  · unfold request_with_retries requestLoop
    rw [h1]
    dsimp only []
    rw [if_neg (by omega), if_neg (by omega), if_pos (by omega)]
  · induction tickers with
    | nil => exact ⟨[], rfl⟩
    | cons t rest ih =>
      obtain ⟨res, hres⟩ := ih (fun t2 ht2 s => hiso t2 (List.mem_cons_of_mem _ ht2) s)
      cases hf : fetchOf t with
      | ok items =>
        have hstep : fetchPhase fetchOf daily_max latest_per_run (t :: rest) =
            Except.ok
              ((let daily :=
                  (limit_items_per_day (rank_items items) daily_max nycDate).1
                let latest :=
                  if latest_per_run > 0 ∧ (daily.length : Int) > latest_per_run then
                    daily.take latest_per_run.toNat
                  else daily
                latest.map (fun it =>
                  it ++ [("request_ticker", PyVal.vstr t)])) ++ res) := by
          unfold fetchPhase
          rw [hf, hres]
          rfl
        exact ⟨_, hstep⟩
      | error e =>
        cases e with
        | finnhub msg =>
          refine ⟨res, ?_⟩
          unfold fetchPhase
          rw [hf]
          exact hres
        | httpStatus s =>
          exact absurd hf (hiso t (List.mem_cons_self _ _) s)

/-- Witness for C7 at a concrete 404 oracle and a mixed two-ticker fetch in
which the first ticker exhausts its retry budget with 500s and the second
succeeds. -/
theorem fetch_isolation_witness :
    request_with_retries
      (fun _ => HttpAttempt.response ⟨404, none, some []⟩) 3 =
      Except.error (FetchErr.httpStatus 404) ∧
    ∃ res, fetchPhase
      (fun t => if t = "A" then Except.error (FetchErr.finnhub "Finnhub request failed")
                else Except.ok [[("url", PyVal.vstr "http://h/x")]])
      100 10 ["A", "B"] = Except.ok res := by
  have h := fetch_isolation
    (fun _ => HttpAttempt.response ⟨404, none, some []⟩) ⟨404, none, some []⟩
    rfl (by refine ⟨?_, ?_, ?_⟩ <;> decide)
    (fun t => if t = "A" then Except.error (FetchErr.finnhub "Finnhub request failed")
              else Except.ok [[("url", PyVal.vstr "http://h/x")]])
    100 10 ["A", "B"]
    (by
      intro t ht s
      simp only [List.mem_cons, List.not_mem_nil, or_false] at ht
      rcases ht with rfl | rfl
      · simp
      · simp)
  exact h


/-! ## URL canonicalization idempotence (C8): supporting lemmas

The development below establishes that canonicalize_url is a retraction on
a characterized class of inputs: absolute URLs with a scheme and a host,
no bracketed (IPv6) authority, whose canonical form carries no surrounding
whitespace.  The counterexample theorem shows the unrestricted idempotence
claim fails. -/

/-- toNat of Char.ofNat below the surrogate range. -/
theorem charToNat_ofNat (m : Nat) (h : m < 55296) : (Char.ofNat m).toNat = m := by
  have hv : m.isValidChar := Or.inl h
  simp only [Char.ofNat, hv, dif_pos, Char.ofNatAux, Char.toNat]
  simp [UInt32.ofNat', UInt32.toNat]

/-- Characters with equal code points are equal. -/
theorem charEq_of_toNat (a b : Char) (h : a.toNat = b.toNat) : a = b := by
  apply Char.eq_of_val_eq
  unfold Char.toNat at h
  exact UInt32.toNat.inj h

/-- Character order is code point order. -/
theorem charLe_iff (a b : Char) : a ≤ b ↔ a.toNat ≤ b.toNat :=
  ⟨fun h => h, fun h => h⟩

/-- pyLowerChar either fixes its argument or shifts an ASCII capital into
the lowercase range. -/
theorem pyLowerChar_cases (c : Char) :
    pyLowerChar c = c ∨
      (65 ≤ c.toNat ∧ c.toNat ≤ 90 ∧ (pyLowerChar c).toNat = c.toNat + 32) := by
  unfold pyLowerChar
  by_cases h : 'A' ≤ c ∧ c ≤ 'Z'
  · right
    have h1 : 65 ≤ c.toNat := (charLe_iff 'A' c).mp h.1
    have h2 : c.toNat ≤ 90 := (charLe_iff c 'Z').mp h.2
    refine ⟨h1, h2, ?_⟩
    rw [if_pos h]
    exact charToNat_ofNat _ (by omega)
  · left; rw [if_neg h]

/-- pyLowerChar fixes anything outside the ASCII capital range. -/
theorem pyLowerChar_eq_self (c : Char) (h : ¬ (65 ≤ c.toNat ∧ c.toNat ≤ 90)) :
    pyLowerChar c = c := by
  rcases pyLowerChar_cases c with h1 | h1
  · exact h1
  · exact absurd ⟨h1.1, h1.2.1⟩ h

/-- A character whose code point is not lowercase-alphabetic is in the image
of pyLowerChar only at itself. -/
theorem pyLowerChar_fix_of_ne (c x : Char) (hx : x.toNat < 97 ∨ 122 < x.toNat)
    (h : pyLowerChar c = x) : c = x := by
  rcases pyLowerChar_cases c with h1 | h1
  · rw [← h1, h]
  · exfalso
    rw [h] at h1
    omega

/-- pyLowerChar is idempotent. -/
theorem pyLowerChar_idem (c : Char) :
    pyLowerChar (pyLowerChar c) = pyLowerChar c := by
  rcases pyLowerChar_cases c with h1 | h1
  · rw [h1]; exact h1
  · exact pyLowerChar_eq_self _ (by omega)

/-- Lowercasing a character list twice equals lowercasing it once. -/
theorem mapLower_idem (l : List Char) :
    (l.map pyLowerChar).map pyLowerChar = l.map pyLowerChar := by
  rw [List.map_map]
  exact List.map_congr_left (fun a _ => pyLowerChar_idem a)

/-- A membership in a lowered list comes from a member of the original. -/
theorem mem_map_lower (l : List Char) (c : Char) (h : c ∈ l.map pyLowerChar) :
    ∃ d ∈ l, pyLowerChar d = c := by
  obtain ⟨d, hd, he⟩ := List.mem_map.mp h
  exact ⟨d, hd, he⟩

/-- Characterization of a successful splitAtFirst: the separator is absent
from the prefix and the list decomposes around it. -/
theorem splitAtFirst_eq_some (sep : Char) (l pre post : List Char)
    (h : splitAtFirst sep l = some (pre, post)) :
    l = pre ++ sep :: post ∧ sep ∉ pre := by
  induction l generalizing pre with
  | nil => simp [splitAtFirst] at h
  | cons c cs ih =>
    rw [splitAtFirst] at h
    by_cases hc : c = sep
    · rw [if_pos hc] at h
      simp only [Option.some.injEq, Prod.mk.injEq] at h
      obtain ⟨h1, h2⟩ := h
      subst hc; subst h1; subst h2
      exact ⟨rfl, by simp⟩
    · rw [if_neg hc] at h
      match hrec : splitAtFirst sep cs with
      | none => rw [hrec] at h; simp at h
      | some (p1, p2) =>
        rw [hrec] at h
        simp only [Option.map, Option.some.injEq, Prod.mk.injEq] at h
        obtain ⟨h1, h2⟩ := h
        obtain ⟨hdec, hmem⟩ := ih p1 (by rw [hrec, h2])
        constructor
        · rw [← h1, hdec]; simp
        · rw [← h1]
          intro hm
          rcases List.mem_cons.mp hm with he | hm2
          · exact hc he.symm
          · exact hmem hm2

/-- splitAtFirst returns none exactly when the separator is absent. -/
theorem splitAtFirst_eq_none_iff (sep : Char) (l : List Char) :
    splitAtFirst sep l = none ↔ sep ∉ l := by
  induction l with
  | nil => simp [splitAtFirst]
  | cons c cs ih =>
    rw [splitAtFirst]
    by_cases hc : c = sep
    · rw [if_pos hc]
      subst hc
      simp
    · rw [if_neg hc]
      simp only [Option.map_eq_none', ih, List.mem_cons]
      constructor
      · intro h hm
        rcases hm with he | hm2
        · exact hc he.symm
        · exact h hm2
      · intro h hm
        exact h (Or.inr hm)

/-- splitAtFirst after a separator-free segment finds the separator placed
directly behind it. -/
theorem splitAtFirst_append_sep (sep : Char) (pre post : List Char)
    (h : sep ∉ pre) :
    splitAtFirst sep (pre ++ sep :: post) = some (pre, post) := by
  induction pre with
  | nil => simp [splitAtFirst]
  | cons c cs ih =>
    have hc : ¬ c = sep := fun he => h (by simp [he])
    rw [List.cons_append, splitAtFirst, if_neg hc,
      ih (fun hm => h (by simp [hm]))]
    rfl

/-- splitAtFirst maps over a leading separator-free segment. -/
theorem splitAtFirst_append_of_not_mem (sep : Char) (a b : List Char)
    (h : sep ∉ a) :
    splitAtFirst sep (a ++ b) =
      (splitAtFirst sep b).map (fun p => (a ++ p.1, p.2)) := by
  match hb : splitAtFirst sep b with
  | none =>
    show splitAtFirst sep (a ++ b) = none
    rw [splitAtFirst_eq_none_iff] at hb ⊢
    intro hm
    rcases List.mem_append.mp hm with h1 | h1
    · exact h h1
    · exact hb h1
  | some (p1, p2) =>
    obtain ⟨hdec, hmem⟩ := splitAtFirst_eq_some sep b p1 p2 hb
    show splitAtFirst sep (a ++ b) = some (a ++ p1, p2)
    rw [hdec, ← List.append_assoc]
    exact splitAtFirst_append_sep sep (a ++ p1) p2
      (fun hm => (List.mem_append.mp hm).elim h hmem)

/-- Characterization of a successful splitAtLast: the separator is absent
from the suffix and the list decomposes around it. -/
theorem splitAtLast_eq_some (sep : Char) (l a b : List Char)
    (h : splitAtLast sep l = some (a, b)) :
    l = a ++ sep :: b ∧ sep ∉ b := by
  unfold splitAtLast at h
  match hf : splitAtFirst sep l.reverse with
  | none => rw [hf] at h; exact absurd h (by simp [Option.map])
  | some (p1, p2) =>
    rw [hf] at h
    simp only [Option.map, Option.some.injEq, Prod.mk.injEq] at h
    obtain ⟨h1, h2⟩ := h
    obtain ⟨hdec, hmem⟩ := splitAtFirst_eq_some sep l.reverse p1 p2 hf
    have hl : l = p2.reverse ++ sep :: p1.reverse := by
      have := congrArg List.reverse hdec
      simpa using this
    constructor
    · rw [← h1, ← h2, hl]
    · rw [← h2]
      simpa using hmem

/-- splitAtLast returns none exactly when the separator is absent. -/
theorem splitAtLast_eq_none_iff (sep : Char) (l : List Char) :
    splitAtLast sep l = none ↔ sep ∉ l := by
  unfold splitAtLast
  rw [Option.map_eq_none', splitAtFirst_eq_none_iff]
  simp

/-- splitAtLast with a separator-free suffix finds the last separator. -/
theorem splitAtLast_append_sep (sep : Char) (a b : List Char) (h : sep ∉ b) :
    splitAtLast sep (a ++ sep :: b) = some (a, b) := by
  unfold splitAtLast
  have hrev : (a ++ sep :: b).reverse = b.reverse ++ sep :: a.reverse := by
    simp
  rw [hrev, splitAtFirst_append_sep sep _ _ (by simpa using h)]
  simp

/-- takeWhile passes over a leading segment of satisfying elements. -/
theorem takeWhile_append_all (p : Char → Bool) (a b : List Char)
    (h : ∀ x ∈ a, p x) :
    List.takeWhile p (a ++ b) = a ++ List.takeWhile p b := by
  induction a with
  | nil => simp
  | cons c cs ih =>
    simp only [List.cons_append, List.takeWhile_cons, h c (by simp), if_true,
      List.cons.injEq, true_and]
    exact ih (fun x hx => h x (by simp [hx]))

/-- dropWhile skips a leading segment of satisfying elements. -/
theorem dropWhile_append_all (p : Char → Bool) (a b : List Char)
    (h : ∀ x ∈ a, p x) :
    List.dropWhile p (a ++ b) = List.dropWhile p b := by
  induction a with
  | nil => simp
  | cons c cs ih =>
    simp only [List.cons_append, List.dropWhile_cons, h c (by simp), if_true]
    exact ih (fun x hx => h x (by simp [hx]))


/-- digitsVal unfolds over a trailing digit. -/
theorem digitsVal_append_single (a : List Char) (c : Char) :
    digitsVal (a ++ [c]) = digitsVal a * 10 + (c.toNat - 48) := by
  unfold digitsVal
  rw [List.foldl_append]
  rfl

/-- The decimal renderer emits ASCII digits, is non-empty, and evaluates
back to its input under digitsVal, for sufficient fuel. -/
theorem natDecimalAux_spec : ∀ (fuel n : Nat), n < 10 ^ (fuel + 1) →
    (∀ c ∈ natDecimalAux (fuel + 1) n, isAsciiDigitCh c) ∧
    digitsVal (natDecimalAux (fuel + 1) n) = n ∧
    natDecimalAux (fuel + 1) n ≠ [] := by
  intro fuel
  induction fuel with
  | zero =>
    intro n hn
    have h10 : n < 10 := by simpa using hn
    rw [natDecimalAux, if_pos h10]
    have ht : (Char.ofNat (48 + n)).toNat = 48 + n :=
      charToNat_ofNat _ (by omega)
    refine ⟨?_, ?_, by simp⟩
    · intro c hc
      rw [List.mem_singleton] at hc
      subst hc
      simp only [isAsciiDigitCh, decide_eq_true_eq, Bool.decide_and,
        Bool.and_eq_true, decide_eq_true_iff]
      constructor
      · exact (charLe_iff '0' _).mpr (by rw [ht, show Char.toNat '0' = 48 from rfl]; omega)
      · exact (charLe_iff _ '9').mpr (by rw [ht, show Char.toNat '9' = 57 from rfl]; omega)
    · show digitsVal ([] ++ [Char.ofNat (48 + n)]) = n
      rw [digitsVal_append_single, ht]
      simp [digitsVal]
  | succ fuel ih =>
    intro n hn
    by_cases h10 : n < 10
    · rw [natDecimalAux, if_pos h10]
      have := ih n (by omega)
      rw [natDecimalAux, if_pos h10] at this
      exact this
    · rw [natDecimalAux, if_neg h10]
      have hdiv : n / 10 < 10 ^ (fuel + 1) := by
        rw [pow_succ] at hn
        omega
      obtain ⟨hall, hval, hne⟩ := ih (n / 10) hdiv
      have ht : (Char.ofNat (48 + n % 10)).toNat = 48 + n % 10 :=
        charToNat_ofNat _ (by omega)
      refine ⟨?_, ?_, by simp⟩
      · intro c hc
        rcases List.mem_append.mp hc with h1 | h1
        · exact hall c h1
        · rw [List.mem_singleton] at h1
          subst h1
          simp only [isAsciiDigitCh, decide_eq_true_eq, Bool.decide_and,
            Bool.and_eq_true, decide_eq_true_iff]
          constructor
          · exact (charLe_iff '0' _).mpr (by rw [ht, show Char.toNat '0' = 48 from rfl]; omega)
          · exact (charLe_iff _ '9').mpr (by rw [ht, show Char.toNat '9' = 57 from rfl]; omega)
      · rw [digitsVal_append_single, hval, ht]
        omega

/-- natDecimal renders ASCII digits, is non-empty, and digitsVal recovers
the number. -/
theorem natDecimal_spec (n : Nat) :
    (∀ c ∈ (natDecimal n).data, isAsciiDigitCh c) ∧
    digitsVal (natDecimal n).data = n ∧ (natDecimal n).data ≠ [] := by
  have hn : n < 10 ^ (n + 1) := by
    calc n < 10 ^ n := Nat.lt_pow_self (by norm_num) n
    _ ≤ 10 ^ (n + 1) := Nat.pow_le_pow_right (by norm_num) (by omega)
  exact natDecimalAux_spec n n hn

/-- Every character code point is below 0x110000. -/
theorem charToNat_lt (c : Char) : c.toNat < 1114112 := by
  have h := c.valid
  unfold Char.toNat
  rcases h with h | h <;> omega

/-- contByte holds on the continuation byte range. -/
theorem contByte_eq_true (b : Nat) (h1 : 128 ≤ b) (h2 : b < 192) :
    contByte b = true := by
  simp only [contByte, Bool.decide_and, Bool.and_eq_true, decide_eq_true_iff]
  exact ⟨h1, h2⟩

/-- utf8DecodeAux ignores the exact fuel once it covers the byte count. -/
theorem utf8DecodeAux_fuel : ∀ (n1 : Nat) (l : List Nat) (n2 : Nat),
    l.length ≤ n1 → l.length ≤ n2 → utf8DecodeAux n1 l = utf8DecodeAux n2 l := by
  intro n1
  induction n1 with
  | zero =>
    intro l n2 h1 _
    have hl : l = [] := List.length_eq_zero.mp (by omega)
    subst hl
    cases n2 <;> rfl
  | succ m ih =>
    intro l n2 h1 h2
    match l with
    | [] => cases n2 <;> rfl
    | b :: rest =>
      match n2 with
      | 0 => simp at h2
      | k + 1 =>
        simp only [List.length_cons] at h1 h2
        simp only [utf8DecodeAux]
        by_cases hb1 : b < 128
        · rw [if_pos hb1, if_pos hb1, ih rest k (by omega) (by omega)]
        · rw [if_neg hb1, if_neg hb1]
          by_cases hb2 : 192 ≤ b ∧ b < 224
          · rw [if_pos hb2, if_pos hb2]
            match rest with
            | [] => rfl
            | b2 :: rest2 =>
              dsimp only
              simp only [List.length_cons] at h1 h2
              by_cases hc : contByte b2
              · rw [if_pos hc, if_pos hc, ih rest2 k (by omega) (by omega)]
              · rw [if_neg hc, if_neg hc,
                  ih (b2 :: rest2) k (by simp only [List.length_cons]; omega)
                    (by simp only [List.length_cons]; omega)]
          · rw [if_neg hb2, if_neg hb2]
            by_cases hb3 : 224 ≤ b ∧ b < 240
            · rw [if_pos hb3, if_pos hb3]
              match rest with
              | [] => rfl
              | [b2] => rfl
              | b2 :: b3 :: rest3 =>
                dsimp only
                simp only [List.length_cons] at h1 h2
                by_cases hc : contByte b2 ∧ contByte b3
                · rw [if_pos hc, if_pos hc, ih rest3 k (by omega) (by omega)]
                · rw [if_neg hc, if_neg hc,
                    ih (b2 :: b3 :: rest3) k
                      (by simp only [List.length_cons]; omega)
                      (by simp only [List.length_cons]; omega)]
            · rw [if_neg hb3, if_neg hb3]
              by_cases hb4 : 240 ≤ b ∧ b < 248
              · rw [if_pos hb4, if_pos hb4]
                match rest with
                | [] => rfl
                | [b2] => rfl
                | [b2, b3] => rfl
                | b2 :: b3 :: b4 :: rest4 =>
                  dsimp only
                  simp only [List.length_cons] at h1 h2
                  by_cases hc : contByte b2 ∧ contByte b3 ∧ contByte b4
                  · rw [if_pos hc, if_pos hc, ih rest4 k (by omega) (by omega)]
                  · rw [if_neg hc, if_neg hc,
                      ih (b2 :: b3 :: b4 :: rest4) k
                        (by simp only [List.length_cons]; omega)
                        (by simp only [List.length_cons]; omega)]
              · rw [if_neg hb4, if_neg hb4, ih rest k (by omega) (by omega)]

/-- Decoding a UTF-8-encoded character recovers it and continues behind it. -/
theorem utf8Decode_encChar (c : Char) (rest : List Nat) :
    utf8Decode (utf8EncodeChar c ++ rest) = c :: utf8Decode rest := by
  have hofn : Char.ofNat c.toNat = c := Char.ofNat_toNat c
  have hlt : c.toNat < 1114112 := charToNat_lt c
  unfold utf8Decode utf8EncodeChar
  by_cases h1 : c.toNat < 128
  · rw [if_pos h1]
    simp only [List.cons_append, List.nil_append, List.length_cons]
    simp only [utf8DecodeAux]
    rw [if_pos h1, hofn]
  · rw [if_neg h1]
    by_cases h2 : c.toNat < 2048
    · rw [if_pos h2]
      simp only [List.cons_append, List.nil_append, List.length_cons]
      simp only [utf8DecodeAux]
      rw [if_neg (by omega), if_pos (by constructor <;> omega),
        if_pos (contByte_eq_true _ (by omega) (by omega)),
        show (192 + c.toNat / 64 - 192) * 64 + (128 + c.toNat % 64 - 128) =
          c.toNat from by omega,
        hofn, utf8DecodeAux_fuel (rest.length + 1) rest rest.length
          (by omega) (by omega)]
    · rw [if_neg h2]
      by_cases h3 : c.toNat < 65536
      · rw [if_pos h3]
        simp only [List.cons_append, List.nil_append, List.length_cons]
        simp only [utf8DecodeAux]
        rw [if_neg (by omega),
          if_neg (fun hx => by omega),
          if_pos (by constructor <;> omega),
          if_pos (⟨contByte_eq_true _ (by omega) (by omega),
            contByte_eq_true _ (by omega) (by omega)⟩),
          show (224 + c.toNat / 4096 - 224) * 4096 +
              (128 + c.toNat / 64 % 64 - 128) * 64 +
              (128 + c.toNat % 64 - 128) = c.toNat from by omega,
          hofn, utf8DecodeAux_fuel (rest.length + 1 + 1) rest rest.length
            (by omega) (by omega)]
      · rw [if_neg h3]
        simp only [List.cons_append, List.nil_append, List.length_cons]
        simp only [utf8DecodeAux]
        rw [if_neg (by omega),
          if_neg (fun hx => by omega),
          if_neg (fun hx => by omega),
          if_pos (by constructor <;> omega),
          if_pos (⟨contByte_eq_true _ (by omega) (by omega),
            contByte_eq_true _ (by omega) (by omega),
            contByte_eq_true _ (by omega) (by omega)⟩),
          show (240 + c.toNat / 262144 - 240) * 262144 +
              (128 + c.toNat / 4096 % 64 - 128) * 4096 +
              (128 + c.toNat / 64 % 64 - 128) * 64 +
              (128 + c.toNat % 64 - 128) = c.toNat from by omega,
          hofn, utf8DecodeAux_fuel (rest.length + 1 + 1 + 1) rest rest.length
            (by omega) (by omega)]

/-- UTF-8 decoding inverts UTF-8 encoding on character lists. -/
theorem utf8Decode_encList (ds : List Char) :
    utf8Decode (utf8EncodeList ds) = ds := by
  induction ds with
  | nil => rfl
  | cons c cs ih =>
    show utf8Decode ((utf8EncodeChar c :: List.map utf8EncodeChar cs).flatten) = c :: cs
    rw [List.flatten_cons, utf8Decode_encChar]
    exact congrArg (c :: ·) ih

/-- Every byte of a UTF-8-encoded character fits in one byte. -/
theorem utf8EncodeChar_lt256 (c : Char) : ∀ b ∈ utf8EncodeChar c, b < 256 := by
  have hlt : c.toNat < 1114112 := charToNat_lt c
  intro b hb
  unfold utf8EncodeChar at hb
  by_cases h1 : c.toNat < 128
  · rw [if_pos h1] at hb
    simp only [List.mem_singleton] at hb
    omega
  · rw [if_neg h1] at hb
    by_cases h2 : c.toNat < 2048
    · rw [if_pos h2] at hb
      simp only [List.mem_cons, List.not_mem_nil, or_false] at hb
      rcases hb with rfl | rfl <;> omega
    · rw [if_neg h2] at hb
      by_cases h3 : c.toNat < 65536
      · rw [if_pos h3] at hb
        simp only [List.mem_cons, List.not_mem_nil, or_false] at hb
        rcases hb with rfl | rfl | rfl <;> omega
      · rw [if_neg h3] at hb
        simp only [List.mem_cons, List.not_mem_nil, or_false] at hb
        rcases hb with rfl | rfl | rfl | rfl <;> omega

/-- qtokenizeAux on the empty list, any fuel. -/
theorem qtokenizeAux_nil (n : Nat) : qtokenizeAux n [] = [] := by
  cases n <;> rfl

/-- hexDigitVal inverts hexUpper below 16. -/
theorem hexDigitVal_hexUpper : ∀ k, k < 16 → hexDigitVal (hexUpper k) = some k := by
  decide

/-- hexUpper lands in the always-safe character set. -/
theorem alwaysSafe_hexUpper : ∀ k, k < 16 → alwaysSafeCh (hexUpper k) = true := by
  decide

/-- qtokenizeAux ignores the exact fuel once it covers the character count. -/
theorem qtokenizeAux_fuel : ∀ (n1 : Nat) (l : List Char) (n2 : Nat),
    l.length ≤ n1 → l.length ≤ n2 → qtokenizeAux n1 l = qtokenizeAux n2 l := by
  intro n1
  induction n1 with
  | zero =>
    intro l n2 h1 _
    have hl : l = [] := List.length_eq_zero.mp (by omega)
    subst hl
    rw [qtokenizeAux_nil, qtokenizeAux_nil]
  | succ m ih =>
    intro l n2 h1 h2
    match l with
    | [] => rw [qtokenizeAux_nil, qtokenizeAux_nil]
    | c :: rest =>
      match n2 with
      | 0 => simp at h2
      | k + 1 =>
        simp only [List.length_cons] at h1 h2
        by_cases hc : c = '%'
        · subst hc
          match rest with
          | [] =>
            rw [qtokenizeAux.eq_4 m [] (by intro a b r h; cases h),
              qtokenizeAux.eq_4 k [] (by intro a b r h; cases h),
              qtokenizeAux_nil, qtokenizeAux_nil]
          | [d] =>
            rw [qtokenizeAux.eq_4 m [d] (by intro a b r h; simp at h),
              qtokenizeAux.eq_4 k [d] (by intro a b r h; simp at h),
              ih [d] k
                (by simp only [List.length_cons, List.length_nil] at h1 ⊢; omega)
                (by simp only [List.length_cons, List.length_nil] at h2 ⊢; omega)]
          | d1 :: d2 :: rest2 =>
            rw [qtokenizeAux.eq_3, qtokenizeAux.eq_3]
            simp only [List.length_cons] at h1 h2
            cases hh1 : hexDigitVal d1 with
            | some a =>
              cases hh2 : hexDigitVal d2 with
              | some b =>
                dsimp only
                rw [ih rest2 k (by omega) (by omega)]
              | none =>
                dsimp only
                rw [ih (d1 :: d2 :: rest2) k
                  (by simp only [List.length_cons]; omega)
                  (by simp only [List.length_cons]; omega)]
            | none =>
              dsimp only
              rw [ih (d1 :: d2 :: rest2) k
                (by simp only [List.length_cons]; omega)
                (by simp only [List.length_cons]; omega)]
        · rw [qtokenizeAux.eq_5 m c rest (fun h => hc h),
            qtokenizeAux.eq_5 k c rest (fun h => hc h),
            ih rest k (by omega) (by omega)]

/-- The tokenizer reads one percent-encoded byte off the front. -/
theorem qtokenize_pct (b : Nat) (hb : b < 256) (rest : List Char) :
    qtokenize (pctEncodeByte b ++ rest) = QTok.qbyte b :: qtokenize rest := by
  unfold qtokenize pctEncodeByte
  simp only [List.cons_append, List.nil_append, List.length_cons]
  rw [qtokenizeAux.eq_3, hexDigitVal_hexUpper (b / 16) (by omega),
    hexDigitVal_hexUpper (b % 16) (by omega)]
  dsimp only
  rw [show b / 16 * 16 + b % 16 = b from by omega,
    qtokenizeAux_fuel (rest.length + 1 + 1) rest rest.length (by omega) (by omega)]

/-- The tokenizer reads one literal character off the front. -/
theorem qtokenize_lit (c : Char) (hc : ¬ c = '%') (rest : List Char) :
    qtokenize (c :: rest) = QTok.qch c :: qtokenize rest := by
  unfold qtokenize
  simp only [List.length_cons]
  rw [qtokenizeAux.eq_5 rest.length c rest (fun h => hc h)]

/-- The tokenizer turns a flattened percent-encoded run into byte tokens. -/
theorem qtokenize_pcts (bs : List Nat) (hb : ∀ b ∈ bs, b < 256)
    (rest : List Char) :
    qtokenize ((bs.map pctEncodeByte).flatten ++ rest) =
      bs.map QTok.qbyte ++ qtokenize rest := by
  induction bs with
  | nil => simp
  | cons b bs2 ih =>
    simp only [List.map_cons, List.flatten_cons, List.append_assoc]
    rw [qtokenize_pct b (hb b (by simp)) _, ih (fun x hx => hb x (by simp [hx]))]
    rfl

/-- qgather over a byte-token run extends the pending byte accumulator. -/
theorem qgather_bytes (bs : List Nat) (toks : List QTok) (acc : List Nat) :
    qgather (bs.map QTok.qbyte ++ toks) acc = qgather toks (bs.reverse ++ acc) := by
  induction bs generalizing acc with
  | nil => simp
  | cons b bs2 ih =>
    simp only [List.map_cons, List.cons_append, qgather, List.append_eq]
    rw [ih (b :: acc)]
    simp

/-- qgather of the tokenized quoteList output, run against a pending decoded
accumulator, restores the accumulated characters then the quoted ones. -/
theorem qgather_quoteList (SE : List Char) (hSE : '%' ∉ SE) :
    ∀ (cs ds : List Char),
      qgather (qtokenize (quoteList SE cs)) (utf8EncodeList ds).reverse =
        ds ++ cs := by
  intro cs
  induction cs with
  | nil =>
    intro ds
    show qgather (qtokenize []) (utf8EncodeList ds).reverse = ds ++ []
    rw [show qtokenize [] = [] from rfl]
    show utf8Decode (utf8EncodeList ds).reverse.reverse = ds ++ []
    rw [List.reverse_reverse, utf8Decode_encList, List.append_nil]
  | cons c cs2 ih =>
    intro ds
    show qgather (qtokenize (quoteChar SE c ++ quoteList SE cs2))
      (utf8EncodeList ds).reverse = ds ++ c :: cs2
    unfold quoteChar
    by_cases hsafe : alwaysSafeCh c ∨ SE.contains c
    · rw [if_pos hsafe]
      have hc : ¬ c = '%' := by
        intro he
        subst he
        rcases hsafe with hs | hs
        · exact absurd hs (by decide)
        · exact hSE (by simpa using hs)
      rw [List.singleton_append, qtokenize_lit c hc]
      show utf8Decode (utf8EncodeList ds).reverse.reverse ++
        c :: qgather (qtokenize (quoteList SE cs2)) [] = ds ++ c :: cs2
      rw [List.reverse_reverse, utf8Decode_encList]
      have h0 := ih []
      rw [show utf8EncodeList [] = [] from rfl, List.reverse_nil,
        List.nil_append] at h0
      rw [h0]
    · rw [if_neg hsafe]
      rw [qtokenize_pcts _ (utf8EncodeChar_lt256 c) _, qgather_bytes]
      have hstep : (utf8EncodeChar c).reverse ++ (utf8EncodeList ds).reverse =
          (utf8EncodeList (ds ++ [c])).reverse := by
        rw [← List.reverse_append]
        congr 1
        simp [utf8EncodeList]
      rw [hstep, ih (ds ++ [c])]
      simp

/-- pyUnquote inverts quoteList when the extra safe set has no percent. -/
theorem pyUnquote_quoteList (SE : List Char) (hSE : '%' ∉ SE)
    (cs : List Char) :
    pyUnquote (String.mk (quoteList SE cs)) = String.mk cs := by
  unfold pyUnquote
  have h := qgather_quoteList SE hSE cs []
  rw [show utf8EncodeList [] = [] from rfl, List.reverse_nil,
    List.nil_append] at h
  show String.mk (qgather (qtokenize (quoteList SE cs)) []) = String.mk cs
  rw [h]

/-- Every output character of quoteList is always-safe, extra-safe, or a
percent sign. -/
theorem quoteList_chars (SE : List Char) (cs : List Char) :
    ∀ x ∈ quoteList SE cs, alwaysSafeCh x ∨ x ∈ SE ∨ x = '%' := by
  intro x hx
  unfold quoteList at hx
  obtain ⟨piece, hpiece, hxin⟩ := List.mem_flatten.mp hx
  obtain ⟨c, _, hc⟩ := List.mem_map.mp hpiece
  subst hc
  unfold quoteChar at hxin
  by_cases hsafe : alwaysSafeCh c ∨ SE.contains c
  · rw [if_pos hsafe] at hxin
    rw [List.mem_singleton] at hxin
    subst hxin
    rcases hsafe with hs | hs
    · exact Or.inl hs
    · exact Or.inr (Or.inl (by simpa using hs))
  · rw [if_neg hsafe] at hxin
    obtain ⟨piece2, hpiece2, hxin2⟩ := List.mem_flatten.mp hxin
    obtain ⟨b, hb, hbp⟩ := List.mem_map.mp hpiece2
    subst hbp
    have hblt : b < 256 := utf8EncodeChar_lt256 c b hb
    unfold pctEncodeByte at hxin2
    simp only [List.mem_cons, List.not_mem_nil, or_false] at hxin2
    rcases hxin2 with rfl | rfl | rfl
    · exact Or.inr (Or.inr rfl)
    · exact Or.inl (alwaysSafe_hexUpper (b / 16) (by omega))
    · exact Or.inl (alwaysSafe_hexUpper (b % 16) (by omega))

/-- Character class of quote_plus output: always-safe, percent or plus. -/
theorem quote_plus_chars (s : String) :
    ∀ x ∈ (quote_plus s).data, alwaysSafeCh x ∨ x = '%' ∨ x = '+' := by
  intro x hx
  unfold quote_plus at hx
  by_cases hsp : s.data.contains ' '
  · rw [if_pos hsp] at hx
    show alwaysSafeCh x ∨ x = '%' ∨ x = '+' 
    have hx2 : x ∈ (quoteList [' '] s.data).map
        (fun c => if c = ' ' then '+' else c) := hx
    obtain ⟨y, hy, hxy⟩ := List.mem_map.mp hx2
    by_cases hys : y = ' '
    · subst hys
      rw [if_pos rfl] at hxy
      exact Or.inr (Or.inr hxy.symm)
    · rw [if_neg hys] at hxy
      subst hxy
      rcases quoteList_chars [' '] s.data y hy with h | h | h
      · exact Or.inl h
      · exact absurd (by simpa using h) hys
      · exact Or.inr (Or.inl h)
  · rw [if_neg hsp] at hx
    rcases quoteList_chars [] s.data x hx with h | h | h
    · exact Or.inl h
    · exact absurd h (List.not_mem_nil x)
    · exact Or.inr (Or.inl h)

/-- unquote_plus inverts quote_plus. -/
theorem unquote_plus_quote_plus (s : String) :
    unquote_plus (quote_plus s) = s := by
  unfold unquote_plus quote_plus
  by_cases hsp : s.data.contains ' '
  · rw [if_pos hsp]
    have hmap : (((quoteList [' '] s.data).map
          (fun c => if c = ' ' then '+' else c)).map
          (fun c => if c = '+' then ' ' else c)) = quoteList [' '] s.data := by
      rw [List.map_map]
      have hid : ∀ y ∈ quoteList [' '] s.data,
          ((fun c => if c = '+' then ' ' else c) ∘
            (fun c => if c = ' ' then '+' else c)) y = y := by
        intro y hy
        by_cases hys : y = ' '
        · subst hys
          simp
        · have hyp : ¬ y = '+' := by
            intro he
            subst he
            rcases quoteList_chars [' '] s.data '+' hy with h | h | h
            · exact absurd h (by decide)
            · simp at h
            · exact absurd h (by decide)
          simp only [Function.comp_apply, if_neg hys, if_neg hyp]
      rw [List.map_congr_left hid]
      simp
    show pyUnquote (String.mk (((quoteList [' '] s.data).map
      (fun c => if c = ' ' then '+' else c)).map
      (fun c => if c = '+' then ' ' else c))) = s
    rw [hmap, pyUnquote_quoteList [' '] (by decide) s.data]
  · rw [if_neg hsp]
    have hmap : ((quoteList [] s.data).map
        (fun c => if c = '+' then ' ' else c)) = quoteList [] s.data := by
      have hid : ∀ y ∈ quoteList [] s.data,
          (fun c => if c = '+' then ' ' else c) y = y := by
        intro y hy
        have hyp : ¬ y = '+' := by
          intro he
          subst he
          rcases quoteList_chars [] s.data '+' hy with h | h | h
          · exact absurd h (by decide)
          · simp at h
          · exact absurd h (by decide)
        simp only [if_neg hyp]
      rw [List.map_congr_left hid]
      simp
    show pyUnquote (String.mk ((quoteList [] s.data).map
      (fun c => if c = '+' then ' ' else c))) = s
    rw [hmap, pyUnquote_quoteList [] (by decide) s.data]

/-- Safe characters map to code points in the unreserved ASCII set. -/
theorem alwaysSafe_toNat (x : Char) (h : alwaysSafeCh x = true) :
    (48 ≤ x.toNat ∧ x.toNat ≤ 57) ∨ (65 ≤ x.toNat ∧ x.toNat ≤ 90) ∨
    (97 ≤ x.toNat ∧ x.toNat ≤ 122) ∨ x.toNat = 95 ∨ x.toNat = 46 ∨
    x.toNat = 45 ∨ x.toNat = 126 := by
  simp only [alwaysSafeCh, isAsciiAlphaCh, isAsciiDigitCh, Bool.decide_or,
    Bool.or_eq_true, decide_eq_true_iff, Bool.decide_and, Bool.and_eq_true] at h
  rcases h with (⟨a, b⟩ | ⟨a, b⟩) | ⟨a, b⟩ | h | h | h | h
  · exact Or.inr (Or.inl ⟨(charLe_iff _ _).mp a, (charLe_iff _ _).mp b⟩)
  · exact Or.inr (Or.inr (Or.inl ⟨(charLe_iff _ _).mp a, (charLe_iff _ _).mp b⟩))
  · exact Or.inl ⟨(charLe_iff _ _).mp a, (charLe_iff _ _).mp b⟩
  · subst h; exact Or.inr (Or.inr (Or.inr (Or.inl rfl)))
  · subst h; exact Or.inr (Or.inr (Or.inr (Or.inr (Or.inl rfl))))
  · subst h; exact Or.inr (Or.inr (Or.inr (Or.inr (Or.inr (Or.inl rfl)))))
  · subst h; exact Or.inr (Or.inr (Or.inr (Or.inr (Or.inr (Or.inr rfl)))))

/-- Characters of quote_plus output are never delimiters, separators or
stripped control characters. -/
theorem quote_plus_char_facts (s : String) (x : Char)
    (hx : x ∈ (quote_plus s).data) :
    x ≠ '&' ∧ x ≠ '=' ∧ x ≠ '#' ∧ x ≠ '?' ∧ x ≠ ':' ∧ x ≠ '/' ∧
      ¬ isTabCrLf x := by
  rcases quote_plus_chars s x hx with h | h | h
  · refine ⟨fun he => absurd (he ▸ h) (by decide),
      fun he => absurd (he ▸ h) (by decide),
      fun he => absurd (he ▸ h) (by decide),
      fun he => absurd (he ▸ h) (by decide),
      fun he => absurd (he ▸ h) (by decide),
      fun he => absurd (he ▸ h) (by decide), ?_⟩
    intro ht
    simp only [isTabCrLf, Bool.decide_or, Bool.or_eq_true, decide_eq_true_iff] at ht
    rcases ht with ht | ht | ht <;> (subst ht; exact absurd h (by decide))
  · subst h; refine ⟨by decide, by decide, by decide, by decide, by decide,
      by decide, by decide⟩
  · subst h; refine ⟨by decide, by decide, by decide, by decide, by decide,
      by decide, by decide⟩

/-- splitOnChar of a separator-free list yields the single group. -/
theorem splitOnChar_no_sep (sep : Char) (a : List Char) (h : sep ∉ a) :
    splitOnChar sep a = [a] := by
  induction a with
  | nil => rfl
  | cons c cs ih =>
    have hc : ¬ c = sep := fun he => h (by simp [he])
    rw [splitOnChar, if_neg hc, ih (fun hm => h (by simp [hm]))]

/-- splitOnChar splits off a leading separator-free group. -/
theorem splitOnChar_append_sep (sep : Char) (a b : List Char) (h : sep ∉ a) :
    splitOnChar sep (a ++ sep :: b) = a :: splitOnChar sep b := by
  induction a with
  | nil => simp [splitOnChar]
  | cons c cs ih =>
    have hc : ¬ c = sep := fun he => h (by simp [he])
    rw [List.cons_append, splitOnChar, if_neg hc,
      ih (fun hm => h (by simp [hm]))]

/-- parseQslField reads a quoted pair back. -/
theorem parseQslField_pair (k v : String) :
    parseQslField ((quote_plus k).data ++ '=' :: (quote_plus v).data) =
      some (k, v) := by
  unfold parseQslField
  rw [if_neg (by simp)]
  rw [splitAtFirst_append_sep '=' _ _
    (fun hm => (quote_plus_char_facts k '=' hm).2.1 rfl)]
  show some (unquote_plus (quote_plus k), unquote_plus (quote_plus v)) = _
  rw [unquote_plus_quote_plus, unquote_plus_quote_plus]

/-- The character list of one urlencoded field. -/
theorem field_data (k v : String) :
    (quote_plus k ++ "=" ++ quote_plus v).data =
      (quote_plus k).data ++ '=' :: (quote_plus v).data := by
  simp [String.data_append]

/-- parse_qsl inverts urlencodePairs. -/
theorem parse_qsl_urlencode (ps : List (String × String)) :
    parse_qsl (urlencodePairs ps) = ps := by
  induction ps with
  | nil => rfl
  | cons kv rest ih =>
    cases rest with
    | nil =>
      show parse_qsl (quote_plus kv.1 ++ "=" ++ quote_plus kv.2) = [kv]
      unfold parse_qsl
      rw [if_neg (fun he => by
        have := congrArg String.data he
        rw [field_data] at this
        simp at this)]
      rw [field_data, splitOnChar_no_sep '&' _ (fun hm => by
        rcases List.mem_append.mp hm with h1 | h1
        · exact (quote_plus_char_facts kv.1 '&' h1).1 rfl
        · rcases List.mem_cons.mp h1 with h2 | h2
          · simp at h2
          · exact (quote_plus_char_facts kv.2 '&' h2).1 rfl)]
      rw [List.filterMap, parseQslField_pair]
      rfl
    | cons kv2 rest2 =>
      show parse_qsl (quote_plus kv.1 ++ "=" ++ quote_plus kv.2 ++ "&" ++
        urlencodePairs (kv2 :: rest2)) = kv :: kv2 :: rest2
      unfold parse_qsl
      rw [if_neg (fun he => by
        have := congrArg String.data he
        simp [String.data_append] at this)]
      have hdata : (quote_plus kv.1 ++ "=" ++ quote_plus kv.2 ++ "&" ++
          urlencodePairs (kv2 :: rest2)).data =
          ((quote_plus kv.1).data ++ '=' :: (quote_plus kv.2).data) ++
            '&' :: (urlencodePairs (kv2 :: rest2)).data := by
        simp [String.data_append]
      rw [hdata, splitOnChar_append_sep '&' _ _ (fun hm => by
        rcases List.mem_append.mp hm with h1 | h1
        · exact (quote_plus_char_facts kv.1 '&' h1).1 rfl
        · rcases List.mem_cons.mp h1 with h2 | h2
          · simp at h2
          · exact (quote_plus_char_facts kv.2 '&' h2).1 rfl)]
      rw [List.filterMap, parseQslField_pair]
      have ihf : (splitOnChar '&'
          (urlencodePairs (kv2 :: rest2)).data).filterMap parseQslField =
          kv2 :: rest2 := by
        unfold parse_qsl at ih
        rw [if_neg (fun he => by
          have := congrArg String.data he
          revert this
          show (urlencodePairs (kv2 :: rest2)).data = ("" : String).data → False
          cases rest2 with
          | nil =>
            show (quote_plus kv2.1 ++ "=" ++ quote_plus kv2.2).data = _ → False
            rw [field_data]
            simp
          | cons kv3 rest3 =>
            show (quote_plus kv2.1 ++ "=" ++ quote_plus kv2.2 ++ "&" ++
              urlencodePairs (kv3 :: rest3)).data = _ → False
            simp [String.data_append])] at ih
        exact ih
      rw [ihf]

instance : IsTotal (String × String) pairLe :=
  ⟨fun a b => by
    unfold pairLe
    rcases lt_trichotomy a.1 b.1 with h | h | h
    · exact Or.inl (Or.inl h)
    · rcases le_total a.2 b.2 with h2 | h2
      · exact Or.inl (Or.inr ⟨h, h2⟩)
      · exact Or.inr (Or.inr ⟨h.symm, h2⟩)
    · exact Or.inr (Or.inl h)⟩

instance : IsTrans (String × String) pairLe :=
  ⟨fun a b c hab hbc => by
    unfold pairLe at hab hbc ⊢
    rcases hab with h1 | ⟨h1, h2⟩
    · rcases hbc with h3 | ⟨h3, h4⟩
      · exact Or.inl (lt_trans h1 h3)
      · exact Or.inl (h3 ▸ h1)
    · rcases hbc with h3 | ⟨h3, h4⟩
      · exact Or.inl (h1 ▸ h3)
      · exact Or.inr ⟨h1.trans h3, le_trans h2 h4⟩⟩

/-- Re-sorting a sorted pair list changes nothing. -/
theorem insertionSort_pairLe_idem (l : List (String × String)) :
    List.insertionSort pairLe (List.insertionSort pairLe l) =
      List.insertionSort pairLe l :=
  (List.sorted_insertionSort pairLe l).insertionSort_eq

/-- Members of an insertion sort are members of the list. -/
theorem mem_insertionSort_pairLe (l : List (String × String))
    (kv : String × String) (h : kv ∈ List.insertionSort pairLe l) : kv ∈ l :=
  (List.perm_insertionSort pairLe l).mem_iff.mp h

/-- The head of a dropWhile result fails the predicate. -/
theorem dropWhile_head_not (p : Char → Bool) (l : List Char) (c : Char)
    (h : (List.dropWhile p l).head? = some c) : p c = false := by
  induction l with
  | nil => simp at h
  | cons d t ih =>
    rw [List.dropWhile_cons] at h
    by_cases hd : p d
    · rw [if_pos hd] at h
      exact ih h
    · rw [if_neg hd] at h
      simp only [List.head?_cons, Option.some.injEq] at h
      subst h
      exact Bool.eq_false_iff.mpr hd

/-- dropWhile is idempotent. -/
theorem dropWhile_idem (p : Char → Bool) (l : List Char) :
    List.dropWhile p (List.dropWhile p l) = List.dropWhile p l := by
  match hd : List.dropWhile p l with
  | [] => rfl
  | c :: t =>
    have hc : p c = false := dropWhile_head_not p l c (by rw [hd]; rfl)
    rw [List.dropWhile_cons, if_neg (by simp [hc])]

/-- rstripSlash is idempotent. -/
theorem rstripSlash_idem (p : String) :
    rstripSlash (rstripSlash p) = rstripSlash p := by
  unfold rstripSlash
  dsimp only
  rw [List.reverse_reverse, dropWhile_idem]

/-- pathNorm is a single slash or the non-empty rstripped path. -/
theorem pathNorm_eq_cases (p : String) :
    pathNorm p = "/" ∨ (pathNorm p = rstripSlash p ∧ rstripSlash p ≠ "") := by
  unfold pathNorm
  split_ifs with h1 h2
  · exact Or.inl rfl
  · exact Or.inl rfl
  · exact Or.inr ⟨rfl, h2⟩

/-- pathNorm output is never empty. -/
theorem pathNorm_ne_empty (p : String) : pathNorm p ≠ "" := by
  rcases pathNorm_eq_cases p with h | ⟨h, hne⟩
  · rw [h]; decide
  · rw [h]; exact hne

/-- pathNorm is idempotent. -/
theorem pathNorm_idem (p : String) : pathNorm (pathNorm p) = pathNorm p := by
  rcases pathNorm_eq_cases p with h | ⟨h, hne⟩
  · rw [h]; decide
  · rw [h]
    unfold pathNorm
    rw [if_neg hne, rstripSlash_idem, if_neg hne]

/-- The rstripped path is a prefix of the path. -/
theorem rstripSlash_isPre (p : String) : (rstripSlash p).data <+: p.data := by
  unfold rstripSlash
  dsimp only
  have hs : List.dropWhile (fun c => decide (c = '/')) p.data.reverse <:+
      p.data.reverse := List.dropWhile_suffix _
  have h2 := List.reverse_prefix.mpr hs
  rw [List.reverse_reverse] at h2
  exact h2

/-- On an empty or absolute path, pathNorm output starts with a slash. -/
theorem pathNorm_head (p : String)
    (h : p.data = [] ∨ p.data.head? = some '/') :
    (pathNorm p).data.head? = some '/' := by
  rcases pathNorm_eq_cases p with h1 | ⟨h1, hne⟩
  · rw [h1]; rfl
  · rw [h1]
    rcases h with h | h
    · exfalso
      apply hne
      have hp : p = "" := String.ext (by rw [h])
      rw [hp]; rfl
    · obtain ⟨t, ht⟩ := rstripSlash_isPre p
      cases hd : (rstripSlash p).data with
      | nil =>
        exfalso
        exact hne (String.ext (by rw [hd]))
      | cons c t2 =>
        rw [hd] at ht
        have hc : p.data.head? = some c := by
          rw [← ht]; rfl
        rw [hc] at h
        injection h with h
        rw [h]
        rfl

/-- Characters of pathNorm output come from the path or are the slash. -/
theorem pathNorm_subset (p : String) :
    ∀ x ∈ (pathNorm p).data, x ∈ p.data ∨ x = '/' := by
  intro x hx
  rcases pathNorm_eq_cases p with h | ⟨h, _⟩
  · rw [h] at hx
    rw [show ("/" : String).data = ['/'] from rfl] at hx
    simp only [List.mem_cons, List.not_mem_nil, or_false] at hx
    exact Or.inr hx
  · rw [h] at hx
    exact Or.inl ((rstripSlash_isPre p).subset hx)

/-- take 1 of a list with a known head. -/
theorem take_one_head (l : List Char) (c : Char) (h : l.head? = some c) :
    l.take 1 = [c] := by
  cases l with
  | nil => simp at h
  | cons a t =>
    simp only [List.head?_cons, Option.some.injEq] at h
    rw [h]
    rfl

/-- Character equality is code point equality. -/
theorem charEq_iff_toNat (a b : Char) : a = b ↔ a.toNat = b.toNat :=
  ⟨fun h => h ▸ rfl, charEq_of_toNat a b⟩

/-- ASCII alphabetic test as code point ranges. -/
theorem isAsciiAlphaCh_iff (c : Char) : isAsciiAlphaCh c = true ↔
    (65 ≤ c.toNat ∧ c.toNat ≤ 90) ∨ (97 ≤ c.toNat ∧ c.toNat ≤ 122) := by
  simp only [isAsciiAlphaCh, Bool.decide_or, Bool.or_eq_true, Bool.decide_and,
    Bool.and_eq_true, decide_eq_true_iff, charLe_iff]
  show ((Char.toNat 'A' ≤ c.toNat ∧ c.toNat ≤ Char.toNat 'Z') ∨
    (Char.toNat 'a' ≤ c.toNat ∧ c.toNat ≤ Char.toNat 'z')) ↔ _
  rw [show Char.toNat 'A' = 65 from rfl, show Char.toNat 'Z' = 90 from rfl,
    show Char.toNat 'a' = 97 from rfl, show Char.toNat 'z' = 122 from rfl]

/-- ASCII digit test as a code point range. -/
theorem isAsciiDigitCh_iff (c : Char) : isAsciiDigitCh c = true ↔
    48 ≤ c.toNat ∧ c.toNat ≤ 57 := by
  simp only [isAsciiDigitCh, Bool.decide_and, Bool.and_eq_true,
    decide_eq_true_iff, charLe_iff]
  show (Char.toNat '0' ≤ c.toNat ∧ c.toNat ≤ Char.toNat '9') ↔ _
  rw [show Char.toNat '0' = 48 from rfl, show Char.toNat '9' = 57 from rfl]

/-- Scheme character test as code point ranges. -/
theorem isSchemeChar_iff (c : Char) : isSchemeChar c = true ↔
    (65 ≤ c.toNat ∧ c.toNat ≤ 90) ∨ (97 ≤ c.toNat ∧ c.toNat ≤ 122) ∨
    (48 ≤ c.toNat ∧ c.toNat ≤ 57) ∨ c.toNat = 43 ∨ c.toNat = 45 ∨
    c.toNat = 46 := by
  simp only [isSchemeChar, Bool.decide_or, Bool.or_eq_true, decide_eq_true_iff,
    isAsciiAlphaCh_iff, isAsciiDigitCh_iff, charEq_iff_toNat]
  exact or_assoc

/-- The tab, CR, LF test as code points. -/
theorem isTabCrLf_iff (c : Char) : isTabCrLf c = true ↔
    c.toNat = 9 ∨ c.toNat = 13 ∨ c.toNat = 10 := by
  simp only [isTabCrLf, Bool.decide_or, Bool.or_eq_true, decide_eq_true_iff,
    charEq_iff_toNat]
  rfl

/-- The C0-or-space test as a code point bound. -/
theorem isC0OrSpace_iff (c : Char) : isC0OrSpace c = true ↔ c.toNat ≤ 32 := by
  simp only [isC0OrSpace, decide_eq_true_iff]

/-- The netloc delimiter test as code points. -/
theorem netlocDelim_iff (c : Char) : netlocDelim c = true ↔
    c.toNat = 47 ∨ c.toNat = 63 ∨ c.toNat = 35 := by
  simp only [netlocDelim, Bool.decide_or, Bool.or_eq_true, decide_eq_true_iff,
    charEq_iff_toNat]
  rfl

/-- pyLowerChar keeps ASCII alphabetic characters alphabetic. -/
theorem pyLowerChar_alpha (c : Char) (h : isAsciiAlphaCh c = true) :
    isAsciiAlphaCh (pyLowerChar c) = true := by
  rcases pyLowerChar_cases c with h1 | ⟨h1, h2, h3⟩
  · rw [h1]; exact h
  · rw [isAsciiAlphaCh_iff, h3]
    omega

/-- pyLowerChar keeps scheme characters scheme characters. -/
theorem pyLowerChar_schemeChar (c : Char) (h : isSchemeChar c = true) :
    isSchemeChar (pyLowerChar c) = true := by
  rcases pyLowerChar_cases c with h1 | ⟨h1, h2, h3⟩
  · rw [h1]; exact h
  · rw [isSchemeChar_iff, h3]
    omega

/-- A scheme character is not a colon, tab, CR, LF or C0 control. -/
theorem schemeChar_facts (c : Char) (h : isSchemeChar c = true) :
    c ≠ ':' ∧ ¬ isTabCrLf c = true ∧ ¬ isC0OrSpace c = true := by
  rw [isSchemeChar_iff] at h
  refine ⟨?_, ?_, ?_⟩
  · intro he
    rw [charEq_iff_toNat, show Char.toNat ':' = 58 from rfl] at he
    omega
  · rw [isTabCrLf_iff]
    omega
  · rw [isC0OrSpace_iff]
    omega

/-- Characters of url0Of are free of tab, CR and LF. -/
theorem url0Of_facts (s : String) : ∀ c ∈ url0Of s, ¬ isTabCrLf c = true := by
  intro c hc
  unfold url0Of at hc
  have h := (List.mem_filter.mp hc).2
  simpa using h

/-- A detected scheme is non-empty with an alphabetic head, all scheme
characters, and fixed under lowercasing. -/
theorem schemeSplit_fst_facts (u : List Char) (h : (schemeSplit u).1 ≠ []) :
    isAsciiAlphaCh ((schemeSplit u).1.headD ' ') = true ∧
    (schemeSplit u).1.all isSchemeChar = true ∧
    (schemeSplit u).1.map pyLowerChar = (schemeSplit u).1 := by
  unfold schemeSplit at h ⊢
  cases hsp : splitAtFirst ':' u with
  | none => rw [hsp] at h; dsimp only at h; simp at h
  | some pr =>
    obtain ⟨pre, post⟩ := pr
    rw [hsp] at h
    dsimp only at h ⊢
    by_cases hdet : pre ≠ [] ∧ isAsciiAlphaCh (pre.headD ' ') ∧
        pre.all isSchemeChar
    · rw [if_pos hdet] at h ⊢
      obtain ⟨hne, halpha, hall⟩ := hdet
      refine ⟨?_, ?_, mapLower_idem pre⟩
      · cases pre with
        | nil => exact absurd rfl hne
        | cons p0 pr2 =>
          show isAsciiAlphaCh (pyLowerChar p0) = true
          exact pyLowerChar_alpha p0 halpha
      · rw [List.all_eq_true] at hall ⊢
        intro x hx
        obtain ⟨d, hd, hdx⟩ := List.mem_map.mp hx
        subst hdx
        exact pyLowerChar_schemeChar d (hall d hd)
    · rw [if_neg hdet] at h
      simp at h

/-- The rest component of schemeSplit is drawn from the input. -/
theorem schemeSplit_snd_subset (u : List Char) :
    ∀ c ∈ (schemeSplit u).2, c ∈ u := by
  intro c hc
  unfold schemeSplit at hc
  cases hsp : splitAtFirst ':' u with
  | none => rw [hsp] at hc; exact hc
  | some pr =>
    obtain ⟨pre, post⟩ := pr
    rw [hsp] at hc
    dsimp only at hc
    by_cases hdet : pre ≠ [] ∧ isAsciiAlphaCh (pre.headD ' ') ∧
        pre.all isSchemeChar
    · rw [if_pos hdet] at hc
      obtain ⟨hdec, _⟩ := splitAtFirst_eq_some ':' u pre post hsp
      rw [hdec]
      simp [hc]
    · rw [if_neg hdet] at hc
      exact hc

/-- A successful netlocSplitF yields a delimiter-free netloc drawn from the
input, with the rest empty or led by a delimiter, and also drawn from the
input. -/
theorem netlocSplitF_ok_facts (r n rest2 : List Char)
    (h : netlocSplitF r = Except.ok (n, rest2)) :
    (∀ c ∈ n, ¬ netlocDelim c = true ∧ c ∈ r) ∧
    (n ≠ [] → rest2 = [] ∨ ∃ d t, rest2 = d :: t ∧ netlocDelim d = true) ∧
    (∀ c ∈ rest2, c ∈ r) := by
  match r with
  | [] =>
    rw [netlocSplitF.eq_2 [] (by intro tail he; cases he)] at h
    simp only [Except.ok.injEq, Prod.mk.injEq] at h
    obtain ⟨h1, h2⟩ := h
    subst h1; subst h2
    exact ⟨by simp, fun hne => absurd rfl hne, by simp⟩
  | [c1] =>
    rw [netlocSplitF.eq_2 [c1] (by intro tail he; simp at he)] at h
    simp only [Except.ok.injEq, Prod.mk.injEq] at h
    obtain ⟨h1, h2⟩ := h
    subst h1; subst h2
    exact ⟨by simp, fun hne => absurd rfl hne, by simp⟩
  | c1 :: c2 :: tail =>
    by_cases hslash : c1 = '/' ∧ c2 = '/'
    · obtain ⟨hs1, hs2⟩ := hslash
      subst hs1; subst hs2
      rw [netlocSplitF.eq_1 tail] at h
      by_cases hbr : (tail.takeWhile (fun c => ¬ netlocDelim c)).contains '[' ∧
          ¬ (tail.takeWhile (fun c => ¬ netlocDelim c)).contains ']' ∨
          (tail.takeWhile (fun c => ¬ netlocDelim c)).contains ']' ∧
          ¬ (tail.takeWhile (fun c => ¬ netlocDelim c)).contains '['
      · rw [if_pos hbr] at h
        simp at h
      · rw [if_neg hbr] at h
        simp only [Except.ok.injEq, Prod.mk.injEq] at h
        obtain ⟨h1, h2⟩ := h
        subst h1; subst h2
        refine ⟨?_, ?_, ?_⟩
        · intro c hc
          constructor
          · have := List.mem_takeWhile_imp hc
            simpa using this
          · have := (List.takeWhile_sublist
              (fun c => decide (¬ netlocDelim c = true))).subset hc
            simp [this]
        · intro _
          cases hd : tail.dropWhile (fun c => decide (¬ netlocDelim c = true)) with
          | nil => exact Or.inl rfl
          | cons d t =>
            refine Or.inr ⟨d, t, rfl, ?_⟩
            have := dropWhile_head_not _ tail d (by rw [hd]; rfl)
            simpa using this
        · intro c hc
          have := (List.dropWhile_suffix
            (fun c => decide (¬ netlocDelim c = true))).sublist.subset hc
          simp [this]
    · have hr : netlocSplitF (c1 :: c2 :: tail) =
          Except.ok ([], c1 :: c2 :: tail) :=
        netlocSplitF.eq_2 _ (by
          intro t3 he
          injection he with e1 he2
          injection he2 with e2 _
          exact hslash ⟨e1, e2⟩)
      rw [hr] at h
      simp only [Except.ok.injEq, Prod.mk.injEq] at h
      obtain ⟨h1, h2⟩ := h
      subst h1; subst h2
      exact ⟨by simp, fun hne => absurd rfl hne, by simp⟩

/-- The pre-fragment part is a prefix of the input and hash-free. -/
theorem fragSplitF_facts (r : List Char) :
    (fragSplitF r).1 <+: r ∧ '#' ∉ (fragSplitF r).1 := by
  unfold fragSplitF
  cases hsp : splitAtFirst '#' r with
  | none =>
    exact ⟨List.prefix_refl r, (splitAtFirst_eq_none_iff '#' r).mp hsp⟩
  | some pr =>
    obtain ⟨pre, post⟩ := pr
    obtain ⟨hdec, hmem⟩ := splitAtFirst_eq_some '#' r pre post hsp
    exact ⟨⟨'#' :: post, hdec.symm⟩, hmem⟩

/-- The pre-query part is a prefix of the input and question-mark-free. -/
theorem querySplitF_facts (r : List Char) :
    (querySplitF r).1 <+: r ∧ '?' ∉ (querySplitF r).1 := by
  unfold querySplitF
  cases hsp : splitAtFirst '?' r with
  | none =>
    exact ⟨List.prefix_refl r, (splitAtFirst_eq_none_iff '?' r).mp hsp⟩
  | some pr =>
    obtain ⟨pre, post⟩ := pr
    obtain ⟨hdec, hmem⟩ := splitAtFirst_eq_some '?' r pre post hsp
    exact ⟨⟨'?' :: post, hdec.symm⟩, hmem⟩

/-- Behind a delimiter-led rest, the split path is empty or slash-led. -/
theorem path_of_rest2 (rest2 : List Char)
    (hhead : rest2 = [] ∨ ∃ d t, rest2 = d :: t ∧ netlocDelim d = true) :
    (querySplitF (fragSplitF rest2).1).1 = [] ∨
      (querySplitF (fragSplitF rest2).1).1.head? = some '/' := by
  rcases hhead with h | ⟨d, t, hdt, hdelim⟩
  · subst h
    left
    rfl
  · subst hdt
    rw [netlocDelim_iff] at hdelim
    have hfragpre := (fragSplitF_facts (d :: t)).1
    have hqpre := (querySplitF_facts (fragSplitF (d :: t)).1).1
    rcases hdelim with hd | hd | hd
    · have hdc : d = '/' := charEq_of_toNat d '/' hd
      subst hdc
      cases hq : (querySplitF (fragSplitF ('/' :: t)).1).1 with
      | nil => exact Or.inl rfl
      | cons x xs =>
        right
        obtain ⟨t2, ht2⟩ := hqpre.trans hfragpre
        rw [hq] at ht2
        have : ('/' :: t).head? = some x := by
          rw [← ht2]
          rfl
        simp only [List.head?_cons, Option.some.injEq] at this
        rw [this]
        rfl
    · have hdc : d = '?' := charEq_of_toNat d '?' hd
      subst hdc
      left
      obtain ⟨t2, ht2⟩ := hfragpre
      cases hfl : (fragSplitF ('?' :: t)).1 with
      | nil => rfl
      | cons x xs =>
        rw [hfl] at ht2
        have hx : x = '?' := by
          have hh : ('?' :: t).head? = some x := by rw [← ht2]; rfl
          simp only [List.head?_cons, Option.some.injEq] at hh
          exact hh.symm
        subst hx
        unfold querySplitF
        rw [splitAtFirst, if_pos rfl]
    · have hdc : d = '#' := charEq_of_toNat d '#' hd
      subst hdc
      left
      unfold fragSplitF
      rw [splitAtFirst]
      rw [if_pos rfl]
      rfl

/-- Component facts of a successful pyUrlsplit: scheme shape, netloc
character class, path head behind a netloc, and path character class. -/
theorem pyUrlsplit_ok_facts (s : String) (parts : SplitParts)
    (h : pyUrlsplit s = Except.ok parts) :
    (parts.scheme.data ≠ [] →
      isAsciiAlphaCh (parts.scheme.data.headD ' ') = true ∧
      parts.scheme.data.all isSchemeChar = true ∧
      parts.scheme.data.map pyLowerChar = parts.scheme.data) ∧
    (∀ c ∈ parts.netloc.data, ¬ netlocDelim c = true ∧ ¬ isTabCrLf c = true) ∧
    (parts.netloc.data ≠ [] →
      parts.path.data = [] ∨ parts.path.data.head? = some '/') ∧
    ('?' ∉ parts.path.data ∧ '#' ∉ parts.path.data ∧
      ∀ c ∈ parts.path.data, ¬ isTabCrLf c = true) := by
  unfold pyUrlsplit at h
  cases hns : netlocSplitF (schemeSplit (url0Of s)).2 with
  | error e => rw [hns] at h; simp at h
  | ok pr =>
    obtain ⟨n, rest2⟩ := pr
    rw [hns] at h
    simp only [Except.ok.injEq] at h
    subst h
    obtain ⟨hnmem, hnhead, hrmem⟩ := netlocSplitF_ok_facts _ n rest2 hns
    have hfragpre := fragSplitF_facts rest2
    have hqpre := querySplitF_facts (fragSplitF rest2).1
    refine ⟨?_, ?_, ?_, ?_, ?_, ?_⟩
    · intro hne
      exact schemeSplit_fst_facts _ hne
    · intro c hc
      refine ⟨(hnmem c hc).1, ?_⟩
      exact url0Of_facts s c (schemeSplit_snd_subset _ c (hnmem c hc).2)
    · intro hne
      exact path_of_rest2 rest2 (hnhead hne)
    · exact hqpre.2
    · intro hmem
      exact hfragpre.2 (hqpre.1.subset hmem)
    · intro c hc
      exact url0Of_facts s c (schemeSplit_snd_subset _ c
        (hrmem c (hfragpre.1.subset (hqpre.1.subset hc))))

/-- Contains on character lists is membership. -/
theorem containsChar_iff (l : List Char) (c : Char) :
    l.contains c = true ↔ c ∈ l := by
  induction l with
  | nil => simp
  | cons d t ih => simp

/-- Splitting the URL string reassembled from a lowered scheme, a bracketfree
delimiter-free netloc, a slash-led path and a hash-free query recovers the
components exactly. -/
theorem pyUrlsplit_rebuild
    (S nl pa q : List Char)
    (hS1 : S ≠ []) (hS2 : isAsciiAlphaCh (S.headD ' ') = true)
    (hS3 : S.all isSchemeChar = true)
    (hnl : ∀ c ∈ nl, ¬ netlocDelim c = true ∧ ¬ isTabCrLf c = true)
    (hbr1 : '[' ∉ nl) (hbr2 : ']' ∉ nl)
    (hpa0 : pa.head? = some '/')
    (hpaq : '?' ∉ pa) (hpah : '#' ∉ pa)
    (hpat : ∀ c ∈ pa, ¬ isTabCrLf c = true)
    (hq1 : '#' ∉ q) (hqt : ∀ c ∈ q, ¬ isTabCrLf c = true) :
    pyUrlsplit (String.mk (S ++ ':' :: '/' :: '/' :: (nl ++ pa ++
      (if q = [] then [] else '?' :: q)))) =
      Except.ok ⟨String.mk (S.map pyLowerChar), String.mk nl, String.mk pa,
        String.mk q, String.mk []⟩ := by
  obtain ⟨p0, pa2, hpa⟩ : ∃ p0 pa2, pa = p0 :: pa2 := by
    cases pa with
    | nil => simp at hpa0
    | cons a b => exact ⟨a, b, rfl⟩
  have hp0 : p0 = '/' := by
    rw [hpa] at hpa0
    simpa using hpa0
  subst hp0
  obtain ⟨s0, S2, hS⟩ : ∃ s0 S2, S = s0 :: S2 := by
    cases S with
    | nil => exact absurd rfl hS1
    | cons a b => exact ⟨a, b, rfl⟩
  have hs0 : isAsciiAlphaCh s0 = true := by
    rw [hS] at hS2
    exact hS2
  have hSmem : ∀ c ∈ S, isSchemeChar c = true := by
    rw [List.all_eq_true] at hS3
    exact hS3
  have hqpmem : ∀ c ∈ (if q = [] then ([] : List Char) else '?' :: q),
      c = '?' ∨ c ∈ q := by
    intro c hc
    by_cases hqe : q = []
    · rw [if_pos hqe] at hc
      simp at hc
    · rw [if_neg hqe] at hc
      rcases List.mem_cons.mp hc with h | h
      · exact Or.inl h
      · exact Or.inr h
  have hurl0 : url0Of (String.mk (S ++ ':' :: '/' :: '/' :: (nl ++ pa ++
      (if q = [] then [] else '?' :: q)))) =
      S ++ ':' :: '/' :: '/' :: (nl ++ pa ++
        (if q = [] then [] else '?' :: q)) := by
    unfold url0Of
    show ((S ++ ':' :: '/' :: '/' :: (nl ++ pa ++ _)).dropWhile
      isC0OrSpace).filter _ = _
    rw [hS, List.cons_append, List.dropWhile_cons,
      if_neg (by
        rw [isC0OrSpace_iff]
        have := (isAsciiAlphaCh_iff s0).mp hs0
        omega)]
    rw [← List.cons_append, ← hS]
    apply List.filter_eq_self.mpr
    intro c hc
    simp only [decide_eq_true_iff]
    rcases List.mem_append.mp hc with h1 | h1
    · exact (schemeChar_facts c (hSmem c h1)).2.1
    · rcases List.mem_cons.mp h1 with h2 | h2
      · subst h2; decide
      · rcases List.mem_cons.mp h2 with h3 | h3
        · subst h3; decide
        · rcases List.mem_cons.mp h3 with h4 | h4
          · subst h4; decide
          · rcases List.mem_append.mp h4 with h5 | h5
            · rcases List.mem_append.mp h5 with h6 | h6
              · exact (hnl c h6).2
              · exact hpat c h6
            · rcases hqpmem c h5 with h6 | h6
              · subst h6; decide
              · exact hqt c h6
  have hscheme : schemeSplit (S ++ ':' :: '/' :: '/' :: (nl ++ pa ++
      (if q = [] then [] else '?' :: q))) =
      (S.map pyLowerChar, '/' :: '/' :: (nl ++ pa ++
        (if q = [] then [] else '?' :: q))) := by
    unfold schemeSplit
    rw [splitAtFirst_append_sep ':' S _
      (fun hm => (schemeChar_facts ':' (hSmem ':' hm)).1 rfl)]
    dsimp only
    rw [if_pos ⟨hS1, hS2, hS3⟩]
  have htake : (nl ++ pa ++ (if q = [] then ([] : List Char) else '?' :: q)).takeWhile
      (fun c => decide (¬ netlocDelim c = true)) = nl := by
    rw [List.append_assoc]
    rw [takeWhile_append_all _ nl _ (fun x hx => by
      simp only [decide_eq_true_iff]
      exact (hnl x hx).1)]
    rw [hpa, List.cons_append, List.takeWhile_cons, if_neg (by simp [netlocDelim])]
    simp
  have hdrop : (nl ++ pa ++ (if q = [] then ([] : List Char) else '?' :: q)).dropWhile
      (fun c => decide (¬ netlocDelim c = true)) =
      pa ++ (if q = [] then [] else '?' :: q) := by
    rw [List.append_assoc]
    rw [dropWhile_append_all _ nl _ (fun x hx => by
      simp only [decide_eq_true_iff]
      exact (hnl x hx).1)]
    rw [hpa, List.cons_append, List.dropWhile_cons, if_neg (by simp [netlocDelim])]
  have hnet : netlocSplitF ('/' :: '/' :: (nl ++ pa ++
      (if q = [] then [] else '?' :: q))) =
      Except.ok (nl, pa ++ (if q = [] then [] else '?' :: q)) := by
    rw [netlocSplitF.eq_1]
    rw [htake, hdrop]
    rw [if_neg (by
      rintro (⟨h1, _⟩ | ⟨h1, _⟩)
      · exact hbr1 ((containsChar_iff nl '[').mp h1)
      · exact hbr2 ((containsChar_iff nl ']').mp h1))]
  have hfrag : fragSplitF (pa ++ (if q = [] then [] else '?' :: q)) =
      (pa ++ (if q = [] then [] else '?' :: q), []) := by
    unfold fragSplitF
    rw [(splitAtFirst_eq_none_iff '#' _).mpr (fun hm => by
      rcases List.mem_append.mp hm with h1 | h1
      · exact hpah h1
      · rcases hqpmem '#' h1 with h2 | h2
        · exact absurd h2 (by decide)
        · exact hq1 h2)]
  have hquery : querySplitF (pa ++ (if q = [] then [] else '?' :: q)) =
      (pa, q) := by
    by_cases hqe : q = []
    · rw [if_pos hqe, List.append_nil]
      unfold querySplitF
      rw [(splitAtFirst_eq_none_iff '?' pa).mpr hpaq]
      rw [hqe]
    · rw [if_neg hqe]
      unfold querySplitF
      rw [splitAtFirst_append_sep '?' pa q hpaq]
  unfold pyUrlsplit
  rw [hurl0, hscheme]
  dsimp only
  rw [hnet]
  dsimp only
  rw [hfrag]
  dsimp only
  rw [hquery]

/-- A list fixed under a map is fixed pointwise. -/
theorem map_fixed_mem (f : Char → Char) (l : List Char) (h : l.map f = l) :
    ∀ c ∈ l, f c = c := by
  induction l with
  | nil => intro c hc; simp at hc
  | cons a t ih =>
    simp only [List.map_cons, List.cons.injEq] at h
    intro c hc
    rcases List.mem_cons.mp hc with h1 | h1
    · subst h1; exact h.1
    · exact ih h.2 c h1

/-- Appending String.mk values concatenates the data. -/
theorem stringMk_append (a b : List Char) :
    String.mk a ++ String.mk b = String.mk (a ++ b) := rfl

/-- A String.mk of a non-empty list is non-empty. -/
theorem stringMk_ne_empty (l : List Char) (h : l ≠ []) :
    String.mk l ≠ "" := by
  intro he
  exact h (congrArg String.data he)

/-- pyLower acts on the character list. -/
theorem pyLower_mk (l : List Char) :
    pyLower (String.mk l) = String.mk (l.map pyLowerChar) := rfl

/-- hostinfoOf of an at-free netloc is the netloc. -/
theorem hostinfoOf_no_at (l : List Char) (h : '@' ∉ l) : hostinfoOf l = l := by
  unfold hostinfoOf
  rw [(splitAtLast_eq_none_iff '@' l).mpr h]

/-- hostinfoOf with a userinfo part is the part after the last at sign. -/
theorem hostinfoOf_with_user (u rest : List Char) (h : '@' ∉ rest) :
    hostinfoOf (u ++ '@' :: rest) = rest := by
  unfold hostinfoOf
  rw [splitAtLast_append_sep '@' u rest h]

/-- userinfoProp of an at-free netloc is absent. -/
theorem userinfoProp_no_at (l : List Char) (h : '@' ∉ l) :
    userinfoProp l = (none, none) := by
  unfold userinfoProp
  rw [(splitAtLast_eq_none_iff '@' l).mpr h]

/-- userinfoProp with a colon-free username and no password. -/
theorem userinfoProp_user_only (u rest : List Char) (h : '@' ∉ rest)
    (hc : ':' ∉ u) :
    userinfoProp (u ++ '@' :: rest) = (some (String.mk u), none) := by
  unfold userinfoProp
  rw [splitAtLast_append_sep '@' u rest h]
  dsimp only
  rw [(splitAtFirst_eq_none_iff ':' u).mpr hc]

/-- userinfoProp with a username and password. -/
theorem userinfoProp_user_pass (u1 pw rest : List Char) (h : '@' ∉ rest)
    (hc : ':' ∉ u1) :
    userinfoProp ((u1 ++ ':' :: pw) ++ '@' :: rest) =
      (some (String.mk u1), some (String.mk pw)) := by
  unfold userinfoProp
  rw [splitAtLast_append_sep '@' (u1 ++ ':' :: pw) rest h]
  dsimp only
  rw [splitAtFirst_append_sep ':' u1 pw hc]

/-- hostPortSplit of a bracket-free, colon-free hostinfo. -/
theorem hostPortSplit_plain (hi : List Char) (h1 : '[' ∉ hi)
    (h2 : ':' ∉ hi) : hostPortSplit hi = (hi, none) := by
  unfold hostPortSplit
  rw [(splitAtFirst_eq_none_iff '[' hi).mpr h1]
  dsimp only
  rw [(splitAtFirst_eq_none_iff ':' hi).mpr h2]

/-- hostPortSplit of a bracket-free hostinfo with a port part. -/
theorem hostPortSplit_port (H P : List Char) (h1 : '[' ∉ H ++ ':' :: P)
    (h2 : ':' ∉ H) :
    hostPortSplit (H ++ ':' :: P) = (H, if P = [] then none else some P) := by
  unfold hostPortSplit
  rw [(splitAtFirst_eq_none_iff '[' _).mpr h1]
  dsimp only
  rw [splitAtFirst_append_sep ':' H P h2]

/-- hostnameProp of a netloc whose parsed host is non-empty and fixed under
lowercasing. -/
theorem hostnameProp_fixed (n H : List Char)
    (hhi : (hostPortSplit (hostinfoOf n)).1 = H)
    (hne : H ≠ [])
    (hfix : H.map pyLowerChar = H) :
    hostnameProp n = some (String.mk H) := by
  unfold hostnameProp
  rw [hhi, if_neg hne]
  refine congrArg some (congrArg String.mk ?_)
  cases hsp : splitAtFirst '%' H with
  | none =>
    dsimp only
    exact hfix
  | some pr =>
    obtain ⟨pre, zone⟩ := pr
    dsimp only
    obtain ⟨hdec, _⟩ := splitAtFirst_eq_some '%' H pre zone hsp
    have hpre : pre.map pyLowerChar = pre := by
      have hmem : ∀ a ∈ pre, pyLowerChar a = a := fun a ha =>
        map_fixed_mem _ _ hfix a (by rw [hdec]; exact List.mem_append.mpr (Or.inl ha))
      rw [List.map_congr_left hmem]
      simp
    rw [hpre, ← hdec]

/-- portProp through a known hostPortSplit port component. -/
theorem portProp_of_none (n : List Char)
    (h : (hostPortSplit (hostinfoOf n)).2 = none) :
    portProp n = Except.ok none := by
  unfold portProp
  rw [h]

/-- portProp of a digit-run port within range. -/
theorem portProp_of_digits (n : List Char) (P : List Char)
    (h : (hostPortSplit (hostinfoOf n)).2 = some P)
    (hd : P.all isAsciiDigitCh = true) (hv : digitsVal P ≤ 65535) :
    portProp n = Except.ok (some (digitsVal P)) := by
  unfold portProp
  rw [h]
  dsimp only
  rw [if_pos hd, if_pos hv]

/-- The kept userinfo part of a rebuilt netloc, with its trailing at sign. -/
def uoPart : Option (List Char × Option (List Char)) → List Char
  | none => []
  | some (u1, none) => u1 ++ ['@']
  | some (u1, some pw) => (u1 ++ ':' :: pw) ++ ['@']

/-- The kept port part of a rebuilt netloc, with its leading colon. -/
def ppPart : Option Nat → List Char
  | none => []
  | some p => ':' :: (natDecimal p).data

/-- A digit character is not an at sign, bracket or colon. -/
theorem digit_not_special (c : Char) (h : isAsciiDigitCh c = true) :
    c ≠ '@' ∧ c ≠ '[' ∧ c ≠ ':' := by
  rw [isAsciiDigitCh_iff] at h
  refine ⟨?_, ?_, ?_⟩ <;>
    (intro he; rw [charEq_iff_toNat] at he; revert he)
  · rw [show Char.toNat '@' = 64 from rfl]; omega
  · rw [show Char.toNat '[' = 91 from rfl]; omega
  · rw [show Char.toNat ':' = 58 from rfl]; omega

/-- On a rebuilt netloc, the port property returns the embedded port and
the netloc rebuild is the identity. -/
theorem netloc_selfmap
    (uo : Option (List Char × Option (List Char))) (H : List Char)
    (pp : Option Nat)
    (hH0 : H ≠ []) (hHfix : H.map pyLowerChar = H)
    (hHa : '@' ∉ H) (hHc : ':' ∉ H) (hHb : '[' ∉ H)
    (hu : ∀ u1 pwo, uo = some (u1, pwo) → u1 ≠ [] ∧ ':' ∉ u1 ∧
      ∀ pw, pwo = some pw → pw ≠ [])
    (hp : ∀ p, pp = some p → p ≠ 0 ∧ p ≤ 65535) :
    portProp (uoPart uo ++ H ++ ppPart pp) = Except.ok pp ∧
    netlocOf (uoPart uo ++ H ++ ppPart pp) pp =
      String.mk (uoPart uo ++ H ++ ppPart pp) := by
  have hppmem : ∀ c ∈ ppPart pp, c = ':' ∨ isAsciiDigitCh c = true := by
    intro c hc
    cases pp with
    | none => simp [ppPart] at hc
    | some p =>
      simp only [ppPart, List.mem_cons] at hc
      rcases hc with h | h
      · exact Or.inl h
      · exact Or.inr ((natDecimal_spec p).1 c h)
  have hat2 : '@' ∉ H ++ ppPart pp := by
    intro hm
    rcases List.mem_append.mp hm with h | h
    · exact hHa h
    · rcases hppmem '@' h with h2 | h2
      · exact absurd h2 (by decide)
      · exact (digit_not_special '@' h2).1 rfl
  have hbr2 : '[' ∉ H ++ ppPart pp := by
    intro hm
    rcases List.mem_append.mp hm with h | h
    · exact hHb h
    · rcases hppmem '[' h with h2 | h2
      · exact absurd h2 (by decide)
      · exact (digit_not_special '[' h2).2.1 rfl
  have hhi : hostinfoOf (uoPart uo ++ H ++ ppPart pp) = H ++ ppPart pp := by
    cases uo with
    | none =>
      show hostinfoOf ([] ++ H ++ ppPart pp) = H ++ ppPart pp
      rw [List.nil_append]
      exact hostinfoOf_no_at _ hat2
    | some pr =>
      obtain ⟨u1, pwo⟩ := pr
      cases pwo with
      | none =>
        show hostinfoOf ((u1 ++ ['@']) ++ H ++ ppPart pp) = _
        rw [show (u1 ++ ['@']) ++ H ++ ppPart pp =
          u1 ++ '@' :: (H ++ ppPart pp) from by simp]
        exact hostinfoOf_with_user u1 _ hat2
      | some pw =>
        show hostinfoOf (((u1 ++ ':' :: pw) ++ ['@']) ++ H ++ ppPart pp) = _
        rw [show ((u1 ++ ':' :: pw) ++ ['@']) ++ H ++ ppPart pp =
          (u1 ++ ':' :: pw) ++ '@' :: (H ++ ppPart pp) from by simp]
        exact hostinfoOf_with_user _ _ hat2
  have hsp : hostPortSplit (H ++ ppPart pp) =
      (H, match pp with
          | none => none
          | some p => some (natDecimal p).data) := by
    cases pp with
    | none =>
      show hostPortSplit (H ++ []) = _
      rw [List.append_nil]
      exact hostPortSplit_plain H hHb hHc
    | some p =>
      show hostPortSplit (H ++ ':' :: (natDecimal p).data) = _
      rw [hostPortSplit_port H _ hbr2 hHc,
        if_neg (natDecimal_spec p).2.2]
  have hsp1 : (hostPortSplit (hostinfoOf (uoPart uo ++ H ++ ppPart pp))).1 = H := by
    rw [hhi, hsp]
  have hhost : hostLower (uoPart uo ++ H ++ ppPart pp) = String.mk H := by
    unfold hostLower
    rw [hostnameProp_fixed _ H hsp1 hH0 hHfix]
    dsimp only
    rw [pyLower_mk, hHfix]
  have hportProp : portProp (uoPart uo ++ H ++ ppPart pp) = Except.ok pp := by
    cases pp with
    | none =>
      apply portProp_of_none
      rw [hhi, hsp]
    | some p =>
      have hres := portProp_of_digits (uoPart uo ++ H ++ ppPart (some p))
        (natDecimal p).data (by rw [hhi, hsp])
        (List.all_eq_true.mpr (fun c hc => (natDecimal_spec p).1 c hc))
        (by rw [(natDecimal_spec p).2.1]; exact (hp p rfl).2)
      rw [hres, (natDecimal_spec p).2.1]
  have huser : userinfoProp (uoPart uo ++ H ++ ppPart pp) =
      (match uo with
       | none => (none, none)
       | some (u1, none) => (some (String.mk u1), none)
       | some (u1, some pw) => (some (String.mk u1), some (String.mk pw))) := by
    cases uo with
    | none =>
      show userinfoProp ([] ++ H ++ ppPart pp) = _
      rw [List.nil_append]
      exact userinfoProp_no_at _ hat2
    | some pr =>
      obtain ⟨u1, pwo⟩ := pr
      obtain ⟨hu1, hu2, hu3⟩ := hu u1 pwo rfl
      cases pwo with
      | none =>
        show userinfoProp ((u1 ++ ['@']) ++ H ++ ppPart pp) = _
        rw [show (u1 ++ ['@']) ++ H ++ ppPart pp =
          u1 ++ '@' :: (H ++ ppPart pp) from by simp]
        exact userinfoProp_user_only u1 _ hat2 hu2
      | some pw =>
        show userinfoProp (((u1 ++ ':' :: pw) ++ ['@']) ++ H ++ ppPart pp) = _
        rw [show ((u1 ++ ':' :: pw) ++ ['@']) ++ H ++ ppPart pp =
          (u1 ++ ':' :: pw) ++ '@' :: (H ++ ppPart pp) from by simp]
        exact userinfoProp_user_pass u1 pw _ hat2 hu2
  have hnet1 : netloc1Of (uoPart uo ++ H ++ ppPart pp) =
      String.mk (uoPart uo ++ H) := by
    unfold netloc1Of
    rw [huser]
    cases uo with
    | none =>
      dsimp only
      rw [hhost]
      exact congrArg String.mk (by simp [uoPart])
    | some pr =>
      obtain ⟨u1, pwo⟩ := pr
      obtain ⟨hu1, hu2, hu3⟩ := hu u1 pwo rfl
      cases pwo with
      | none =>
        dsimp only
        rw [if_pos (stringMk_ne_empty u1 hu1), hhost]
        rw [show ("@" : String) = String.mk ['@'] from rfl,
          stringMk_append, stringMk_append]
        exact congrArg String.mk (by simp [uoPart])
      | some pw =>
        dsimp only
        rw [if_pos (stringMk_ne_empty u1 hu1),
          if_pos (stringMk_ne_empty pw (hu3 pw rfl)), hhost]
        rw [show ("@" : String) = String.mk ['@'] from rfl,
          show (":" : String) = String.mk [':'] from rfl,
          stringMk_append, stringMk_append, stringMk_append, stringMk_append]
        exact congrArg String.mk (by simp [uoPart])
  refine ⟨hportProp, ?_⟩
  unfold netlocOf
  cases pp with
  | none =>
    dsimp only
    rw [hnet1]
    exact congrArg String.mk (by simp [ppPart])
  | some p =>
    dsimp only
    rw [if_pos (hp p rfl).1, hnet1]
    rw [show natDecimal p = String.mk (natDecimal p).data from rfl,
      show (":" : String) = String.mk [':'] from rfl,
      stringMk_append, stringMk_append]
    exact congrArg String.mk (by simp [ppPart])

/-- When the parsed host is non-empty, hostnameProp yields a string whose
characters are host characters or lower-images of host characters. -/
theorem hostnameProp_some_facts (n H0 : List Char)
    (hhi : (hostPortSplit (hostinfoOf n)).1 = H0) (hne : H0 ≠ []) :
    ∃ T, hostnameProp n = some (String.mk T) ∧ T ≠ [] ∧
      ∀ c ∈ T, c ∈ H0 ∨ ∃ d ∈ H0, pyLowerChar d = c := by
  unfold hostnameProp
  rw [hhi, if_neg hne]
  refine ⟨_, rfl, ?_, ?_⟩
  · cases hsp : splitAtFirst '%' H0 with
    | none =>
      dsimp only
      simp only [ne_eq, List.map_eq_nil_iff]
      exact hne
    | some pr =>
      obtain ⟨pre, zone⟩ := pr
      dsimp only
      simp
  · cases hsp : splitAtFirst '%' H0 with
    | none =>
      dsimp only
      intro c hc
      obtain ⟨d, hd, hdc⟩ := List.mem_map.mp hc
      exact Or.inr ⟨d, hd, hdc⟩
    | some pr =>
      obtain ⟨pre, zone⟩ := pr
      obtain ⟨hdec, _⟩ := splitAtFirst_eq_some '%' H0 pre zone hsp
      dsimp only
      intro c hc
      rcases List.mem_append.mp hc with h1 | h1
      · obtain ⟨d, hd, hdc⟩ := List.mem_map.mp h1
        exact Or.inr ⟨d, by rw [hdec]; exact List.mem_append.mpr (Or.inl hd), hdc⟩
      · rcases List.mem_cons.mp h1 with h2 | h2
        · subst h2
          exact Or.inl (by rw [hdec]; simp)
        · exact Or.inl (by rw [hdec]; simp [h2])

/-- netloc1Of keeps a structured userinfo part in front of the lowered
hostname. -/
theorem netloc1_pass1 (nl : List Char) :
    ∃ uo, netloc1Of nl = String.mk (uoPart uo ++ (hostLower nl).data) ∧
      ∀ u1 pwo, uo = some (u1, pwo) → u1 ≠ [] ∧ ':' ∉ u1 ∧
        (∀ c ∈ u1, c ∈ nl) ∧
        ∀ pw, pwo = some pw → pw ≠ [] ∧ ∀ c ∈ pw, c ∈ nl := by
  unfold netloc1Of userinfoProp
  cases hsl : splitAtLast '@' nl with
  | none =>
    dsimp only
    refine ⟨none, ?_, by intro u1 pwo h; cases h⟩
    apply String.ext
    rw [show uoPart none = [] from rfl, List.nil_append]
  | some pr =>
    obtain ⟨ui, hi⟩ := pr
    obtain ⟨hdec, _⟩ := splitAtLast_eq_some '@' nl ui hi hsl
    have huisub : ∀ c ∈ ui, c ∈ nl := by
      intro c hc
      rw [hdec]
      exact List.mem_append.mpr (Or.inl hc)
    dsimp only
    cases hsc : splitAtFirst ':' ui with
    | none =>
      dsimp only
      by_cases hui : ui = []
      · rw [if_neg (fun hne2 => hne2 (by rw [hui]))]
        refine ⟨none, ?_, by intro u1 pwo h; cases h⟩
        apply String.ext
        rw [show uoPart none = [] from rfl, List.nil_append]
      · rw [if_pos (stringMk_ne_empty ui hui)]
        refine ⟨some (ui, none), ?_, ?_⟩
        · apply String.ext
          rw [show uoPart (some (ui, none)) = ui ++ ['@'] from rfl]
          rw [String.data_append, String.data_append,
            show ("@" : String).data = ['@'] from rfl]
        · intro u1 pwo h
          injection h with h
          injection h with h1 h2
          subst h1
          exact ⟨hui, (splitAtFirst_eq_none_iff ':' ui).mp hsc, huisub,
            fun pw hpw => by rw [← h2] at hpw; cases hpw⟩
    | some pr2 =>
      obtain ⟨u1, pw⟩ := pr2
      obtain ⟨hdec2, hu1c⟩ := splitAtFirst_eq_some ':' ui u1 pw hsc
      dsimp only
      by_cases hu1 : u1 = []
      · rw [if_neg (fun hne2 => hne2 (by rw [hu1]))]
        refine ⟨none, ?_, by intro u2 pwo h; cases h⟩
        apply String.ext
        rw [show uoPart none = [] from rfl, List.nil_append]
      · rw [if_pos (stringMk_ne_empty u1 hu1)]
        by_cases hpw : pw = []
        · rw [if_neg (fun hne2 => hne2 (by rw [hpw]))]
          refine ⟨some (u1, none), ?_, ?_⟩
          · apply String.ext
            rw [show uoPart (some (u1, none)) = u1 ++ ['@'] from rfl]
            rw [String.data_append, String.data_append,
              show ("@" : String).data = ['@'] from rfl]
          · intro u2 pwo h
            injection h with h
            injection h with h1 h2
            subst h1
            refine ⟨hu1, hu1c, ?_, fun pw2 hpw2 => by rw [← h2] at hpw2; cases hpw2⟩
            intro c hc
            exact huisub c (by rw [hdec2]; exact List.mem_append.mpr (Or.inl hc))
        · rw [if_pos (stringMk_ne_empty pw hpw)]
          refine ⟨some (u1, some pw), ?_, ?_⟩
          · apply String.ext
            rw [show uoPart (some (u1, some pw)) = (u1 ++ ':' :: pw) ++ ['@']
              from rfl]
            rw [String.data_append, String.data_append, String.data_append,
              String.data_append,
              show ("@" : String).data = ['@'] from rfl,
              show (":" : String).data = [':'] from rfl]
            simp
          · intro u2 pwo h
            injection h with h
            injection h with h1 h2
            subst h1
            refine ⟨hu1, hu1c, ?_, ?_⟩
            · intro c hc
              exact huisub c (by rw [hdec2]; exact List.mem_append.mpr (Or.inl hc))
            · intro pw2 hpw2
              rw [← h2] at hpw2
              injection hpw2 with hpw2
              subst hpw2
              refine ⟨hpw, ?_⟩
              intro c hc
              exact huisub c (by rw [hdec2]; simp [hc])

/-- Characters of a port part are the colon or digits. -/
theorem ppPart_mem (pp : Option Nat) :
    ∀ c ∈ ppPart pp, c = ':' ∨ isAsciiDigitCh c = true := by
  intro c hc
  cases pp with
  | none => simp [ppPart] at hc
  | some p =>
    simp only [ppPart, List.mem_cons] at hc
    rcases hc with h | h
    · exact Or.inl h
    · exact Or.inr ((natDecimal_spec p).1 c h)

/-- Colons, at signs and digits are not delimiters, stripped controls or
brackets. -/
theorem colon_digit_class (c : Char)
    (h : c = ':' ∨ c = '@' ∨ isAsciiDigitCh c = true) :
    ¬ netlocDelim c = true ∧ ¬ isTabCrLf c = true ∧ c ≠ '[' ∧ c ≠ ']' := by
  rcases h with h | h | h
  · subst h; exact ⟨by decide, by decide, by decide, by decide⟩
  · subst h; exact ⟨by decide, by decide, by decide, by decide⟩
  · rw [isAsciiDigitCh_iff] at h
    refine ⟨?_, ?_, ?_, ?_⟩
    · rw [netlocDelim_iff]; omega
    · rw [isTabCrLf_iff]; omega
    · intro he; rw [charEq_iff_toNat, show Char.toNat '[' = 91 from rfl] at he
      omega
    · intro he; rw [charEq_iff_toNat, show Char.toNat ']' = 93 from rfl] at he
      omega

/-- The canonical netloc rebuilt from a bracket-free netloc with a host is a
non-empty, delimiter-free, bracket-free string on which the rebuild is the
identity with the same port. -/
theorem netloc_pass1 (nl : List Char) (port : Option Nat)
    (hnl : ∀ c ∈ nl, ¬ netlocDelim c = true ∧ ¬ isTabCrLf c = true)
    (hbr1 : '[' ∉ nl) (hbr2 : ']' ∉ nl)
    (hhost : hostnameProp nl ≠ none)
    (hport : portProp nl = Except.ok port) :
    ∃ N po,
      netlocOf nl port = String.mk N ∧
      N ≠ [] ∧
      (∀ c ∈ N, ¬ netlocDelim c = true ∧ ¬ isTabCrLf c = true) ∧
      '[' ∉ N ∧ ']' ∉ N ∧
      portProp N = Except.ok po ∧
      netlocOf N po = String.mk N := by
  obtain ⟨hi, hhi1, hhiAt, hhiSub⟩ :
      ∃ hi, hostinfoOf nl = hi ∧ '@' ∉ hi ∧ ∀ c ∈ hi, c ∈ nl := by
    cases hsl : splitAtLast '@' nl with
    | none =>
      exact ⟨nl, by unfold hostinfoOf; rw [hsl],
        (splitAtLast_eq_none_iff '@' nl).mp hsl, fun c hc => hc⟩
    | some pr =>
      obtain ⟨ui, hi⟩ := pr
      obtain ⟨hdec, hat⟩ := splitAtLast_eq_some '@' nl ui hi hsl
      exact ⟨hi, by unfold hostinfoOf; rw [hsl], hat,
        fun c hc => by rw [hdec]; simp [hc]⟩
  have hhibr : '[' ∉ hi := fun hm => hbr1 (hhiSub '[' hm)
  obtain ⟨H0, hH0eq, hH0c, hH0sub, hple⟩ :
      ∃ H0, (hostPortSplit hi).1 = H0 ∧ ':' ∉ H0 ∧ (∀ c ∈ H0, c ∈ hi) ∧
        ∀ pv, port = some pv → pv ≤ 65535 := by
    cases hsc : splitAtFirst ':' hi with
    | none =>
      have hsp : hostPortSplit hi = (hi, none) :=
        hostPortSplit_plain hi hhibr ((splitAtFirst_eq_none_iff ':' hi).mp hsc)
      refine ⟨hi, by rw [hsp], (splitAtFirst_eq_none_iff ':' hi).mp hsc,
        fun c hc => hc, ?_⟩
      intro pv hpv
      unfold portProp at hport
      rw [hhi1, hsp] at hport
      dsimp only at hport
      rw [hpv] at hport
      simp at hport
    | some pr3 =>
      obtain ⟨hh, prt⟩ := pr3
      obtain ⟨hdec3, hhc⟩ := splitAtFirst_eq_some ':' hi hh prt hsc
      have hsp : hostPortSplit hi = (hh, if prt = [] then none else some prt) := by
        rw [hdec3]
        exact hostPortSplit_port hh prt (by rw [← hdec3]; exact hhibr) hhc
      have hhsub : ∀ c ∈ hh, c ∈ hi := by
        intro c hc
        rw [hdec3]
        exact List.mem_append.mpr (Or.inl hc)
      refine ⟨hh, by rw [hsp], hhc, hhsub, ?_⟩
      intro pv hpv
      unfold portProp at hport
      rw [hhi1, hsp] at hport
      by_cases hprt : prt = []
      · rw [if_pos hprt] at hport
        dsimp only at hport
        rw [hpv] at hport
        simp at hport
      · rw [if_neg hprt] at hport
        dsimp only at hport
        by_cases hd : prt.all isAsciiDigitCh = true
        · rw [if_pos hd] at hport
          by_cases hv : digitsVal prt ≤ 65535
          · rw [if_pos hv] at hport
            simp only [Except.ok.injEq] at hport
            rw [hpv] at hport
            injection hport with hport
            rw [← hport]
            exact hv
          · rw [if_neg hv] at hport
            simp at hport
        · rw [if_neg hd] at hport
          simp at hport
  have hH0ne : H0 ≠ [] := by
    intro he
    apply hhost
    unfold hostnameProp
    rw [hhi1, hH0eq, if_pos he]
  obtain ⟨T, hTeq, hTne, hTmem⟩ :=
    hostnameProp_some_facts nl H0 (by rw [hhi1, hH0eq]) hH0ne
  have hHdata : (hostLower nl).data = T.map pyLowerChar := by
    unfold hostLower
    rw [hTeq]
    rfl
  have hHMem : ∀ c ∈ T.map pyLowerChar, ∃ d ∈ H0, pyLowerChar d = c := by
    intro c hc
    obtain ⟨t, ht, htc⟩ := List.mem_map.mp hc
    rcases hTmem t ht with h | ⟨d, hd, hdt⟩
    · exact ⟨t, h, htc⟩
    · exact ⟨d, hd, by rw [← htc, ← hdt, pyLowerChar_idem]⟩
  have hH0nl : ∀ c ∈ H0, c ∈ nl := fun c hc => hhiSub c (hH0sub c hc)
  have hHtrans : ∀ x : Char, (x.toNat < 97 ∨ 122 < x.toNat) →
      x ∈ T.map pyLowerChar → x ∈ H0 := by
    intro x hx hm
    obtain ⟨d, hd, hdx⟩ := hHMem x hm
    have he := pyLowerChar_fix_of_ne d x hx hdx
    subst he
    exact hd
  have hHne : T.map pyLowerChar ≠ [] := by
    simp only [ne_eq, List.map_eq_nil_iff]
    exact hTne
  have hHchar : ∀ c ∈ T.map pyLowerChar,
      ¬ netlocDelim c = true ∧ ¬ isTabCrLf c = true := by
    intro c hc
    obtain ⟨d, hd, hdc⟩ := hHMem c hc
    constructor
    · intro hdm
      have hlt : c.toNat < 97 := by rw [netlocDelim_iff] at hdm; omega
      have he := pyLowerChar_fix_of_ne d c (Or.inl hlt) hdc
      rw [he] at hd
      exact (hnl c (hH0nl c hd)).1 hdm
    · intro hdm
      have hlt : c.toNat < 97 := by rw [isTabCrLf_iff] at hdm; omega
      have he := pyLowerChar_fix_of_ne d c (Or.inl hlt) hdc
      rw [he] at hd
      exact (hnl c (hH0nl c hd)).2 hdm
  have hHa : '@' ∉ T.map pyLowerChar := fun hm =>
    hhiAt (hH0sub '@' (hHtrans '@' (Or.inl (by decide)) hm))
  have hHc : ':' ∉ T.map pyLowerChar := fun hm =>
    hH0c (hHtrans ':' (Or.inl (by decide)) hm)
  have hHb : '[' ∉ T.map pyLowerChar := fun hm =>
    hbr1 (hH0nl '[' (hHtrans '[' (Or.inl (by decide)) hm))
  have hHb2 : ']' ∉ T.map pyLowerChar := fun hm =>
    hbr2 (hH0nl ']' (hHtrans ']' (Or.inl (by decide)) hm))
  have hHfix : (T.map pyLowerChar).map pyLowerChar = T.map pyLowerChar :=
    mapLower_idem T
  obtain ⟨uo, hn1, huo⟩ := netloc1_pass1 nl
  rw [hHdata] at hn1
  have huoChar : ∀ c ∈ uoPart uo,
      (¬ netlocDelim c = true ∧ ¬ isTabCrLf c = true) ∧ c ≠ '[' ∧ c ≠ ']' := by
    intro c hc
    cases uo with
    | none => simp [uoPart] at hc
    | some pr =>
      obtain ⟨u1, pwo⟩ := pr
      obtain ⟨hu1, hu2, hu3, hu4⟩ := huo u1 pwo rfl
      cases pwo with
      | none =>
        rw [show uoPart (some (u1, none)) = u1 ++ ['@'] from rfl] at hc
        rcases List.mem_append.mp hc with h | h
        · exact ⟨hnl c (hu3 c h),
            fun he => hbr1 (he ▸ hu3 c h), fun he => hbr2 (he ▸ hu3 c h)⟩
        · have h2 := List.mem_singleton.mp h
          obtain ⟨d1, d2, d3, d4⟩ :=
            colon_digit_class c (Or.inr (Or.inl h2))
          exact ⟨⟨d1, d2⟩, d3, d4⟩
      | some pw =>
        obtain ⟨hpw1, hpw2⟩ := hu4 pw rfl
        rw [show uoPart (some (u1, some pw)) = (u1 ++ ':' :: pw) ++ ['@']
          from rfl] at hc
        rcases List.mem_append.mp hc with h | h
        · rcases List.mem_append.mp h with h2 | h2
          · exact ⟨hnl c (hu3 c h2),
              fun he => hbr1 (he ▸ hu3 c h2), fun he => hbr2 (he ▸ hu3 c h2)⟩
          · rcases List.mem_cons.mp h2 with h3 | h3
            · obtain ⟨d1, d2, d3, d4⟩ := colon_digit_class c (Or.inl h3)
              exact ⟨⟨d1, d2⟩, d3, d4⟩
            · exact ⟨hnl c (hpw2 c h3),
                fun he => hbr1 (he ▸ hpw2 c h3),
                fun he => hbr2 (he ▸ hpw2 c h3)⟩
        · have h2 := List.mem_singleton.mp h
          obtain ⟨d1, d2, d3, d4⟩ :=
            colon_digit_class c (Or.inr (Or.inl h2))
          exact ⟨⟨d1, d2⟩, d3, d4⟩
  have hselfHyp : ∀ u1 pwo, uo = some (u1, pwo) → u1 ≠ [] ∧ ':' ∉ u1 ∧
      ∀ pw, pwo = some pw → pw ≠ [] := by
    intro u1 pwo h
    obtain ⟨hu1, hu2, _, hu4⟩ := huo u1 pwo h
    exact ⟨hu1, hu2, fun pw hpw => (hu4 pw hpw).1⟩
  have hNfacts : ∀ (pp : Option Nat),
      ((uoPart uo ++ T.map pyLowerChar ++ ppPart pp) ≠ [] ∧
        (∀ c ∈ uoPart uo ++ T.map pyLowerChar ++ ppPart pp,
          ¬ netlocDelim c = true ∧ ¬ isTabCrLf c = true) ∧
        '[' ∉ uoPart uo ++ T.map pyLowerChar ++ ppPart pp ∧
        ']' ∉ uoPart uo ++ T.map pyLowerChar ++ ppPart pp) := by
    intro pp
    refine ⟨?_, ?_, ?_, ?_⟩
    · intro he
      rw [List.append_eq_nil] at he
      rw [List.append_eq_nil] at he
      exact hHne he.1.2
    · intro c hc
      rcases List.mem_append.mp hc with h | h
      · rcases List.mem_append.mp h with h2 | h2
        · exact (huoChar c h2).1
        · exact hHchar c h2
      · rcases ppPart_mem pp c h with h2 | h2
        · subst h2
          obtain ⟨d1, d2, _, _⟩ := colon_digit_class ':' (Or.inl rfl)
          exact ⟨d1, d2⟩
        · obtain ⟨d1, d2, _, _⟩ := colon_digit_class c (Or.inr (Or.inr h2))
          exact ⟨d1, d2⟩
    · intro hm
      rcases List.mem_append.mp hm with h | h
      · rcases List.mem_append.mp h with h2 | h2
        · exact (huoChar '[' h2).2.1 rfl
        · exact hHb h2
      · rcases ppPart_mem pp '[' h with h2 | h2
        · exact absurd h2 (by decide)
        · exact (colon_digit_class '[' (Or.inr (Or.inr h2))).2.2.1 rfl
    · intro hm
      rcases List.mem_append.mp hm with h | h
      · rcases List.mem_append.mp h with h2 | h2
        · exact (huoChar ']' h2).2.2 rfl
        · exact hHb2 h2
      · rcases ppPart_mem pp ']' h with h2 | h2
        · exact absurd h2 (by decide)
        · exact (colon_digit_class ']' (Or.inr (Or.inr h2))).2.2.2 rfl
  cases port with
  | none =>
    obtain ⟨hc1, hc2⟩ := netloc_selfmap uo (T.map pyLowerChar) none hHne hHfix
      hHa hHc hHb hselfHyp (by intro p hp; cases hp)
    obtain ⟨hn1f, hn2f, hn3f, hn4f⟩ := hNfacts none
    refine ⟨uoPart uo ++ T.map pyLowerChar ++ ppPart none, none, ?_, hn1f,
      hn2f, hn3f, hn4f, hc1, hc2⟩
    show netloc1Of nl = _
    rw [hn1]
    exact congrArg String.mk (by simp [ppPart])
  | some pv =>
    by_cases hz : pv = 0
    · obtain ⟨hc1, hc2⟩ := netloc_selfmap uo (T.map pyLowerChar) none hHne hHfix
        hHa hHc hHb hselfHyp (by intro p hp; cases hp)
      obtain ⟨hn1f, hn2f, hn3f, hn4f⟩ := hNfacts none
      refine ⟨uoPart uo ++ T.map pyLowerChar ++ ppPart none, none, ?_, hn1f,
        hn2f, hn3f, hn4f, hc1, hc2⟩
      show (if pv ≠ 0 then netloc1Of nl ++ ":" ++ natDecimal pv
        else netloc1Of nl) = _
      rw [if_neg (fun hne2 => hne2 hz), hn1]
      exact congrArg String.mk (by simp [ppPart])
    · obtain ⟨hc1, hc2⟩ := netloc_selfmap uo (T.map pyLowerChar) (some pv) hHne
        hHfix hHa hHc hHb hselfHyp
        (by intro p hp; injection hp with hp; subst hp; exact ⟨hz, hple pv rfl⟩)
      obtain ⟨hn1f, hn2f, hn3f, hn4f⟩ := hNfacts (some pv)
      refine ⟨uoPart uo ++ T.map pyLowerChar ++ ppPart (some pv), some pv, ?_,
        hn1f, hn2f, hn3f, hn4f, hc1, hc2⟩
      show (if pv ≠ 0 then netloc1Of nl ++ ":" ++ natDecimal pv
        else netloc1Of nl) = _
      rw [if_pos hz, hn1]
      rw [show natDecimal pv = String.mk (natDecimal pv).data from rfl,
        show (":" : String) = String.mk [':'] from rfl,
        stringMk_append, stringMk_append]
      exact congrArg String.mk (by simp [ppPart])

/-- Character class of urlencodePairs output: quote_plus output characters
plus the equals and ampersand separators. -/
theorem urlencodePairs_chars (ps : List (String × String)) :
    ∀ x ∈ (urlencodePairs ps).data,
      (alwaysSafeCh x ∨ x = '%' ∨ x = '+') ∨ x = '=' ∨ x = '&' := by
  induction ps with
  | nil =>
    intro x hx
    rw [show (urlencodePairs []).data = ([] : List Char) from rfl] at hx
    cases hx
  | cons kv rest ih =>
    cases rest with
    | nil =>
      intro x hx
      show _
      rw [show (urlencodePairs [kv]).data =
        (quote_plus kv.1).data ++ '=' :: (quote_plus kv.2).data from
          field_data kv.1 kv.2] at hx
      rcases List.mem_append.mp hx with h | h
      · exact Or.inl (quote_plus_chars kv.1 x h)
      · rcases List.mem_cons.mp h with h2 | h2
        · exact Or.inr (Or.inl h2)
        · exact Or.inl (quote_plus_chars kv.2 x h2)
    | cons kv2 rest2 =>
      intro x hx
      have hdata : (urlencodePairs (kv :: kv2 :: rest2)).data =
          ((quote_plus kv.1).data ++ '=' :: (quote_plus kv.2).data) ++
            '&' :: (urlencodePairs (kv2 :: rest2)).data := by
        show (quote_plus kv.1 ++ "=" ++ quote_plus kv.2 ++ "&" ++
          urlencodePairs (kv2 :: rest2)).data = _
        simp [String.data_append]
      rw [hdata] at hx
      rcases List.mem_append.mp hx with h | h
      · rcases List.mem_append.mp h with h2 | h2
        · exact Or.inl (quote_plus_chars kv.1 x h2)
        · rcases List.mem_cons.mp h2 with h3 | h3
          · exact Or.inr (Or.inl h3)
          · exact Or.inl (quote_plus_chars kv.2 x h3)
      · rcases List.mem_cons.mp h with h2 | h2
        · exact Or.inr (Or.inr h2)
        · exact ih x h2

/-- The canonical query is hash-free and control-free. -/
theorem queryOf_facts (qs : String) :
    '#' ∉ (queryOf qs).data ∧
      ∀ c ∈ (queryOf qs).data, ¬ isTabCrLf c = true := by
  constructor
  · intro hm
    rcases urlencodePairs_chars _ '#' hm with (h | h | h) | h | h
    · exact absurd h (by decide)
    · exact absurd h (by decide)
    · exact absurd h (by decide)
    · exact absurd h (by decide)
    · exact absurd h (by decide)
  · intro c hc
    rcases urlencodePairs_chars _ c hc with (h | h | h) | h | h
    · have := alwaysSafe_toNat c h
      rw [isTabCrLf_iff]
      omega
    · subst h; decide
    · subst h; decide
    · subst h; decide
    · subst h; decide

/-- The canonical query is a fixed point of the query canonicalization. -/
theorem queryOf_idem (qs : String) : queryOf (queryOf qs) = queryOf qs := by
  unfold queryOf
  rw [parse_qsl_urlencode]
  have hfe : ((List.insertionSort pairLe
      ((parse_qsl qs).filter (fun kv => ¬ isTrackingKey kv.1))).filter
      (fun kv => ¬ isTrackingKey kv.1)) =
      List.insertionSort pairLe
        ((parse_qsl qs).filter (fun kv => ¬ isTrackingKey kv.1)) := by
    apply List.filter_eq_self.mpr
    intro kv hkv
    exact (List.mem_filter.mp (mem_insertionSort_pairLe _ kv hkv)).2
  rw [hfe, insertionSort_pairLe_idem]

/-- pyLower is idempotent on strings. -/
theorem pyLower_idem (s : String) : pyLower (pyLower s) = pyLower s :=
  congrArg String.mk (mapLower_idem s.data)

/-- The character list produced by urlunsplitM on a non-empty netloc, a
non-empty scheme and a slash-led path. -/
theorem urlunsplitM_data (S N P Q : String)
    (hN : N ≠ "") (hS : S ≠ "") (hP : P.data.head? = some '/') :
    (urlunsplitM S N P Q).data = S.data ++ ':' :: '/' :: '/' ::
      (N.data ++ P.data ++ (if Q.data = [] then [] else '?' :: Q.data)) := by
  unfold urlunsplitM
  by_cases hQ : Q = ""
  · rw [if_neg (fun hne : Q ≠ "" => hne hQ)]
    rw [if_pos hS]
    rw [if_pos (Or.inl hN)]
    rw [if_neg (fun hand : P ≠ "" ∧ P.data.take 1 ≠ ['/'] =>
      hand.2 (take_one_head P.data '/' hP))]
    rw [if_pos (show Q.data = [] by rw [hQ])]
    simp only [String.data_append,
      show ("//" : String).data = ['/', '/'] from rfl,
      show (":" : String).data = [':'] from rfl]
    simp
  · rw [if_pos (show Q ≠ "" from hQ)]
    rw [if_pos hS]
    rw [if_pos (Or.inl hN)]
    rw [if_neg (fun hand : P ≠ "" ∧ P.data.take 1 ≠ ['/'] =>
      hand.2 (take_one_head P.data '/' hP))]
    rw [if_neg (show ¬ Q.data = [] from fun he => hQ (String.ext he))]
    simp only [String.data_append,
      show ("//" : String).data = ['/', '/'] from rfl,
      show (":" : String).data = [':'] from rfl,
      show ("?" : String).data = ['?'] from rfl]
    simp

/-- C8 (corrected): canonicalize_url is not idempotent on all inputs on
which it succeeds, but it is on every URL whose parse has a scheme and a
bracket-free netloc containing a host, provided the canonical form carries
no surrounding whitespace: re-canonicalizing that canonical form returns
it unchanged. -/
theorem canonicalize_url_idempotent (u w : String) (parts : SplitParts)
    (hsplit : pyUrlsplit (pyStrip u) = Except.ok parts)
    (hscheme : parts.scheme ≠ "")
    (hbr : ¬ parts.netloc.data.contains '[' = true ∧
      ¬ parts.netloc.data.contains ']' = true)
    (hhost : hostnameProp parts.netloc.data ≠ none)
    (hok : canonicalize_url u = Except.ok w)
    (hstrip : pyStrip w = w) :
    canonicalize_url w = Except.ok w := by
  unfold canonicalize_url at hok
  dsimp only at hok
  by_cases hraw : pyStrip u = ""
  · rw [if_pos hraw] at hok
    simp at hok
  · rw [if_neg hraw, hsplit] at hok
    dsimp only at hok
    cases hportEq : portProp parts.netloc.data with
    | error e =>
      rw [hportEq] at hok
      simp at hok
    | ok port =>
      rw [hportEq] at hok
      dsimp only at hok
      simp only [Except.ok.injEq] at hok
      obtain ⟨hSfacts, hnlfacts, hpathHead, hpaQ, hpaH, hpaT⟩ :=
        pyUrlsplit_ok_facts _ parts hsplit
      have hSne : parts.scheme.data ≠ [] := by
        intro he
        apply hscheme
        apply String.ext
        rw [he]
      obtain ⟨hSalpha, hSall, hSfix⟩ := hSfacts hSne
      have hSid : pyLower parts.scheme = parts.scheme := by
        apply String.ext
        show parts.scheme.data.map pyLowerChar = parts.scheme.data
        exact hSfix
      have hbm1 : '[' ∉ parts.netloc.data :=
        fun hm => hbr.1 ((containsChar_iff _ _).mpr hm)
      have hbm2 : ']' ∉ parts.netloc.data :=
        fun hm => hbr.2 ((containsChar_iff _ _).mpr hm)
      obtain ⟨N, po, hNof, hNne, hNchar, hNbr1, hNbr2, hNport, hNfix⟩ :=
        netloc_pass1 parts.netloc.data port hnlfacts hbm1 hbm2 hhost hportEq
      have hnlne : parts.netloc.data ≠ [] := by
        intro he
        apply hhost
        rw [he]
        rfl
      have hPhead : (pathNorm parts.path).data.head? = some '/' :=
        pathNorm_head parts.path (hpathHead hnlne)
      have hPq : '?' ∉ (pathNorm parts.path).data := by
        intro hm
        rcases pathNorm_subset parts.path '?' hm with h | h
        · exact hpaQ h
        · exact absurd h (by decide)
      have hPh : '#' ∉ (pathNorm parts.path).data := by
        intro hm
        rcases pathNorm_subset parts.path '#' hm with h | h
        · exact hpaH h
        · exact absurd h (by decide)
      have hPt : ∀ c ∈ (pathNorm parts.path).data, ¬ isTabCrLf c = true := by
        intro c hc
        rcases pathNorm_subset parts.path c hc with h | h
        · exact hpaT c h
        · subst h; decide
      obtain ⟨hQh, hQt⟩ := queryOf_facts parts.query
      rw [hSid, hNof] at hok
      have hwdata : w.data = parts.scheme.data ++ ':' :: '/' :: '/' ::
          (N ++ (pathNorm parts.path).data ++
            (if (queryOf parts.query).data = [] then []
             else '?' :: (queryOf parts.query).data)) := by
        rw [← hok]
        rw [urlunsplitM_data parts.scheme (String.mk N) (pathNorm parts.path)
          (queryOf parts.query) (stringMk_ne_empty N hNne) hscheme hPhead]
      have hw2 : w = String.mk (parts.scheme.data ++ ':' :: '/' :: '/' ::
          (N ++ (pathNorm parts.path).data ++
            (if (queryOf parts.query).data = [] then []
             else '?' :: (queryOf parts.query).data))) := String.ext hwdata
      have hrec := pyUrlsplit_rebuild parts.scheme.data N
        (pathNorm parts.path).data (queryOf parts.query).data
        hSne hSalpha hSall hNchar hNbr1 hNbr2 hPhead hPq hPh hPt hQh hQt
      unfold canonicalize_url
      dsimp only
      rw [hstrip]
      rw [if_neg (show ¬ w = "" from by
        rw [hw2]
        apply stringMk_ne_empty
        simp)]
      rw [hw2, hrec]
      dsimp only
      rw [hNport]
      dsimp only
      rw [hSfix]
      rw [show String.mk parts.scheme.data = parts.scheme from rfl]
      rw [hSid, hNfix]
      rw [show String.mk (pathNorm parts.path).data = pathNorm parts.path
        from rfl]
      rw [pathNorm_idem]
      rw [show String.mk (queryOf parts.query).data = queryOf parts.query
        from rfl]
      rw [queryOf_idem]
      rw [← hw2, hok]

/-- C8: the spec's unconditional idempotence claim fails: canonicalizing
"http://h/a #f" yields "http://h/a " (fragment removal exposes a trailing
space), and canonicalizing that output strips the space, producing a
different string. -/
theorem canonicalize_url_not_idempotent :
    canonicalize_url "http://h/a #f" = Except.ok "http://h/a " ∧
    canonicalize_url "http://h/a " = Except.ok "http://h/a" ∧
    ("http://h/a " : String) ≠ "http://h/a" :=
  ⟨rfl, rfl, by decide⟩

/-- C8 witness: the corrected idempotence theorem applied at a concrete
URL with scheme, host, tracking parameter, unsorted query and fragment. -/
theorem canonicalize_url_idempotent_witness :
    canonicalize_url "http://ex.com/path?a=1&b=2" =
      Except.ok "http://ex.com/path?a=1&b=2" :=
  canonicalize_url_idempotent "HTTP://Ex.com/path/?b=2&a=1&utm_source=x#frag"
    "http://ex.com/path?a=1&b=2"
    ⟨"http", "Ex.com", "/path/", "b=2&a=1&utm_source=x", "frag"⟩
    rfl (by decide) (by decide) (by decide)
    (by set_option maxHeartbeats 4000000 in rfl) rfl

end SentinelStream
